import Mathlib

/-!
# A shallow embedding of `src/workers.js`

The worker is an HTTP reverse proxy for HLS playlists.  Its handlers are
embedded as Lean functions:

* strings are lists of Unicode scalar values (`Str`): every string the worker
  handles comes from `Response.text()`, from the URL parser or from a string
  literal, so none holds a lone surrogate;
* the network is an oracle `Net` from the log of earlier upstream calls and the
  present call to its outcome; every handler threads the log of the calls it
  makes, so that the order and number of upstream fetches can be stated;
* the cache store is an association list keyed by the request URL;
* an exception is a value `Except.error msg`, `msg` being `err.message`.

Platform functions (`encodeURIComponent`, `decodeURIComponent`,
`String.prototype.split`, `Headers`, `URLSearchParams`, the UTF-8 decoder, the
two regular expressions) are modelled after their standards.  The one-argument
`new URL(request.url)` is modelled for serialised absolute `http(s)` URLs, which
is what the runtime hands over; the two-argument `new URL(line, variantUrl)` is
a parameter `resolve` of the handlers that use it, so that what is proved of
them holds whatever the platform resolves, and `resolveURL` is its model after
the URL standard.  The count of producer invocations in `World` is ghost state:
the source has no such counter.
-/

namespace Workers

/-- A JavaScript string without lone surrogates. -/
abbrev Str := List Char

/-! ## String primitives -/

/-- The method `s.split(sep)` for a one-element separator: never the empty array. -/
def splitOn {α : Type} [DecidableEq α] (sep : α) : List α → List (List α)
  | [] => [[]]
  | c :: cs =>
    if c = sep then [] :: splitOn sep cs
    else
      match splitOn sep cs with
      | [] => [[c]]
      | l :: ls => (c :: l) :: ls

/-- The method `parts.join(sep)`. -/
def joinWith (sep : Str) : List Str → Str
  | [] => []
  | [l] => l
  | l :: l2 :: ls => l ++ sep ++ joinWith sep (l2 :: ls)

/-- The method `s.startsWith(p)`. -/
def startsWith (s p : Str) : Bool := List.isPrefixOf p s

/-- The method `s.endsWith(p)`. -/
def endsWith (s p : Str) : Bool := List.isSuffixOf p s

/-! ## `encodeURIComponent` -/

/-- The UTF-8 octets of a code point. -/
def utf8Bytes (n : Nat) : List Nat :=
  if n < 0x80 then [n]
  else if n < 0x800 then [0xC0 + n / 64, 0x80 + n % 64]
  else if n < 0x10000 then [0xE0 + n / 4096, 0x80 + n / 64 % 64, 0x80 + n % 64]
  else [0xF0 + n / 262144, 0x80 + n / 4096 % 64, 0x80 + n / 64 % 64, 0x80 + n % 64]

/-- An upper-case hexadecimal digit. -/
def hexDigit (d : Nat) : Char :=
  if d < 10 then Char.ofNat (48 + d) else Char.ofNat (55 + d)

/-- The escape `%XY` of one octet. -/
def pctByte (b : Nat) : Str := ['%', hexDigit (b / 16), hexDigit (b % 16)]

/-- The escapes of a list of octets. -/
def pctBytes : List Nat → Str
  | [] => []
  | b :: bs => pctByte b ++ pctBytes bs

/-- The characters `encodeURIComponent` leaves alone: ASCII letters and digits
and the marks `- _ . ! ~ * ' ( )`. -/
def isUnreserved (c : Char) : Bool :=
  let n := c.toNat
  (decide (65 ≤ n) && decide (n ≤ 90)) || (decide (97 ≤ n) && decide (n ≤ 122)) ||
  (decide (48 ≤ n) && decide (n ≤ 57)) ||
  decide (n = 45) || decide (n = 95) || decide (n = 46) || decide (n = 33) ||
  decide (n = 126) || decide (n = 42) || decide (n = 39) || decide (n = 40) ||
  decide (n = 41)

/-- The encoding of one character by `encodeURIComponent`. -/
def encodeChar (c : Char) : Str :=
  if isUnreserved c then [c] else pctBytes (utf8Bytes c.toNat)

/-- The function `encodeURIComponent` (total on strings without lone surrogates). -/
def encodeURIComponent : Str → Str
  | [] => []
  | c :: cs => encodeChar c ++ encodeURIComponent cs

/-! ## Headers, requests, responses, network -/

/-- ASCII lower-casing of a header name. -/
def lower (s : Str) : Str := s.map Char.toLower

/-- A header list; names are compared without regard to ASCII case. -/
abbrev Headers := List (Str × Str)

/-- Whether an entry of a header list carries the given name. -/
def named (name : Str) (p : Str × Str) : Bool := decide (lower p.1 = lower name)

/-- The method `headers.get(name)`: `none` is `null`; several values of one
name are joined by a comma and a space. -/
def Headers.get (h : Headers) (name : Str) : Option Str :=
  match (h.filter (named name)).map Prod.snd with
  | [] => none
  | vs => some (joinWith ", ".toList vs)

/-- The method `headers.set(name, value)`: the only entry of that name afterwards. -/
def Headers.set (h : Headers) (name value : Str) : Headers :=
  h.filter (fun p => !named name p) ++ [(name, value)]

/-- The incoming request: its URL and its headers. -/
structure Request where
  url : Str
  headers : Headers
deriving DecidableEq, Repr

/-- A response, upstream or built by the worker: status, headers, body text. -/
structure Response where
  status : Nat
  headers : Headers
  body : Str
deriving DecidableEq, Repr

/-- The getter `response.ok`. -/
def Response.ok (r : Response) : Bool := decide (200 ≤ r.status) && decide (r.status ≤ 299)

/-- The constructor `new Response(text, { status, headers })` for a string body:
a string body brings the content type `text/plain;charset=UTF-8` unless the
headers name one. -/
def mkTextResponse (body : Str) (status : Nat) (headers : Headers) : Response :=
  { status := status
    headers :=
      match Headers.get headers "content-type".toList with
      | some _ => headers
      | none => headers ++ [("content-type".toList, "text/plain;charset=UTF-8".toList)]
    body := body }

/-- One outbound call of `fetch`: the resource and the headers of `init`. -/
structure FetchCall where
  url : Str
  headers : List (Str × Str)
deriving DecidableEq, Repr

/-- The upstream world: what `fetch` yields for a call, given the calls made
before it.  An `error` is a rejected fetch. -/
abbrev Net := List FetchCall → FetchCall → Except Str Response

/-- The constant `USER_AGENT`. -/
def USER_AGENT : Str :=
  ("Mozilla/5.0 (Windows NT 10.0; Win64; x64) AppleWebKit/537.36 " ++
   "(KHTML, like Gecko) Chrome/116.0.0.0 Safari/537.36").toList

/-- The constant `CACHE_TTL.MASTER`. -/
def CACHE_TTL_MASTER : Nat := 10
/-- The constant `CACHE_TTL.VARIANT`. -/
def CACHE_TTL_VARIANT : Nat := 5
/-- The constant `CACHE_TTL.SEGMENT`. -/
def CACHE_TTL_SEGMENT : Nat := 30

/-- The call `Object.assign(target, source)` on objects with string keys: a key
of the source overwrites the value in place or is appended. -/
def objectAssign (target : List (Str × Str)) : List (Str × Str) → List (Str × Str)
  | [] => target
  | (k, v) :: rest =>
    objectAssign
      (if target.any (fun p => decide (p.1 = k))
       then target.map (fun p => if p.1 = k then (k, v) else p)
       else target ++ [(k, v)])
      rest

/-- The headers `fetchWithUA` sends: the browser identity, overridden or
extended by `init.headers`. -/
def uaHeaders (initHeaders : List (Str × Str)) : List (Str × Str) :=
  objectAssign
    [("User-Agent".toList, USER_AGENT), ("Accept".toList, "*/*".toList),
     ("Accept-Language".toList, "en-US,en;q=0.9".toList)] initHeaders

/-- The function `fetchWithUA(resource, init)`: the call is appended to the log. -/
def fetchWithUA (net : Net) (resource : Str) (initHeaders : List (Str × Str))
    (log : List FetchCall) : Except Str Response × List FetchCall :=
  (net log { url := resource, headers := uaHeaders initHeaders },
   log ++ [{ url := resource, headers := uaHeaders initHeaders }])

/-- The function `corsHeaders()` with no extra entries. -/
def corsHeaders : Headers :=
  [("Access-Control-Allow-Origin".toList, "*".toList),
   ("Access-Control-Allow-Methods".toList, "GET,HEAD,OPTIONS".toList),
   ("Access-Control-Allow-Headers".toList, "Range,Accept,Content-Type".toList)]

/-- The headers of both playlist responses. -/
def playlistHeaders : Headers :=
  ("Content-Type".toList, "application/vnd.apple.mpegurl".toList) :: corsHeaders

/-- The expression `request.url.split("?")[0]`. -/
def proxyBaseOf (url : Str) : Str := (splitOn '?' url).headD []

/-! ## Variant playlist rewriter -/

/-- The callback of `map` in `handleVariantPlaylistProxy`: a tag, comment or
empty line is returned as it is, any other line is resolved against
`variantUrl` and wrapped; `resolve line variantUrl` is
`new URL(line, variantUrl).toString()`, an `error` when the constructor throws. -/
def rewriteLine (resolve : Str → Str → Except Str Str) (variantUrl proxyBase line : Str) :
    Except Str Str :=
  if startsWith line ['#'] || line.isEmpty then .ok line
  else
    match resolve line variantUrl with
    | .error e => .error e
    | .ok abs => .ok (proxyBase ++ "?url=".toList ++ encodeURIComponent abs)

/-- The method `lines.map(f)` for a callback that may throw: the first throw, in
order, ends the map. -/
def mapLines (f : Str → Except Str Str) : List Str → Except Str (List Str)
  | [] => .ok []
  | l :: ls =>
    match f l with
    | .error e => .error e
    | .ok l2 =>
      match mapLines f ls with
      | .error e => .error e
      | .ok ls2 => .ok (l2 :: ls2)

/-- The expression `text.split("\n").map(...).join("\n")` of
`handleVariantPlaylistProxy`. -/
def rewriteVariant (resolve : Str → Str → Except Str Str) (variantUrl proxyBase text : Str) :
    Except Str Str :=
  match mapLines (rewriteLine resolve variantUrl proxyBase) (splitOn '\n' text) with
  | .error e => .error e
  | .ok ls => .ok (joinWith ['\n'] ls)

/-- The function `handleVariantPlaylistProxy(variantUrl, request)`. -/
def handleVariantPlaylistProxy (resolve : Str → Str → Except Str Str) (net : Net)
    (variantUrl : Str) (request : Request) (log : List FetchCall) :
    Except Str Response × List FetchCall :=
  match fetchWithUA net variantUrl [] log with
  | (.error e, log2) => (.error e, log2)
  | (.ok res, log2) =>
    match rewriteVariant resolve variantUrl (proxyBaseOf request.url) res.body with
    | .error e => (.error e, log2)
    | .ok rewritten => (.ok (mkTextResponse rewritten 200 playlistHeaders), log2)

/-! ## The UTF-8 decoder -/

/-- The replacement character U+FFFD. -/
def replacementChar : Char := Char.ofNat 0xFFFD

/-- The state of the UTF-8 decoder of the Encoding standard: the code point
under construction, the continuation octets still needed and the bounds of the
next octet. -/
structure Utf8State where
  cp : Nat
  needed : Nat
  lo : Nat
  hi : Nat
deriving DecidableEq, Repr

/-- The decoder state between code points. -/
def Utf8State.init : Utf8State := { cp := 0, needed := 0, lo := 0x80, hi := 0xBF }

/-- The decoder on an octet read between code points: a character to emit, if
any, and the next state. -/
def utf8Lead (b : Nat) : Option Char × Utf8State :=
  if b ≤ 0x7F then (some (Char.ofNat b), Utf8State.init)
  else if 0xC2 ≤ b ∧ b ≤ 0xDF then (none, { cp := b - 0xC0, needed := 1, lo := 0x80, hi := 0xBF })
  else if 0xE0 ≤ b ∧ b ≤ 0xEF then
    (none, { cp := b - 0xE0, needed := 2, lo := if b = 0xE0 then 0xA0 else 0x80,
             hi := if b = 0xED then 0x9F else 0xBF })
  else if 0xF0 ≤ b ∧ b ≤ 0xF4 then
    (none, { cp := b - 0xF0, needed := 3, lo := if b = 0xF0 then 0x90 else 0x80,
             hi := if b = 0xF4 then 0x8F else 0xBF })
  else (some replacementChar, Utf8State.init)

/-- The UTF-8 decoder of the Encoding standard with replacement of errors: an
octet out of bounds ends the sequence with U+FFFD and is read again as the
start of the next one. -/
def utf8DecodeFrom : Utf8State → List Nat → Str
  | st, [] => if st.needed = 0 then [] else [replacementChar]
  | st, b :: bs =>
    if st.needed = 0 then
      (utf8Lead b).1.toList ++ utf8DecodeFrom (utf8Lead b).2 bs
    else if b < st.lo ∨ st.hi < b then
      replacementChar :: ((utf8Lead b).1.toList ++ utf8DecodeFrom (utf8Lead b).2 bs)
    else if st.needed = 1 then
      Char.ofNat (st.cp * 64 + b % 64) :: utf8DecodeFrom Utf8State.init bs
    else
      utf8DecodeFrom { cp := st.cp * 64 + b % 64, needed := st.needed - 1, lo := 0x80, hi := 0xBF } bs

/-- The algorithm "UTF-8 decode without BOM". -/
def utf8Decode (bs : List Nat) : Str := utf8DecodeFrom Utf8State.init bs

/-! ## Master playlist rewriter -/

/-- The class `\s` of JavaScript regular expressions. -/
def isWhiteSpace (c : Char) : Bool :=
  let n := c.toNat
  (decide (9 ≤ n) && decide (n ≤ 13)) || decide (n = 0x20) || decide (n = 0xA0) ||
  decide (n = 0x1680) || (decide (0x2000 ≤ n) && decide (n ≤ 0x200A)) ||
  decide (n = 0x2028) || decide (n = 0x2029) || decide (n = 0x202F) ||
  decide (n = 0x205F) || decide (n = 0x3000) || decide (n = 0xFEFF)

/-- The class `[^\s\r\n,]` of the URL pattern. -/
def isUrlChar (c : Char) : Bool := !isWhiteSpace c && !decide (c = ',')

/-- The match of the pattern `https?:\/\/[^\s\r\n,]+` that starts at the head of
`s`, if there is one: the scheme, then the longest run of class characters,
which must not be empty. -/
def matchUrlAt (s : Str) : Option Str :=
  if startsWith s "https://".toList then
    let run := (s.drop 8).takeWhile isUrlChar
    if run.isEmpty then none else some ("https://".toList ++ run)
  else if startsWith s "http://".toList then
    let run := (s.drop 7).takeWhile isUrlChar
    if run.isEmpty then none else some ("http://".toList ++ run)
  else none

/-- The call `text.replace(/(https?:\/\/[^\s\r\n,]+)/g, m => proxyBase + "?variant=" +
encodeURIComponent(m))`: the text is scanned from the left; `skip` counts the
characters still to pass that belong to the match just replaced. -/
def replaceUrls (proxyBase : Str) : Nat → Str → Str
  | _, [] => []
  | skip + 1, _ :: rest => replaceUrls proxyBase skip rest
  | 0, c :: rest =>
    match matchUrlAt (c :: rest) with
    | some m =>
      proxyBase ++ "?variant=".toList ++ encodeURIComponent m ++
        replaceUrls proxyBase (m.length - 1) rest
    | none => c :: replaceUrls proxyBase 0 rest

/-- The text before the capture group of `/"hlsManifestUrl":"([^"]+)"/`. -/
def MARKER : Str := "\"hlsManifestUrl\":\"".toList

/-- The capture group of `/"hlsManifestUrl":"([^"]+)"/` for a match that starts
at the head of `s`: a run of one or more characters other than the quote,
closed by a quote. -/
def markerAt (s : Str) : Option Str :=
  if startsWith s MARKER then
    let rest := s.drop MARKER.length
    let run := rest.takeWhile (fun c => !decide (c = '"'))
    if run.isEmpty then none
    else
      match rest.dropWhile (fun c => !decide (c = '"')) with
      | [] => none
      | _ :: _ => some run
  else none

/-- The call `html.match(/"hlsManifestUrl":"([^"]+)"/)`, reduced to the capture
group of the leftmost match; `none` is `null`. -/
def findMarker : Str → Option Str
  | [] => none
  | c :: rest =>
    match markerAt (c :: rest) with
    | some u => some u
    | none => findMarker rest

/-- The call `s.replace(/\\u0026/g, "&")`: every six-character text `\u0026`
becomes an ampersand. -/
def unescapeAmp : Nat → Str → Str
  | _, [] => []
  | skip + 1, _ :: rest => unescapeAmp skip rest
  | 0, c :: rest =>
    if startsWith (c :: rest) "\\u0026".toList then '&' :: unescapeAmp 5 rest
    else c :: unescapeAmp 0 rest

/-- The value of a hexadecimal digit. -/
def hexVal (c : Char) : Option Nat :=
  let n := c.toNat
  if 48 ≤ n ∧ n ≤ 57 then some (n - 48)
  else if 65 ≤ n ∧ n ≤ 70 then some (n - 55)
  else if 97 ≤ n ∧ n ≤ 102 then some (n - 87)
  else none

/-- A unit of the input of `decodeURIComponent`: a literal character or the
octet of an escape `%XY`. -/
inductive UriItem where
  | lit (c : Char)
  | esc (b : Nat)
deriving DecidableEq, Repr

/-- The escapes of the input of `decodeURIComponent` read; a `%` that two
hexadecimal digits do not follow is a `URIError`. -/
def uriItems : Str → Except Str (List UriItem)
  | [] => .ok []
  | c :: tl =>
    if c = '%' then
      match tl with
      | a :: b :: rest =>
        match hexVal a, hexVal b with
        | some x, some y =>
          match uriItems rest with
          | .ok items => .ok (UriItem.esc (16 * x + y) :: items)
          | .error e => .error e
        | _, _ => .error "URI malformed".toList
      | _ => .error "URI malformed".toList
    else
      match uriItems tl with
      | .ok items => .ok (UriItem.lit c :: items)
      | .error e => .error e

/-- A character put in front of a decoded rest, if there is one. -/
def okCons (c : Char) : Except Str Str → Except Str Str
  | .ok s => .ok (c :: s)
  | .error e => .error e

/-- The octets of the escapes decoded as UTF-8, literal characters passed on;
the state is that of the UTF-8 decoder.  An octet sequence that is not the UTF-8
encoding of a code point, or one cut short by a literal character or the end,
is a `URIError`. -/
def decodeItemsFrom : Utf8State → List UriItem → Except Str Str
  | st, [] => if st.needed = 0 then .ok [] else .error "URI malformed".toList
  | st, UriItem.lit c :: rest =>
    if st.needed = 0 then okCons c (decodeItemsFrom Utf8State.init rest)
    else .error "URI malformed".toList
  | st, UriItem.esc b :: rest =>
    if st.needed = 0 then
      if b ≤ 0x7F then okCons (Char.ofNat b) (decodeItemsFrom Utf8State.init rest)
      else if (utf8Lead b).2.needed = 0 then .error "URI malformed".toList
      else decodeItemsFrom (utf8Lead b).2 rest
    else if b < st.lo ∨ st.hi < b then .error "URI malformed".toList
    else if st.needed = 1 then
      okCons (Char.ofNat (st.cp * 64 + b % 64)) (decodeItemsFrom Utf8State.init rest)
    else
      decodeItemsFrom
        { cp := st.cp * 64 + b % 64, needed := st.needed - 1, lo := 0x80, hi := 0xBF } rest

/-- The function `decodeURIComponent`; an `error` is a thrown `URIError`. -/
def decodeURIComponent (s : Str) : Except Str Str :=
  match uriItems s with
  | .ok items => decodeItemsFrom Utf8State.init items
  | .error e => .error e

/-- The function `extractHlsManifestFromYouTube(url)`; `ok none` is `null`. -/
def extractHlsManifestFromYouTube (net : Net) (url : Str) (log : List FetchCall) :
    Except Str (Option Str) × List FetchCall :=
  match fetchWithUA net url [] log with
  | (.error e, log2) => (.error e, log2)
  | (.ok res, log2) =>
    match findMarker res.body with
    | some m =>
      match decodeURIComponent (unescapeAmp 0 m) with
      | .ok u => (.ok (some u), log2)
      | .error e => (.error e, log2)
    | none => (.ok none, log2)

/-- The truth value of `manifestUrl`: `null`, `undefined` and the empty string are
falsy. -/
def truthy : Option Str → Bool
  | some s => !s.isEmpty
  | none => false

/-- The array `urls` of `handleMasterRequest`. -/
def candidateUrls (handle : Str) : List Str :=
  ["https://www.youtube.com/".toList ++ handle ++ "/live".toList,
   "https://www.youtube.com/channel/".toList ++ handle ++ "/live".toList,
   "https://www.youtube.com/watch?v=".toList ++ handle]

/-- The loop `for (const u of urls)` of `handleMasterRequest`: `manifestUrl` is
assigned from each candidate in turn and the loop breaks on the first truthy
value. -/
def findManifest (net : Net) : List Str → Option Str → List FetchCall →
    Except Str (Option Str) × List FetchCall
  | [], manifestUrl, log => (.ok manifestUrl, log)
  | u :: us, _, log =>
    match extractHlsManifestFromYouTube net u log with
    | (.error e, log2) => (.error e, log2)
    | (.ok m, log2) => if truthy m then (.ok m, log2) else findManifest net us m log2

/-- The function `handleMasterRequest(handle, request)`. -/
def handleMasterRequest (net : Net) (handle : Str) (request : Request)
    (log : List FetchCall) : Except Str Response × List FetchCall :=
  match findManifest net (candidateUrls handle) none log with
  | (.error e, log2) => (.error e, log2)
  | (.ok manifestUrl, log2) =>
    if !truthy manifestUrl then
      (.ok (mkTextResponse "Manifest not found".toList 404 []), log2)
    else
      match fetchWithUA net (manifestUrl.getD []) [] log2 with
      | (.error e, log3) => (.error e, log3)
      | (.ok res, log3) =>
        (.ok (mkTextResponse (replaceUrls (proxyBaseOf request.url) 0 res.body) 200
          playlistHeaders), log3)

/-! ## Segment proxy -/

/-- The constant `headers` of `handleSegmentProxy`: the conditional
`range ? { Range: range } : {}` on `request.headers.get("range")` takes `null`
and the empty string as false. -/
def forwardedHeaders (request : Request) : List (Str × Str) :=
  if truthy (Headers.get request.headers "range".toList) then
    [("Range".toList, (Headers.get request.headers "range".toList).getD [])]
  else []

/-- The function `handleSegmentProxy(targetUrl, request)`. -/
def handleSegmentProxy (net : Net) (targetUrl : Str) (request : Request)
    (log : List FetchCall) : Except Str Response × List FetchCall :=
  match fetchWithUA net targetUrl (forwardedHeaders request) log with
  | (.error e, log2) => (.error e, log2)
  | (.ok upstream, log2) =>
    (.ok { status := upstream.status
           headers := Headers.set upstream.headers "Access-Control-Allow-Origin".toList "*".toList
           body := upstream.body }, log2)

/-! ## Cache-aside layer -/

/-- The cache store `caches.default`: entries keyed by the request URL. -/
abbrev Cache := List (Str × Response)

/-- The method `cache.match(new Request(url))`; `none` is `undefined`. -/
def Cache.lookup (c : Cache) (url : Str) : Option Response := List.lookup url c

/-- The method `cache.put(new Request(url), response)`. -/
def Cache.put (c : Cache) (url : Str) (r : Response) : Cache :=
  (url, r) :: c.filter (fun p => !decide (p.1 = url))

/-- The state a request runs in: the cache store, the log of upstream calls and
a ghost counter of producer invocations. -/
structure World where
  cache : Cache
  log : List FetchCall
  invocations : Nat
deriving DecidableEq, Repr

/-- A producer `fn(key, request)`: it may reach the network, not the cache; it
returns a response, `null` (`ok none`) or throws. -/
abbrev Producer := Str → Request → List FetchCall → Except Str (Option Response) × List FetchCall

/-- A handler that always returns a response object, as a producer. -/
def asProducer (h : Str → Request → List FetchCall → Except Str Response × List FetchCall) :
    Producer :=
  fun key request log =>
    match h key request log with
    | (.ok r, log2) => (.ok (some r), log2)
    | (.error e, log2) => (.error e, log2)

/-- The value of the header set by `cacheResponse`: the template
`public, max-age=${ttl}`. -/
def cacheControl (ttl : Nat) : Str := "public, max-age=".toList ++ (Nat.repr ttl).toList

/-- The statement `response.headers.set("Cache-Control", ...)` of `cacheResponse`. -/
def withCacheControl (response : Response) (ttl : Nat) : Response :=
  { response with
    headers := Headers.set response.headers "Cache-Control".toList (cacheControl ttl) }

/-- The function `cacheResponse(fn, key, ttl, request)`: the response is returned
with the header it was stored with. -/
def cacheResponse (fn : Producer) (key : Str) (ttl : Nat) (request : Request) (w : World) :
    Except Str (Option Response) × World :=
  match w.cache.lookup request.url with
  | some response => (.ok (some response), w)
  | none =>
    match fn key request w.log with
    | (.error e, log2) => (.error e, { w with log := log2, invocations := w.invocations + 1 })
    | (.ok none, log2) => (.ok none, { w with log := log2, invocations := w.invocations + 1 })
    | (.ok (some response), log2) =>
      if response.ok then
        (.ok (some (withCacheControl response ttl)),
          { cache := w.cache.put request.url (withCacheControl response ttl), log := log2,
            invocations := w.invocations + 1 })
      else
        (.ok (some response), { w with log := log2, invocations := w.invocations + 1 })

/-! ## Request router -/

/-- The parts of a parsed URL the router reads: `pathname` and the query
(`search` without its question mark). -/
structure URLRecord where
  pathname : Str
  query : Str
deriving DecidableEq, Repr

/-- The special-query percent-encode set of the URL standard. -/
def inQuerySet (c : Char) : Bool :=
  let n := c.toNat
  decide (n ≤ 0x20) || decide (n = 0x22) || decide (n = 0x23) || decide (n = 0x27) ||
  decide (n = 0x3C) || decide (n = 0x3E) || decide (0x7E < n)

/-- The percent-encoding the URL parser applies to a query. -/
def queryEncode : Str → Str
  | [] => []
  | c :: cs => (if inQuerySet c then pctBytes (utf8Bytes c.toNat) else [c]) ++ queryEncode cs

/-- What follows the scheme and `//` of an absolute `http` or `https` URL. -/
def schemeRest (s : Str) : Option Str :=
  if startsWith s "https://".toList then some (s.drop 8)
  else if startsWith s "http://".toList then some (s.drop 7)
  else none

/-- A character of the authority: the authority ends at the first `/`, `?` or `#`. -/
def inAuthority (c : Char) : Bool := !(decide (c = '/') || decide (c = '?') || decide (c = '#'))

/-- A character of the path: the path ends at the first `?` or `#`. -/
def inPath (c : Char) : Bool := !(decide (c = '?') || decide (c = '#'))

/-- The authority, path and query of a URL read from the text behind its scheme;
the query ends at the first `#`; an empty host is a `TypeError`. -/
def parseAfterScheme (rest : Str) : Except Str URLRecord :=
  if (rest.takeWhile inAuthority).isEmpty then .error "Invalid URL".toList
  else
    .ok { pathname :=
            if ((rest.dropWhile inAuthority).takeWhile inPath).isEmpty then ['/']
            else (rest.dropWhile inAuthority).takeWhile inPath
          query :=
            queryEncode
              (match (rest.dropWhile inAuthority).dropWhile inPath with
               | '?' :: q => q.takeWhile (fun c => !decide (c = '#'))
               | _ => []) }

/-- The constructor `new URL(request.url)` for the absolute `http` or `https`
URL, in serialised form, that the runtime hands over as `request.url`.  Any
other text is a `TypeError`. -/
def parseURL (s : Str) : Except Str URLRecord :=
  match schemeRest s with
  | none => .error "Invalid URL".toList
  | some rest => parseAfterScheme rest

/-- The octet of an escape `%XY` at the head of an octet sequence, if one
stands there. -/
def escapeAt : List Nat → Option Nat
  | 37 :: a :: b :: _ =>
    match hexVal (Char.ofNat a), hexVal (Char.ofNat b) with
    | some x, some y => some (16 * x + y)
    | _, _ => none
  | _ => none

/-- The percent-decoding of an octet sequence (URL standard); `skip` counts the
digits still to pass of the escape just decoded. -/
def percentDecode : Nat → List Nat → List Nat
  | _, [] => []
  | skip + 1, _ :: tl => percentDecode skip tl
  | 0, c :: tl =>
    match escapeAt (c :: tl) with
    | some v => v :: percentDecode 2 tl
    | none => c :: percentDecode 0 tl

/-- The algorithm "UTF-8 encode". -/
def utf8Encode (s : Str) : List Nat := s.flatMap (fun c => utf8Bytes c.toNat)

/-- The octet of `+` replaced by that of the space. -/
def plusToSpace (b : Nat) : Nat := if b = 43 then 32 else b

/-- A name or value of a query pair decoded: `+` is a space, escapes are
octets, the octets are UTF-8. -/
def decodeFormComponent (bs : List Nat) : Str :=
  utf8Decode (percentDecode 0 (bs.map plusToSpace))

/-- The `application/x-www-form-urlencoded` parser on the octets of a query. -/
def parseUrlencoded (input : List Nat) : List (Str × Str) :=
  (splitOn 38 input).filterMap (fun bytes =>
    if bytes.isEmpty then none
    else
      some (decodeFormComponent (bytes.takeWhile (fun b => !decide (b = 61))),
            decodeFormComponent ((bytes.dropWhile (fun b => !decide (b = 61))).drop 1)))

/-- The getter `url.searchParams`: the pairs of the query, in order. -/
def searchParams (url : URLRecord) : List (Str × Str) :=
  parseUrlencoded (utf8Encode url.query)

/-- The method `searchParams.get(name)`: the first value of that name; `none`
is `null`, which is also when `searchParams.has(name)` is false. -/
def paramGet (qp : List (Str × Str)) (name : Str) : Option Str := List.lookup name qp

/-- The `catch` clause of `handleRequest`: a thrown error becomes a 500 response. -/
def catch500 (r : Except Str (Option Response) × World) : Option Response × World :=
  match r with
  | (.ok response, w) => (response, w)
  | (.error msg, w) => (some (mkTextResponse ("Error: ".toList ++ msg) 500 []), w)

/-- The function `handleRequest(request)`; `none` is a `null` handed back by a
producer. -/
def handleRequest (resolve : Str → Str → Except Str Str) (net : Net) (request : Request)
    (w : World) : Option Response × World :=
  match parseURL request.url with
  | .error msg => (some (mkTextResponse ("Error: ".toList ++ msg) 500 []), w)
  | .ok url =>
    let parts := (splitOn '/' url.pathname).filter (fun p => !p.isEmpty)
    let qp := searchParams url
    match parts with
    | handle :: filename :: _ =>
      if !endsWith filename ".m3u8".toList then
        (some (mkTextResponse "Only .m3u8 supported".toList 400 []), w)
      else
        match paramGet qp "url".toList with
        | some target =>
          catch500 (cacheResponse (asProducer (handleSegmentProxy net)) target
            CACHE_TTL_SEGMENT request w)
        | none =>
          match paramGet qp "variant".toList with
          | some variant =>
            catch500 (cacheResponse (asProducer (handleVariantPlaylistProxy resolve net)) variant
              CACHE_TTL_VARIANT request w)
          | none =>
            catch500 (cacheResponse (asProducer (handleMasterRequest net)) handle
              CACHE_TTL_MASTER request w)
    | _ => (some (mkTextResponse "Usage: /@handle/stream.m3u8".toList 400 []), w)

/-! ## The URL parser behind `new URL(line, variantUrl)`

A model of the basic URL parser and the URL serialiser of the URL standard for
the special schemes `http`, `https`, `ws`, `wss` and `ftp`.  The parser's state
machine is written out by what each state consumes: the fragment is what
follows the first `#`, the query what lies between the first `?` before it and
that `#`, the authority ends at the first slash or backslash, the path is split
at slashes and backslashes.  Outside the model, and answered with an error
that names it, are the scheme `file`, non-special schemes, and hosts that are
bracketed (IPv6), hold a non-ASCII octet or a label that starts with `xn--`. -/

/-- A URL record with a special scheme. -/
structure Url where
  scheme : Str
  username : Str
  password : Str
  host : Str
  port : Option Nat
  path : List Str
  query : Option Str
  fragment : Option Str
deriving DecidableEq, Repr

/-- A C0 control or a space. -/
def isC0OrSpace (c : Char) : Bool := decide (c.toNat ≤ 0x20)

/-- The input with leading and trailing C0 controls and spaces removed. -/
def trimC0Space (s : Str) : Str :=
  ((s.dropWhile isC0OrSpace).reverse.dropWhile isC0OrSpace).reverse

/-- An ASCII tab or newline. -/
def isTabOrNewline (c : Char) : Bool :=
  decide (c.toNat = 9) || decide (c.toNat = 10) || decide (c.toNat = 13)

/-- The input with every ASCII tab and newline removed. -/
def removeTabNewline (s : Str) : Str := s.filter (fun c => !isTabOrNewline c)

/-- An ASCII letter. -/
def isAsciiAlpha (c : Char) : Bool :=
  (decide (65 ≤ c.toNat) && decide (c.toNat ≤ 90)) ||
  (decide (97 ≤ c.toNat) && decide (c.toNat ≤ 122))

/-- An ASCII digit. -/
def isAsciiDigit (c : Char) : Bool := decide (48 ≤ c.toNat) && decide (c.toNat ≤ 57)

/-- A character of a scheme: a letter, a digit, `+`, `-` or `.`. -/
def isSchemeChar (c : Char) : Bool :=
  isAsciiAlpha c || isAsciiDigit c || decide (c.toNat = 43) || decide (c.toNat = 45) ||
  decide (c.toNat = 46)

/-- The scheme start and scheme states: a letter, scheme characters and a colon
give the scheme, lower-cased, and what follows the colon. -/
def splitScheme (s : Str) : Option (Str × Str) :=
  match s with
  | [] => none
  | c :: _ =>
    if isAsciiAlpha c then
      match s.dropWhile isSchemeChar with
      | [] => none
      | d :: rest => if d = ':' then some (lower (s.takeWhile isSchemeChar), rest) else none
    else none

/-- The default port of a special scheme other than `file`; `none` for any other
scheme. -/
def defaultPort (scheme : Str) : Option Nat :=
  if scheme = "http".toList then some 80
  else if scheme = "https".toList then some 443
  else if scheme = "ws".toList then some 80
  else if scheme = "wss".toList then some 443
  else if scheme = "ftp".toList then some 21
  else none

/-- A slash or, as special schemes read it, a backslash. -/
def isSlash (c : Char) : Bool := decide (c.toNat = 47) || decide (c.toNat = 92)

/-- The text before the first `sep`. -/
def beforeChar (sep : Char) (s : Str) : Str := s.takeWhile (fun c => !decide (c = sep))

/-- The text after the first `sep`, if there is one. -/
def afterChar (sep : Char) (s : Str) : Option Str :=
  match s.dropWhile (fun c => !decide (c = sep)) with
  | [] => none
  | _ :: rest => some rest

/-- The text split at every character the test accepts. -/
def splitBy (p : Char → Bool) : Str → List Str
  | [] => [[]]
  | c :: cs =>
    if p c then [] :: splitBy p cs
    else
      match splitBy p cs with
      | [] => [[c]]
      | l :: ls => (c :: l) :: ls

/-- The operation "UTF-8 percent-encode" with a percent-encode set. -/
def percentEncodeWith (inSet : Char → Bool) : Str → Str
  | [] => []
  | c :: cs =>
    (if inSet c then pctBytes (utf8Bytes c.toNat) else [c]) ++ percentEncodeWith inSet cs

/-- The fragment percent-encode set. -/
def inFragmentSet (c : Char) : Bool :=
  let n := c.toNat
  decide (n ≤ 0x20) || decide (0x7E < n) || decide (n = 0x22) || decide (n = 0x3C) ||
  decide (n = 0x3E) || decide (n = 0x60)

/-- The path percent-encode set: the query set and `?`, `^`, the backtick and
the two braces. -/
def inPathSet (c : Char) : Bool :=
  let n := c.toNat
  decide (n ≤ 0x20) || decide (0x7E < n) || decide (n = 0x22) || decide (n = 0x23) ||
  decide (n = 0x3C) || decide (n = 0x3E) || decide (n = 0x3F) || decide (n = 0x5E) ||
  decide (n = 0x60) || decide (n = 0x7B) || decide (n = 0x7D)

/-- The userinfo percent-encode set: the path set and `/ : ; = @ [ \ ] |`. -/
def inUserinfoSet (c : Char) : Bool :=
  let n := c.toNat
  inPathSet c || decide (n = 0x2F) || decide (n = 0x3A) || decide (n = 0x3B) ||
  decide (n = 0x3D) || decide (n = 0x40) || decide (n = 0x5B) || decide (n = 0x5C) ||
  decide (n = 0x5D) || decide (n = 0x7C)

/-- A single-dot path segment: `.` or `%2e`, in any case. -/
def isSingleDot (seg : Str) : Bool :=
  decide (lower seg = ".".toList) || decide (lower seg = "%2e".toList)

/-- A double-dot path segment: `..`, `.%2e`, `%2e.` or `%2e%2e`, in any case. -/
def isDoubleDot (seg : Str) : Bool :=
  decide (lower seg = "..".toList) || decide (lower seg = ".%2e".toList) ||
  decide (lower seg = "%2e.".toList) || decide (lower seg = "%2e%2e".toList)

/-- The path state on the segments of a path text: a double-dot segment shortens
the path, a single-dot segment adds nothing, any other segment is appended; a
dot segment that ends the text leaves an empty last segment. -/
def addSegments : List Str → List Str → List Str
  | path, [] => path
  | path, [seg] =>
    if isDoubleDot seg then path.dropLast ++ [[]]
    else if isSingleDot seg then path ++ [[]]
    else path ++ [seg]
  | path, seg :: next :: more =>
    if isDoubleDot seg then addSegments path.dropLast (next :: more)
    else if isSingleDot seg then addSegments path (next :: more)
    else addSegments (path ++ [seg]) (next :: more)

/-- The path a path text adds to the segments `start`. -/
def parsePathText (start : List Str) (text : Str) : List Str :=
  addSegments start ((splitBy isSlash text).map (percentEncodeWith inPathSet))

/-- The text before the query, the query and the fragment of what stands behind
a scheme or in a relative reference. -/
structure UrlTail where
  main : Str
  query : Option Str
  fragment : Option Str
deriving DecidableEq, Repr

/-- The query and fragment states: the fragment is cut at the first `#`, the
query at the first `?` before it. -/
def splitTail (s : Str) : UrlTail :=
  { main := beforeChar '?' (beforeChar '#' s)
    query := (afterChar '?' (beforeChar '#' s)).map queryEncode
    fragment := (afterChar '#' s).map (percentEncodeWith inFragmentSet) }

/-- A forbidden domain code point. -/
def isForbiddenDomainChar (c : Char) : Bool :=
  let n := c.toNat
  decide (n ≤ 0x20) || decide (n = 0x23) || decide (n = 0x25) || decide (n = 0x2F) ||
  decide (n = 0x3A) || decide (n = 0x3C) || decide (n = 0x3E) || decide (n = 0x3F) ||
  decide (n = 0x40) || decide (n = 0x5B) || decide (n = 0x5C) || decide (n = 0x5D) ||
  decide (n = 0x5E) || decide (n = 0x7C) || decide (n = 0x7F)

/-- The value of a digit in a radix, if it is one. -/
def digitIn (radix : Nat) (c : Char) : Option Nat :=
  match hexVal c with
  | some v => if v < radix then some v else none
  | none => none

/-- The number a text is in a radix; the empty text is zero; `none` when a
character is no digit of the radix. -/
def parseRadix (radix : Nat) (s : Str) : Option Nat :=
  s.foldl (fun acc c =>
    match acc, digitIn radix c with
    | some n, some v => some (n * radix + v)
    | _, _ => none) (some 0)

/-- The IPv4 number parser: `0x` announces radix sixteen, a leading zero radix
eight; `none` is failure. -/
def parseIpv4Number (s : Str) : Option Nat :=
  match s with
  | [] => none
  | [_] => parseRadix 10 s
  | a :: b :: rest =>
    if a = '0' ∧ (b = 'x' ∨ b = 'X') then parseRadix 16 rest
    else if a = '0' then parseRadix 8 (b :: rest)
    else parseRadix 10 s

/-- The labels of a host for the IPv4 parser: an empty last label is dropped
when it is not the only one. -/
def ipv4Parts (host : Str) : List Str :=
  if (splitOn '.' host).getLast? = some [] ∧ 1 < (splitOn '.' host).length then
    (splitOn '.' host).dropLast
  else splitOn '.' host

/-- The "ends in a number" checker. -/
def endsInNumber (host : Str) : Bool :=
  if (splitOn '.' host).getLast? = some [] ∧ (splitOn '.' host).length = 1 then false
  else
    match (ipv4Parts host).getLast? with
    | none => false
    | some last =>
      (!last.isEmpty && last.all isAsciiDigit) || (parseIpv4Number last).isSome

/-- The address the numbers of an IPv4 host make: every number but the last is
one octet, the last fills the octets left; `none` is failure. -/
def ipv4Value : List Nat → Nat → Option Nat
  | [], _ => none
  | [last], left => if last < 256 ^ left then some last else none
  | n :: m :: more, left =>
    if 255 < n then none
    else
      match ipv4Value (m :: more) (left - 1) with
      | some v => some (n * 256 ^ (left - 1) + v)
      | none => none

/-- All the values of a list of options, if none is missing. -/
def allSome : List (Option Nat) → Option (List Nat)
  | [] => some []
  | none :: _ => none
  | some v :: rest =>
    match allSome rest with
    | some vs => some (v :: vs)
    | none => none

/-- The IPv4 parser followed by the IPv4 serialiser; `none` is failure. -/
def parseIpv4 (host : Str) : Option Str :=
  if 4 < (ipv4Parts host).length then none
  else
    match allSome ((ipv4Parts host).map parseIpv4Number) with
    | none => none
    | some numbers =>
      match ipv4Value numbers 4 with
      | none => none
      | some v =>
        some ((Nat.repr (v / 16777216)).toList ++ '.' :: (Nat.repr (v / 65536 % 256)).toList ++
          '.' :: (Nat.repr (v / 256 % 256)).toList ++ '.' :: (Nat.repr (v % 256)).toList)

/-- The host parser for a special scheme on an ASCII domain or an IPv4 address:
the text is percent-decoded and lower-cased, must not be empty nor hold a
forbidden domain code point, and is an IPv4 address when it ends in a number. -/
def parseHost (text : Str) : Except Str Str :=
  if startsWith text ['['] then .error "host outside the model".toList
  else if (percentDecode 0 (utf8Encode text)).any (fun b => decide (0x80 ≤ b)) then
    .error "host outside the model".toList
  else if (splitOn '.' (lower ((percentDecode 0 (utf8Encode text)).map Char.ofNat))).any
      (fun label => startsWith label "xn--".toList) then
    .error "host outside the model".toList
  else if (percentDecode 0 (utf8Encode text)).isEmpty then .error "Invalid URL".toList
  else if (lower ((percentDecode 0 (utf8Encode text)).map Char.ofNat)).any
      isForbiddenDomainChar then
    .error "Invalid URL".toList
  else if endsInNumber (lower ((percentDecode 0 (utf8Encode text)).map Char.ofNat)) then
    match parseIpv4 (lower ((percentDecode 0 (utf8Encode text)).map Char.ofNat)) with
    | some address => .ok address
    | none => .error "Invalid URL".toList
  else .ok (lower ((percentDecode 0 (utf8Encode text)).map Char.ofNat))

/-- The port state: digits only, at most 65535; the default port of the scheme
is not kept. -/
def parsePort (scheme : Str) (text : Option Str) : Except Str (Option Nat) :=
  match text with
  | none => .ok none
  | some digits =>
    if !digits.all isAsciiDigit then .error "Invalid URL".toList
    else if digits.isEmpty then .ok none
    else
      match parseRadix 10 digits with
      | none => .error "Invalid URL".toList
      | some port =>
        if 65535 < port then .error "Invalid URL".toList
        else if defaultPort scheme = some port then .ok none
        else .ok (some port)

/-- The text of an authority after its last `@`. -/
def hostPortOf (authority : Str) : Str :=
  (authority.reverse.takeWhile (fun c => !decide (c = '@'))).reverse

/-- The text of an authority before its last `@`; empty when there is none. -/
def userinfoOf (authority : Str) : Str :=
  ((authority.reverse.dropWhile (fun c => !decide (c = '@'))).drop 1).reverse

/-- The authority, host, port and path start states and what follows, for a
special scheme: `s` is the input behind the scheme, leading slashes skipped. -/
def parseAuthority (scheme : Str) (s : Str) : Except Str Url :=
  let authority := (splitTail s).main.takeWhile (fun c => !isSlash c)
  let pathPart := (splitTail s).main.dropWhile (fun c => !isSlash c)
  if authority.any (fun c => decide (c = '@')) && (hostPortOf authority).isEmpty then
    .error "Invalid URL".toList
  else if (beforeChar ':' (hostPortOf authority)).isEmpty then .error "Invalid URL".toList
  else
    match parseHost (beforeChar ':' (hostPortOf authority)) with
    | .error e => .error e
    | .ok host =>
      match parsePort scheme (afterChar ':' (hostPortOf authority)) with
      | .error e => .error e
      | .ok port =>
        .ok { scheme := scheme
              username := percentEncodeWith inUserinfoSet (beforeChar ':' (userinfoOf authority))
              password :=
                percentEncodeWith inUserinfoSet
                  ((afterChar ':' (userinfoOf authority)).getD [])
              host := host
              port := port
              path := parsePathText [] (pathPart.drop 1)
              query := (splitTail s).query
              fragment := (splitTail s).fragment }

/-- The relative and relative slash states: a reference without a scheme, or
with the scheme of the base, read against the base. -/
def parseRelative (base : Url) (s : Str) : Except Str Url :=
  match s with
  | [] => .ok { base with fragment := none }
  | c :: rest =>
    if isSlash c then
      if (rest.head?.map isSlash).getD false then
        parseAuthority base.scheme (s.dropWhile isSlash)
      else
        .ok { base with
              path := parsePathText [] (splitTail rest).main
              query := (splitTail rest).query
              fragment := (splitTail rest).fragment }
    else if c = '?' then
      .ok { base with
            query := some (queryEncode (beforeChar '#' rest))
            fragment := (afterChar '#' rest).map (percentEncodeWith inFragmentSet) }
    else if c = '#' then
      .ok { base with fragment := some (percentEncodeWith inFragmentSet rest) }
    else
      .ok { base with
            path := parsePathText base.path.dropLast (splitTail s).main
            query := (splitTail s).query
            fragment := (splitTail s).fragment }

/-- The basic URL parser on an input and an optional base with a special scheme. -/
def parseUrl (input : Str) (base : Option Url) : Except Str Url :=
  match splitScheme (removeTabNewline (trimC0Space input)) with
  | some (scheme, rest) =>
    if (defaultPort scheme).isSome then
      match base with
      | some b =>
        if b.scheme = scheme then parseRelative b rest
        else parseAuthority scheme (rest.dropWhile isSlash)
      | none => parseAuthority scheme (rest.dropWhile isSlash)
    else .error "scheme outside the model".toList
  | none =>
    match base with
    | some b => parseRelative b (removeTabNewline (trimC0Space input))
    | none => .error "Invalid URL".toList

/-- The URL serialiser. -/
def serializeUrl (u : Url) : Str :=
  u.scheme ++ "://".toList ++
    (if u.username.isEmpty && u.password.isEmpty then []
     else u.username ++ (if u.password.isEmpty then [] else ':' :: u.password) ++ ['@']) ++
    u.host ++
    (match u.port with
     | some p => ':' :: (Nat.repr p).toList
     | none => []) ++
    u.path.flatMap (fun seg => '/' :: seg) ++
    (match u.query with
     | some q => '?' :: q
     | none => []) ++
    (match u.fragment with
     | some f => '#' :: f
     | none => [])

/-- The expression `new URL(line, base).toString()` after the URL standard: the
base is parsed on its own, the line against it, and the result serialised; an
`error` is the `TypeError` the constructor throws (the message is the
runtime's; `Invalid URL` stands for it) or, with a message that says so, an
input outside the model. -/
def resolveURL (line base : Str) : Except Str Str :=
  match parseUrl base none with
  | .error e => .error e
  | .ok b =>
    match parseUrl line (some b) with
    | .error e => .error e
    | .ok u => .ok (serializeUrl u)

deriving instance DecidableEq for Except

/-! ## Notions of the specification -/

/-- The absolute-URL pattern in the words of the spec: `http://` or `https://`
followed by one or more characters that are neither whitespace nor a comma. -/
def IsUrlMatch (m : Str) : Prop :=
  ∃ run : Str, run ≠ [] ∧ (∀ c ∈ run, isWhiteSpace c = false ∧ c ≠ ',') ∧
    (m = "http://".toList ++ run ∨ m = "https://".toList ++ run)

/-- The master rewriting in the words of the spec, read from the left of the
text: where no match of the pattern begins, the character is kept; where one
begins, the longest one (what follows it is the end of the text, whitespace or
a comma) is replaced by `proxyBase?variant=` and its encoding, and reading goes
on behind it. -/
inductive MasterRewrite (proxyBase : Str) : Str → Str → Prop where
  | done : MasterRewrite proxyBase [] []
  | keep (c : Char) (rest out : Str) :
      (∀ m, IsUrlMatch m → ¬ m <+: c :: rest) →
      MasterRewrite proxyBase rest out →
      MasterRewrite proxyBase (c :: rest) (c :: out)
  | hit (m rest out : Str) :
      IsUrlMatch m →
      (∀ c, rest.head? = some c → isWhiteSpace c = true ∨ c = ',') →
      MasterRewrite proxyBase rest out →
      MasterRewrite proxyBase (m ++ rest)
        (proxyBase ++ "?variant=".toList ++ encodeURIComponent m ++ out)

/-- A page text contains the marker `"hlsManifestUrl":"..."`: the marker text,
one or more characters other than the quote, and a closing quote. -/
def HasMarker (html : Str) : Prop :=
  ∃ pre u post : Str, u ≠ [] ∧ '"' ∉ u ∧ html = pre ++ MARKER ++ u ++ '"' :: post

/-- The call `fetchWithUA(url)` makes. -/
def pageCall (url : Str) : FetchCall := { url := url, headers := uaHeaders [] }

/-- Fetched in order from the log `log` on, each of the candidate pages `urls`
is delivered and none of them contains the marker. -/
def NoMarkerRun (net : Net) : List FetchCall → List Str → Prop
  | _, [] => True
  | log, u :: us =>
    (∃ page, net log (pageCall u) = .ok page ∧ ¬ HasMarker page.body) ∧
      NoMarkerRun net (log ++ [pageCall u]) us

/-! ## Notions of the resolution rule -/

/-- The URL `base` with the text `line` in the place of its last path segment,
and without query and fragment. -/
def replaceLastSegment (base : Url) (line : Str) : Url :=
  { base with path := base.path.dropLast ++ [line], query := none, fragment := none }

/-- The resolution as claim C2 words it: a line that begins with a scheme is
already absolute and resolves to itself, any other line replaces the last path
segment of the variant URL. -/
def claimedResolve (line variantUrl : Str) : Except Str Str :=
  match parseUrl variantUrl none with
  | .error e => .error e
  | .ok base =>
    if (splitScheme line).isSome then .ok line
    else .ok (serializeUrl (replaceLastSegment base line))

/-- A character that the path state neither encodes nor reads as the end of a
segment. -/
def isSegmentChar (c : Char) : Bool := !inPathSet c && !isSlash c

/-- A path segment in serialised form: nothing to encode, no slash, and not a
dot segment. -/
def isPlainSegment (seg : Str) : Bool :=
  seg.all isSegmentChar && !isSingleDot seg && !isDoubleDot seg

/-- A file name: a non-empty plain segment without a colon. -/
def isFileName (seg : Str) : Bool :=
  !seg.isEmpty && isPlainSegment seg && seg.all (fun c => !decide (c = ':'))

/-- The text of a relative path: a first segment and further segments, each
behind a slash. -/
def pathText (seg : Str) (more : List Str) : Str := seg ++ more.flatMap (fun s => '/' :: s)

/-- A character of a host name in serialised form: a lower-case letter, a
digit, `-` or `.`. -/
def isHostChar (c : Char) : Bool :=
  (decide (97 ≤ c.toNat) && decide (c.toNat ≤ 122)) || isAsciiDigit c ||
  decide (c.toNat = 45) || decide (c.toNat = 46)

/-- A domain in serialised form: non-empty, of host-name characters, not ending
in a number, and without a label that starts with `xn--`. -/
def isPlainHost (host : Str) : Bool :=
  !host.isEmpty && host.all isHostChar && !endsInNumber host &&
  !(splitOn '.' host).any (fun label => startsWith label "xn--".toList)

/-- The text of an absolute URL without credentials, port, query and fragment. -/
def absoluteLine (scheme host : Str) (segments : List Str) : Str :=
  scheme ++ "://".toList ++ host ++ segments.flatMap (fun seg => '/' :: seg)

/-! ## Concrete inputs for the worked examples -/

/-- The variant URL of the end-to-end scenario. -/
def sampleVariantUrl : Str := "https://cdn/x/v.m3u8".toList

/-- The variant manifest of the end-to-end scenario. -/
def samplePlaylist : Str := "#EXTM3U\n#EXT-X-VERSION:3\nseg0.ts\n".toList

/-- A request for a variant playlist through the proxy. -/
def sampleRequest : Request :=
  { url := "https://proxy.example/@example/stream.m3u8?variant=https%3A%2F%2Fcdn%2Fx%2Fv.m3u8".toList
    headers := [] }

/-- An upstream answer that carries the variant manifest under status 403. -/
def sampleUpstream : Response := { status := 403, headers := [], body := samplePlaylist }

/-- An upstream that answers every call with `sampleUpstream`. -/
def sampleNet : Net := fun _ _ => .ok sampleUpstream

/-- The response the variant rewriter builds from `sampleUpstream`. -/
def sampleRewritten : Response :=
  { status := 200
    headers := playlistHeaders
    body := ("#EXTM3U\n#EXT-X-VERSION:3\n" ++
      "https://proxy.example/@example/stream.m3u8?url=https%3A%2F%2Fcdn%2Fx%2Fseg0.ts\n").toList }

/-- An upstream that answers every call with status 500 and a body whose second
line, `https://`, names no host. -/
def brokenNet : Net := fun _ _ =>
  .ok { status := 500, headers := [], body := "#EXTM3U\nhttps://\n".toList }

/-- A request for the master playlist of the handle `@example`. -/
def masterRequest : Request :=
  { url := "https://proxy.example/@example/stream.m3u8".toList, headers := [] }

/-- A master manifest with one variant URL on a line of its own. -/
def sampleMaster : Response :=
  { status := 200, headers := []
    body := "#EXTM3U\n#EXT-X-STREAM-INF:BANDWIDTH=1\nhttps://cdn/x/v.m3u8\n".toList }

/-- A master manifest with a URL inside a quoted tag attribute. -/
def attributeMaster : Response :=
  { status := 200, headers := []
    body := "#EXT-X-MEDIA:TYPE=AUDIO,URI=\"https://cdn/a.m3u8\",NAME=\"en\"\n".toList }

/-- A page that embeds a manifest URL behind the marker. -/
def livePage (manifestUrl : String) : Response :=
  { status := 200, headers := []
    body := ("<script>var x = \x7b\"hlsManifestUrl\":\"" ++ manifestUrl ++
      "\",\"y\":1\x7d</script>").toList }

/-- A page without the marker. -/
def plainPage : Response := { status := 200, headers := [], body := "<html></html>".toList }

/-- An upstream where only the page `/@example/live` embeds a manifest URL,
`https://m.example/master.m3u8`, which serves `sampleMaster`. -/
def liveNet : Net := fun _ call =>
  if call.url = "https://www.youtube.com/@example/live".toList then
    .ok (livePage "https://m.example/master.m3u8")
  else if call.url = "https://m.example/master.m3u8".toList then .ok sampleMaster
  else .ok plainPage

/-- An upstream where only the page `/watch?v=abc` embeds a manifest URL. -/
def watchNet : Net := fun _ call =>
  if call.url = "https://www.youtube.com/watch?v=abc".toList then
    .ok (livePage "https://m.example/master.m3u8")
  else if call.url = "https://m.example/master.m3u8".toList then .ok attributeMaster
  else .ok plainPage

/-- An upstream that answers every call with a 404 page without the marker. -/
def offlineNet : Net := fun _ _ => .ok { status := 404, headers := [], body := "gone".toList }

/-- The upstream URL of a segment. -/
def segmentUrl : Str := "https://cdn/x/seg0.ts".toList

/-- A segment request whose `Range` header is present with the empty value. -/
def emptyRangeRequest : Request :=
  { url := "https://proxy.example/@example/stream.m3u8?url=https%3A%2F%2Fcdn%2Fx%2Fseg0.ts".toList
    headers := [("Range".toList, [])] }

/-- A segment request for the first hundred octets. -/
def rangeRequest : Request :=
  { url := "https://proxy.example/@example/stream.m3u8?url=https%3A%2F%2Fcdn%2Fx%2Fseg0.ts".toList
    headers := [("Range".toList, "bytes=0-99".toList)] }

/-- A world with an empty cache, no call made and no producer invoked. -/
def emptyWorld : World := { cache := [], log := [], invocations := 0 }

/-- The variant URL of the first worked example of the segment rewriting. -/
def deepVariantUrl : Str := "https://cdn.example/a/b/playlist.m3u8".toList

/-- A request for `deepVariantUrl` through the proxy. -/
def deepRequest : Request :=
  { url := ("https://proxy.example/@example/stream.m3u8" ++
      "?variant=https%3A%2F%2Fcdn.example%2Fa%2Fb%2Fplaylist.m3u8").toList
    headers := [] }

/-- A variant manifest whose segment lines are a path from the root, a path
that climbs one directory and an absolute URL with a dot segment. -/
def climbingPlaylist : Str :=
  "#EXTM3U\n/root/seg.ts\n../seg.ts\nhttps://cdn.example/a/../seg.ts\n".toList

/-- An upstream that answers every call with `climbingPlaylist`. -/
def climbingNet : Net := fun _ _ =>
  .ok { status := 200, headers := [], body := climbingPlaylist }

/-! # Theorems -/

/-! ## Lemmas on `split` and `join` -/

theorem splitOn_ne_nil {α : Type} [DecidableEq α] (sep : α) (s : List α) :
    splitOn sep s ≠ [] := by
  induction s with
  | nil => simp [splitOn]
  | cons c cs ih =>
    unfold splitOn
    split
    · simp
    · split <;> simp

theorem splitOn_cons_sep {α : Type} [DecidableEq α] (sep : α) (s : List α) :
    splitOn sep (sep :: s) = [] :: splitOn sep s := by
  simp [splitOn]

theorem splitOn_cons_ne {α : Type} [DecidableEq α] (sep c : α) (s : List α) (h : c ≠ sep) :
    splitOn sep (c :: s) = (c :: (splitOn sep s).headD []) :: (splitOn sep s).tail := by
  have hne := splitOn_ne_nil sep s
  rw [splitOn, if_neg h]
  cases hs : splitOn sep s with
  | nil => exact absurd hs hne
  | cons l ls => simp

/-- Splitting a text that holds no separator gives the text alone. -/
theorem splitOn_of_not_mem {α : Type} [DecidableEq α] (sep : α) (s : List α) (h : sep ∉ s) :
    splitOn sep s = [s] := by
  induction s with
  | nil => simp [splitOn]
  | cons c cs ih =>
    have hc : c ≠ sep := fun e => h (by simp [e])
    have hcs : sep ∉ cs := fun e => h (by simp [e])
    rw [splitOn_cons_ne sep c cs hc, ih hcs]
    simp

/-- Splitting `l ++ sep :: rest` when `l` holds no separator. -/
theorem splitOn_append_sep {α : Type} [DecidableEq α] (sep : α) (l rest : List α)
    (h : sep ∉ l) : splitOn sep (l ++ sep :: rest) = l :: splitOn sep rest := by
  induction l with
  | nil => simp [splitOn]
  | cons c cs ih =>
    have hc : c ≠ sep := fun e => h (by simp [e])
    have hcs : sep ∉ cs := fun e => h (by simp [e])
    rw [List.cons_append, splitOn_cons_ne sep c _ hc, ih hcs]
    simp

/-- The method `split` undoes `join` on lines that hold no line break. -/
theorem splitOn_joinWith (sep : Char) (ls : List Str) (hne : ls ≠ [])
    (h : ∀ l ∈ ls, sep ∉ l) : splitOn sep (joinWith [sep] ls) = ls := by
  induction ls with
  | nil => exact absurd rfl hne
  | cons l rest ih =>
    cases rest with
    | nil =>
      simp only [joinWith]
      exact splitOn_of_not_mem sep l (h l (by simp))
    | cons l2 rest2 =>
      simp only [joinWith, List.append_assoc, List.singleton_append]
      rw [splitOn_append_sep sep l _ (h l (by simp))]
      rw [ih (by simp) (fun x hx => h x (by simp [hx]))]

/-- No line of a split text holds the separator. -/
theorem not_mem_of_mem_splitOn {α : Type} [DecidableEq α] (sep : α) (s : List α) :
    ∀ l ∈ splitOn sep s, sep ∉ l := by
  induction s with
  | nil => simp [splitOn]
  | cons c cs ih =>
    by_cases hc : c = sep
    · subst hc
      rw [splitOn_cons_sep]
      intro l hl
      rcases List.mem_cons.mp hl with rfl | hl
      · simp
      · exact ih l hl
    · rw [splitOn_cons_ne sep c cs hc]
      have hne := splitOn_ne_nil sep cs
      cases hs : splitOn sep cs with
      | nil => exact absurd hs hne
      | cons l0 ls0 =>
        rw [hs] at ih
        intro l hl
        simp only [List.headD_cons, List.tail_cons, List.mem_cons] at hl
        rcases hl with rfl | hl
        · intro hmem
          rcases List.mem_cons.mp hmem with e | hmem
          · exact hc e.symm
          · exact ih l0 (by simp) hmem
        · exact ih l (by simp [hl])

/-- The method `join` undoes `split`. -/
theorem joinWith_splitOn (sep : Char) (s : Str) : joinWith [sep] (splitOn sep s) = s := by
  induction s with
  | nil => simp [splitOn, joinWith]
  | cons c cs ih =>
    by_cases hc : c = sep
    · subst hc
      rw [splitOn_cons_sep]
      have hne := splitOn_ne_nil c cs
      cases hs : splitOn c cs with
      | nil => exact absurd hs hne
      | cons l0 ls0 =>
        rw [hs] at ih
        simp only [joinWith, List.nil_append, List.singleton_append, ih]
    · rw [splitOn_cons_ne sep c cs hc]
      have hne := splitOn_ne_nil sep cs
      cases hs : splitOn sep cs with
      | nil => exact absurd hs hne
      | cons l0 ls0 =>
        rw [hs] at ih
        cases ls0 with
        | nil =>
          simp only [joinWith] at ih
          simp [joinWith, ih]
        | cons l1 ls1 =>
          simp only [joinWith] at ih
          simp only [List.headD_cons, List.tail_cons, joinWith, List.cons_append]
          rw [ih]

/-! ## Lemmas on `mapLines` -/

theorem mapLines_ok_iff (f : Str → Except Str Str) (ls : List Str) :
    (∃ out, mapLines f ls = .ok out) ↔ ∀ l ∈ ls, ∃ l2, f l = .ok l2 := by
  induction ls with
  | nil => simp [mapLines]
  | cons l rest ih =>
    simp only [mapLines, List.mem_cons, forall_eq_or_imp]
    cases hf : f l with
    | error e => simp
    | ok l2 =>
      simp only [Except.ok.injEq, exists_eq', true_and]
      rw [← ih]
      cases hm : mapLines f rest with
      | error e => simp
      | ok ls2 => simp

theorem mapLines_spec (f : Str → Except Str Str) (ls out : List Str)
    (h : mapLines f ls = .ok out) :
    out.length = ls.length ∧
      ∀ (i : Nat) (l : Str), ls[i]? = some l → ∃ l2, f l = .ok l2 ∧ out[i]? = some l2 := by
  induction ls generalizing out with
  | nil =>
    simp only [mapLines, Except.ok.injEq] at h
    subst h
    simp
  | cons l rest ih =>
    simp only [mapLines] at h
    cases hf : f l with
    | error e => simp [hf] at h
    | ok l2 =>
      cases hm : mapLines f rest with
      | error e => simp [hf, hm] at h
      | ok ls2 =>
        simp only [hf, hm, Except.ok.injEq] at h
        subst h
        obtain ⟨hlen, hall⟩ := ih ls2 hm
        refine ⟨by simp [hlen], ?_⟩
        intro i x hx
        cases i with
        | zero =>
          simp only [List.getElem?_cons_zero, Option.some.injEq] at hx
          subst hx
          exact ⟨l2, hf, by simp⟩
        | succ j =>
          simp only [List.getElem?_cons_succ] at hx ⊢
          exact hall j x hx

/-! ## Lemmas on `encodeURIComponent` -/

theorem char_toNat_lt (c : Char) : c.toNat < 0x110000 := by
  have h := c.valid
  simp only [UInt32.isValidChar, Nat.isValidChar] at h
  show c.val.toNat < 0x110000
  omega

theorem char_toNat_valid (c : Char) :
    c.toNat < 0xD800 ∨ (0xDFFF < c.toNat ∧ c.toNat < 0x110000) := by
  have h := c.valid
  simp only [UInt32.isValidChar, Nat.isValidChar] at h
  show c.val.toNat < 0xD800 ∨ (0xDFFF < c.val.toNat ∧ c.val.toNat < 0x110000)
  omega

theorem toNat_ofNat_of_lt (n : Nat) (h : n < 0xD800) : (Char.ofNat n).toNat = n := by
  have hv : n.isValidChar := Or.inl h
  simp only [Char.ofNat, hv, dite_true]
  simp [Char.ofNatAux, Char.toNat, UInt32.toNat]

theorem hexDigit_unreserved (d : Nat) (h : d < 16) : isUnreserved (hexDigit d) = true := by
  have : ∀ d : Fin 16, isUnreserved (hexDigit d.val) = true := by decide
  exact this ⟨d, h⟩

theorem utf8Bytes_lt (n : Nat) (h : n < 0x110000) : ∀ b ∈ utf8Bytes n, b < 256 := by
  intro b hb
  unfold utf8Bytes at hb
  split at hb
  · simp at hb; omega
  · split at hb
    · simp at hb; omega
    · split at hb
      · simp at hb; omega
      · simp at hb; omega

theorem pctBytes_chars (bs : List Nat) (h : ∀ b ∈ bs, b < 256) :
    ∀ c ∈ pctBytes bs, isUnreserved c = true ∨ c = '%' := by
  induction bs with
  | nil => simp [pctBytes]
  | cons b rest ih =>
    have hb : b < 256 := h b (by simp)
    intro c hc
    simp only [pctBytes, pctByte, List.cons_append, List.nil_append, List.mem_cons] at hc
    rcases hc with rfl | rfl | rfl | hc
    · exact Or.inr rfl
    · exact Or.inl (hexDigit_unreserved _ (by omega))
    · exact Or.inl (hexDigit_unreserved _ (by omega))
    · exact ih (fun x hx => h x (by simp [hx])) c hc

theorem encodeChar_chars (c : Char) :
    ∀ x ∈ encodeChar c, isUnreserved x = true ∨ x = '%' := by
  intro x hx
  unfold encodeChar at hx
  split at hx
  · simp only [List.mem_singleton] at hx
    subst hx
    exact Or.inl (by assumption)
  · exact pctBytes_chars _ (utf8Bytes_lt _ (char_toNat_lt c)) x hx

/-- Every character of an encoded component is unreserved or a percent sign. -/
theorem encodeURIComponent_chars (s : Str) :
    ∀ x ∈ encodeURIComponent s, isUnreserved x = true ∨ x = '%' := by
  induction s with
  | nil => simp [encodeURIComponent]
  | cons c cs ih =>
    intro x hx
    simp only [encodeURIComponent, List.mem_append] at hx
    rcases hx with hx | hx
    · exact encodeChar_chars c x hx
    · exact ih x hx

/-- An encoded component holds no character that is neither unreserved nor `%`. -/
theorem not_mem_encodeURIComponent (s : Str) (x : Char) (h1 : isUnreserved x = false)
    (h2 : x ≠ '%') : x ∉ encodeURIComponent s := by
  intro hx
  rcases encodeURIComponent_chars s x hx with h | h
  · rw [h1] at h; exact Bool.noConfusion h
  · exact h2 h

/-! ## The variant rewriter -/

theorem mapLines_mem (f : Str → Except Str Str) (ls out : List Str)
    (h : mapLines f ls = .ok out) : ∀ l2 ∈ out, ∃ l ∈ ls, f l = .ok l2 := by
  intro l2 hl2
  obtain ⟨hlen, hall⟩ := mapLines_spec f ls out h
  obtain ⟨i, hi, hget⟩ := List.getElem_of_mem hl2
  have hi2 : i < ls.length := hlen ▸ hi
  obtain ⟨l3, hf, ho⟩ := hall i ls[i] (List.getElem?_eq_getElem hi2)
  rw [List.getElem?_eq_getElem hi, hget] at ho
  simp only [Option.some.injEq] at ho
  subst ho
  exact ⟨ls[i], List.getElem_mem hi2, hf⟩

theorem rewriteLine_kept (resolve : Str → Str → Except Str Str) (variantUrl proxyBase line : Str)
    (h : line = [] ∨ startsWith line ['#'] = true) :
    rewriteLine resolve variantUrl proxyBase line = .ok line := by
  unfold rewriteLine
  rcases h with h | h
  · subst h; simp
  · simp [h]

theorem rewriteLine_segment_ok (resolve : Str → Str → Except Str Str)
    (variantUrl proxyBase line abs : Str) (h1 : line ≠ [])
    (h2 : startsWith line ['#'] = false) (hr : resolve line variantUrl = .ok abs) :
    rewriteLine resolve variantUrl proxyBase line =
      .ok (proxyBase ++ "?url=".toList ++ encodeURIComponent abs) := by
  unfold rewriteLine
  have : line.isEmpty = false := by
    cases line with
    | nil => exact absurd rfl h1
    | cons _ _ => rfl
  simp [h2, this, hr]

theorem rewriteLine_segment_error (resolve : Str → Str → Except Str Str)
    (variantUrl proxyBase line e : Str) (h1 : line ≠ [])
    (h2 : startsWith line ['#'] = false) (hr : resolve line variantUrl = .error e) :
    rewriteLine resolve variantUrl proxyBase line = .error e := by
  unfold rewriteLine
  have : line.isEmpty = false := by
    cases line with
    | nil => exact absurd rfl h1
    | cons _ _ => rfl
  simp [h2, this, hr]

theorem rewriteLine_no_newline (resolve : Str → Str → Except Str Str)
    (variantUrl proxyBase line out : Str) (hb : '\n' ∉ proxyBase) (hl : '\n' ∉ line)
    (h : rewriteLine resolve variantUrl proxyBase line = .ok out) : '\n' ∉ out := by
  by_cases hk : line = [] ∨ startsWith line ['#'] = true
  · rw [rewriteLine_kept _ _ _ _ hk] at h
    simp only [Except.ok.injEq] at h
    subst h
    exact hl
  · have h1 : line ≠ [] := fun e => hk (Or.inl e)
    have h2 : startsWith line ['#'] = false := by
      cases hs : startsWith line ['#'] with
      | true => exact absurd (Or.inr hs) hk
      | false => rfl
    cases hr : resolve line variantUrl with
    | error e =>
      rw [rewriteLine_segment_error _ _ _ _ _ h1 h2 hr] at h
      exact Except.noConfusion h
    | ok abs =>
      rw [rewriteLine_segment_ok _ _ _ _ _ h1 h2 hr] at h
      simp only [Except.ok.injEq] at h
      subst h
      have henc : '\n' ∉ encodeURIComponent abs :=
        not_mem_encodeURIComponent abs '\n' (by decide) (by decide)
      simp only [List.mem_append, not_or]
      exact ⟨⟨hb, by decide⟩, henc⟩

/-- With a proxy base free of line breaks, the lines of the rewritten text are
the rewritten lines: no position shifts. -/
theorem rewriteVariant_lines (resolve : Str → Str → Except Str Str)
    (variantUrl proxyBase text out : Str) (hb : '\n' ∉ proxyBase)
    (h : rewriteVariant resolve variantUrl proxyBase text = .ok out) :
    mapLines (rewriteLine resolve variantUrl proxyBase) (splitOn '\n' text) =
      .ok (splitOn '\n' out) := by
  unfold rewriteVariant at h
  cases hm : mapLines (rewriteLine resolve variantUrl proxyBase) (splitOn '\n' text) with
  | error e => simp [hm] at h
  | ok ls =>
    simp only [hm, Except.ok.injEq] at h
    subst h
    have hlen := (mapLines_spec _ _ _ hm).1
    have hne : ls ≠ [] := by
      intro e
      subst e
      exact splitOn_ne_nil '\n' text (List.length_eq_zero.mp hlen.symm)
    rw [splitOn_joinWith '\n' ls hne]
    intro l2 hl2
    obtain ⟨l, hl, hf⟩ := mapLines_mem _ _ _ hm l2 hl2
    exact rewriteLine_no_newline _ _ _ _ _ hb (not_mem_of_mem_splitOn '\n' text l hl) hf

/-! ## The master rewriter -/

theorem isUrlChar_iff (c : Char) : isUrlChar c = true ↔ isWhiteSpace c = false ∧ c ≠ ',' := by
  simp [isUrlChar]

theorem startsWith_eq_append (s p : Str) (h : startsWith s p = true) :
    s = p ++ s.drop p.length := by
  unfold startsWith at h
  rw [List.isPrefixOf_iff_prefix] at h
  exact (List.prefix_iff_eq_append.mp h).symm

theorem startsWith_append (p rest : Str) : startsWith (p ++ rest) p = true := by
  unfold startsWith
  rw [List.isPrefixOf_iff_prefix]
  exact List.prefix_append p rest

/-- The head of what `dropWhile` leaves fails the test. -/
theorem head_dropWhile_false {α : Type} (p : α → Bool) (s : List α) (c : α)
    (h : (s.dropWhile p).head? = some c) : p c = false := by
  induction s with
  | nil => simp at h
  | cons x xs ih =>
    by_cases hx : p x = true
    · rw [List.dropWhile_cons_of_pos hx] at h
      exact ih h
    · rw [List.dropWhile_cons_of_neg hx] at h
      simp only [List.head?_cons, Option.some.injEq] at h
      subst h
      simpa using hx

/-- A run of accepted characters closed by the end or a rejected character is
what `takeWhile` takes. -/
theorem takeWhile_append_of_maximal {α : Type} (p : α → Bool) (run rest : List α)
    (hrun : ∀ c ∈ run, p c = true) (hrest : ∀ c, rest.head? = some c → p c = false) :
    (run ++ rest).takeWhile p = run ∧ (run ++ rest).dropWhile p = rest := by
  induction run with
  | nil =>
    cases rest with
    | nil => simp
    | cons x xs =>
      have hx : p x = false := hrest x rfl
      simp [List.takeWhile_cons, List.dropWhile_cons, hx]
  | cons x xs ih =>
    have hx : p x = true := hrun x (by simp)
    obtain ⟨h1, h2⟩ := ih (fun c hc => hrun c (by simp [hc]))
    simp [List.takeWhile_cons, List.dropWhile_cons, hx, h1, h2]

/-- What `matchUrlAt` finds is a match of the pattern at the head of the text,
and the longest one. -/
theorem matchUrlAt_some (s m : Str) (h : matchUrlAt s = some m) :
    IsUrlMatch m ∧ ∃ rest, s = m ++ rest ∧
      ∀ c, rest.head? = some c → isWhiteSpace c = true ∨ c = ',' := by
  have key : ∀ (scheme : Str), startsWith s scheme = true →
      ((s.drop scheme.length).takeWhile isUrlChar).isEmpty = false →
      m = scheme ++ (s.drop scheme.length).takeWhile isUrlChar →
      (scheme = "http://".toList ∨ scheme = "https://".toList) →
      IsUrlMatch m ∧ ∃ rest, s = m ++ rest ∧
        ∀ c, rest.head? = some c → isWhiteSpace c = true ∨ c = ',' := by
    intro scheme hsw hne hm hscheme
    refine ⟨⟨(s.drop scheme.length).takeWhile isUrlChar, ?_, ?_, ?_⟩,
      (s.drop scheme.length).dropWhile isUrlChar, ?_, ?_⟩
    · intro e
      rw [e] at hne
      simp at hne
    · intro c hc
      exact (isUrlChar_iff c).mp (List.mem_takeWhile_imp hc)
    · rcases hscheme with e | e
      · left; rw [hm, e]
      · right; rw [hm, e]
    · rw [hm, List.append_assoc, List.takeWhile_append_dropWhile]
      exact startsWith_eq_append s scheme hsw
    · intro c hc
      have hf := head_dropWhile_false isUrlChar _ c hc
      by_cases hw : isWhiteSpace c = true
      · exact Or.inl hw
      · right
        by_contra hcomma
        have : isUrlChar c = true := (isUrlChar_iff c).mpr ⟨by simpa using hw, hcomma⟩
        rw [hf] at this
        exact Bool.noConfusion this
  unfold matchUrlAt at h
  split at h
  · rename_i hsw
    by_cases hne : ((s.drop 8).takeWhile isUrlChar).isEmpty = true
    · simp [hne] at h
    · simp only [hne, Bool.false_eq_true, if_false, Option.some.injEq] at h
      exact key "https://".toList hsw (by simpa using hne) h.symm (Or.inr rfl)
  · split at h
    · rename_i hsw
      by_cases hne : ((s.drop 7).takeWhile isUrlChar).isEmpty = true
      · simp [hne] at h
      · simp only [hne, Bool.false_eq_true, if_false, Option.some.injEq] at h
        exact key "http://".toList hsw (by simpa using hne) h.symm (Or.inl rfl)
    · exact Option.noConfusion h

/-- Where `matchUrlAt` finds nothing, no match of the pattern begins. -/
theorem matchUrlAt_none (s : Str) (h : matchUrlAt s = none) :
    ∀ m, IsUrlMatch m → ¬ m <+: s := by
  rintro m ⟨run, hne, hrun, hm⟩ ⟨rest, hs⟩
  obtain ⟨c, run2, hrun2⟩ := List.exists_cons_of_ne_nil hne
  have hc : isUrlChar c = true := (isUrlChar_iff c).mpr (hrun c (by simp [hrun2]))
  rcases hm with hm | hm
  · have e : s = "http://".toList ++ (c :: (run2 ++ rest)) := by
      rw [← hs, hm, hrun2]; simp
    have h1 : startsWith s "https://".toList = false := by rw [e]; rfl
    have h2 : startsWith s "http://".toList = true := by rw [e]; exact startsWith_append _ _
    have h3 : s.drop 7 = c :: (run2 ++ rest) := by rw [e]; rfl
    unfold matchUrlAt at h
    rw [if_neg (by rw [h1]; exact Bool.false_ne_true), if_pos h2, h3] at h
    simp [List.takeWhile_cons, hc] at h
  · have e : s = "https://".toList ++ (c :: (run2 ++ rest)) := by
      rw [← hs, hm, hrun2]; simp
    have h2 : startsWith s "https://".toList = true := by rw [e]; exact startsWith_append _ _
    have h3 : s.drop 8 = c :: (run2 ++ rest) := by rw [e]; rfl
    unfold matchUrlAt at h
    rw [if_pos h2, h3] at h
    simp [List.takeWhile_cons, hc] at h

/-- Passing `skip` characters is dropping them. -/
theorem replaceUrls_skip (proxyBase : Str) (skip : Nat) (s : Str) :
    replaceUrls proxyBase skip s = replaceUrls proxyBase 0 (s.drop skip) := by
  induction skip generalizing s with
  | zero => simp
  | succ k ih =>
    cases s with
    | nil => simp [replaceUrls]
    | cons c rest =>
      rw [replaceUrls, ih]
      simp

theorem replaceUrls_keep (proxyBase : Str) (c : Char) (rest : Str)
    (h : matchUrlAt (c :: rest) = none) :
    replaceUrls proxyBase 0 (c :: rest) = c :: replaceUrls proxyBase 0 rest := by
  rw [replaceUrls, h]

theorem replaceUrls_hit (proxyBase m rest : Str) (hne : m ≠ [])
    (h : matchUrlAt (m ++ rest) = some m) :
    replaceUrls proxyBase 0 (m ++ rest) =
      proxyBase ++ "?variant=".toList ++ encodeURIComponent m ++ replaceUrls proxyBase 0 rest := by
  obtain ⟨c, m2, hm⟩ := List.exists_cons_of_ne_nil hne
  subst hm
  rw [List.cons_append] at h ⊢
  rw [replaceUrls, h]
  simp only [replaceUrls_skip proxyBase _ (m2 ++ rest)]
  simp

theorem isUrlMatch_ne_nil (m : Str) (h : IsUrlMatch m) : m ≠ [] := by
  obtain ⟨run, _, _, hm | hm⟩ := h <;> (rw [hm]; simp)

/-- The code's replacement is the rewriting the spec describes. -/
theorem replaceUrls_sound (proxyBase : Str) :
    ∀ (n : Nat) (text : Str), text.length ≤ n →
      MasterRewrite proxyBase text (replaceUrls proxyBase 0 text) := by
  intro n
  induction n with
  | zero =>
    intro text hlen
    have : text = [] := List.length_eq_zero.mp (Nat.le_zero.mp hlen)
    subst this
    exact MasterRewrite.done
  | succ k ih =>
    intro text hlen
    cases text with
    | nil => exact MasterRewrite.done
    | cons c rest =>
      cases hm : matchUrlAt (c :: rest) with
      | none =>
        rw [replaceUrls_keep proxyBase c rest hm]
        exact MasterRewrite.keep c rest _ (matchUrlAt_none _ hm)
          (ih rest (by simp at hlen; omega))
      | some m =>
        obtain ⟨hmatch, rest2, hs, hmax⟩ := matchUrlAt_some _ m hm
        have hne := isUrlMatch_ne_nil m hmatch
        rw [hs] at hm ⊢
        rw [replaceUrls_hit proxyBase m rest2 hne hm]
        refine MasterRewrite.hit m rest2 _ hmatch hmax (ih rest2 ?_)
        have hl : (c :: rest).length = m.length + rest2.length := by rw [hs]; simp
        have hm0 : 0 < m.length := List.length_pos.mpr hne
        simp at hlen hl
        omega

/-- A longest match of the pattern at the head of a text is what `matchUrlAt`
finds there. -/
theorem matchUrlAt_complete (m rest : Str) (hm : IsUrlMatch m)
    (hmax : ∀ c, rest.head? = some c → isWhiteSpace c = true ∨ c = ',') :
    matchUrlAt (m ++ rest) = some m := by
  obtain ⟨run, hne, hrun, hm⟩ := hm
  have hrun2 : ∀ c ∈ run, isUrlChar c = true := fun c hc => (isUrlChar_iff c).mpr (hrun c hc)
  have hrest : ∀ c, rest.head? = some c → isUrlChar c = false := by
    intro c hc
    cases hu : isUrlChar c with
    | false => rfl
    | true =>
      have := (isUrlChar_iff c).mp hu
      rcases hmax c hc with h | h
      · rw [this.1] at h; exact Bool.noConfusion h
      · exact absurd h this.2
  obtain ⟨htake, _⟩ := takeWhile_append_of_maximal isUrlChar run rest hrun2 hrest
  obtain ⟨c, run2, hc⟩ := List.exists_cons_of_ne_nil hne
  have hempty : run.isEmpty = false := by rw [hc]; rfl
  rcases hm with hm | hm
  · have e : m ++ rest = "http://".toList ++ (c :: (run2 ++ rest)) := by
      rw [hm, hc]; simp
    have h1 : startsWith (m ++ rest) "https://".toList = false := by rw [e]; rfl
    have h2 : startsWith (m ++ rest) "http://".toList = true := by
      rw [e]; exact startsWith_append _ _
    have h3 : (m ++ rest).drop 7 = run ++ rest := by rw [e, hc]; rfl
    unfold matchUrlAt
    rw [if_neg (by rw [h1]; exact Bool.false_ne_true), if_pos h2, h3, htake, hm]
    simp [hempty]
  · have e : m ++ rest = "https://".toList ++ (c :: (run2 ++ rest)) := by
      rw [hm, hc]; simp
    have h2 : startsWith (m ++ rest) "https://".toList = true := by
      rw [e]; exact startsWith_append _ _
    have h3 : (m ++ rest).drop 8 = run ++ rest := by rw [e, hc]; rfl
    unfold matchUrlAt
    rw [if_pos h2, h3, htake, hm]
    simp [hempty]

/-- The rewriting the spec describes has one result, the code's. -/
theorem replaceUrls_unique (proxyBase text out : Str)
    (h : MasterRewrite proxyBase text out) : out = replaceUrls proxyBase 0 text := by
  induction h with
  | done => rfl
  | keep c rest out hno _ ih =>
    have hm : matchUrlAt (c :: rest) = none := by
      cases hm : matchUrlAt (c :: rest) with
      | none => rfl
      | some m =>
        obtain ⟨hmatch, rest2, hs, _⟩ := matchUrlAt_some _ m hm
        exact absurd ⟨rest2, hs.symm⟩ (hno m hmatch)
    rw [replaceUrls_keep proxyBase c rest hm, ih]
  | hit m rest out hmatch hmax _ ih =>
    rw [replaceUrls_hit proxyBase m rest (isUrlMatch_ne_nil m hmatch)
      (matchUrlAt_complete m rest hmatch hmax), ih]

theorem handleMaster_found (net : Net) (handle : Str) (request : Request)
    (log log2 : List FetchCall) (manifestUrl : Str) (upstream : Response)
    (hfind : findManifest net (candidateUrls handle) none log = (.ok (some manifestUrl), log2))
    (hne : manifestUrl ≠ [])
    (hfetch : (fetchWithUA net manifestUrl [] log2).1 = .ok upstream) :
    handleMasterRequest net handle request log =
      (.ok { status := 200, headers := playlistHeaders,
             body := replaceUrls (proxyBaseOf request.url) 0 upstream.body },
       log2 ++ [{ url := manifestUrl, headers := uaHeaders [] }]) := by
  have ht : truthy (some manifestUrl) = true := by
    cases manifestUrl with
    | nil => exact absurd rfl hne
    | cons _ _ => rfl
  have hmk : ∀ body : Str, mkTextResponse body 200 playlistHeaders =
      { status := 200, headers := playlistHeaders, body := body } := by
    intro body
    have h : Headers.get playlistHeaders "content-type".toList =
        some "application/vnd.apple.mpegurl".toList := by decide
    unfold mkTextResponse
    rw [h]
  unfold handleMasterRequest
  rw [hfind]
  simp only [ht, Bool.not_true, Bool.false_eq_true, if_false, Option.getD_some]
  unfold fetchWithUA at hfetch ⊢
  simp only at hfetch ⊢
  rw [hfetch]
  simp only [hmk]

/-! ## The manifest resolver -/

theorem markerAt_some (s u : Str) (h : markerAt s = some u) :
    u ≠ [] ∧ '"' ∉ u ∧ ∃ post, s = MARKER ++ u ++ '"' :: post := by
  unfold markerAt at h
  split at h
  · rename_i hsw
    have hs := startsWith_eq_append s MARKER hsw
    generalize hrest : s.drop MARKER.length = rest at h hs
    simp only at h
    by_cases hne : (rest.takeWhile (fun c => !decide (c = '"'))).isEmpty = true
    · simp [hne] at h
    · rw [if_neg hne] at h
      cases hd : rest.dropWhile (fun c => !decide (c = '"')) with
      | nil => simp [hd] at h
      | cons q post =>
        simp only [hd, Option.some.injEq] at h
        have hq : (fun c => !decide (c = '"')) q = false :=
          head_dropWhile_false _ rest q (by rw [hd]; rfl)
        have hq2 : q = '"' := by simpa using hq
        refine ⟨?_, ?_, post, ?_⟩
        · intro e
          rw [h, e] at hne
          exact hne rfl
        · intro hmem
          rw [← h] at hmem
          have := List.mem_takeWhile_imp hmem
          simp at this
        · have hsplit := List.takeWhile_append_dropWhile (fun c => !decide (c = '"')) rest
          rw [hd, h] at hsplit
          rw [hs, ← hsplit, hq2, List.append_assoc]
  · exact Option.noConfusion h

theorem markerAt_complete (u post : Str) (hne : u ≠ []) (hq : '"' ∉ u) :
    markerAt (MARKER ++ u ++ '"' :: post) = some u := by
  have hsw : startsWith (MARKER ++ u ++ '"' :: post) MARKER = true := by
    rw [List.append_assoc]; exact startsWith_append _ _
  have hdrop : (MARKER ++ u ++ '"' :: post).drop MARKER.length = u ++ '"' :: post := by
    rw [List.append_assoc, List.drop_left]
  obtain ⟨h1, h2⟩ := takeWhile_append_of_maximal (fun c => !decide (c = '"')) u ('"' :: post)
    (by
      intro c hc
      have : c ≠ '"' := fun e => hq (e ▸ hc)
      simpa using this)
    (by
      intro c hc
      simp only [List.head?_cons, Option.some.injEq] at hc
      subst hc
      rfl)
  have hempty : u.isEmpty = false := by
    cases u with
    | nil => exact absurd rfl hne
    | cons _ _ => rfl
  unfold markerAt
  rw [if_pos hsw, hdrop]
  simp only [h1, h2, hempty, Bool.false_eq_true, if_false]

/-- The scan finds a capture exactly when the page contains the marker. -/
theorem findMarker_some_iff (html : Str) : (∃ u, findMarker html = some u) ↔ HasMarker html := by
  constructor
  · rintro ⟨u, hu⟩
    induction html with
    | nil => exact Option.noConfusion hu
    | cons c rest ih =>
      rw [findMarker] at hu
      cases hm : markerAt (c :: rest) with
      | some v =>
        obtain ⟨h1, h2, post, h3⟩ := markerAt_some _ v hm
        exact ⟨[], v, post, h1, h2, by simpa using h3⟩
      | none =>
        rw [hm] at hu
        obtain ⟨pre, v, post, h1, h2, h3⟩ := ih hu
        exact ⟨c :: pre, v, post, h1, h2, by rw [h3]; simp⟩
  · rintro ⟨pre, u, post, h1, h2, h3⟩
    subst h3
    induction pre with
    | nil =>
      have hm := markerAt_complete u post h1 h2
      have hcons : ∃ c rest, MARKER ++ u ++ '"' :: post = c :: rest := ⟨'"', _, rfl⟩
      obtain ⟨c, rest, hc⟩ := hcons
      rw [List.nil_append, hc, findMarker, ← hc, hm]
      exact ⟨u, rfl⟩
    | cons c pre ih =>
      simp only [List.cons_append, List.append_assoc] at ih ⊢
      rw [findMarker]
      cases hm : markerAt (c :: (pre ++ (MARKER ++ (u ++ '"' :: post)))) with
      | some v => exact ⟨v, rfl⟩
      | none => exact ih

theorem findMarker_none_iff (html : Str) : findMarker html = none ↔ ¬ HasMarker html := by
  rw [← findMarker_some_iff]
  cases findMarker html with
  | none => simp
  | some u => simp

theorem findMarker_ne_nil (html u : Str) (h : findMarker html = some u) : u ≠ [] := by
  induction html with
  | nil => exact Option.noConfusion h
  | cons c rest ih =>
    rw [findMarker] at h
    cases hm : markerAt (c :: rest) with
    | some v =>
      rw [hm] at h
      simp only [Option.some.injEq] at h
      subst h
      exact (markerAt_some _ v hm).1
    | none =>
      rw [hm] at h
      exact ih h

theorem unescapeAmp_ne_nil (s : Str) (h : s ≠ []) : unescapeAmp 0 s ≠ [] := by
  cases s with
  | nil => exact absurd rfl h
  | cons c rest =>
    rw [unescapeAmp]
    split <;> simp

theorem uriItems_ne_nil (s : Str) (items : List UriItem) (h : s ≠ [])
    (hi : uriItems s = .ok items) : items ≠ [] := by
  cases s with
  | nil => exact absurd rfl h
  | cons c tl =>
    intro e
    subst e
    unfold uriItems at hi
    repeat' split at hi
    all_goals first
      | exact Except.noConfusion hi
      | (simp only [Except.ok.injEq] at hi; exact List.noConfusion hi)

theorem okCons_ne_nil (c : Char) (r : Except Str Str) (out : Str) (h : okCons c r = .ok out) :
    out ≠ [] := by
  cases r with
  | error e => exact Except.noConfusion h
  | ok s =>
    simp only [okCons, Except.ok.injEq] at h
    subst h
    exact List.cons_ne_nil _ _

theorem decodeItemsFrom_ne_nil (items : List UriItem) :
    ∀ (st : Utf8State) (out : Str), (items ≠ [] ∨ st.needed ≠ 0) →
      decodeItemsFrom st items = .ok out → out ≠ [] := by
  induction items with
  | nil =>
    intro st out h ho
    rcases h with h | h
    · exact absurd rfl h
    · simp [decodeItemsFrom, h] at ho
  | cons it rest ih =>
    intro st out _ ho
    cases it with
    | lit c =>
      rw [decodeItemsFrom] at ho
      split at ho
      · exact okCons_ne_nil _ _ _ ho
      · exact Except.noConfusion ho
    | esc b =>
      rw [decodeItemsFrom] at ho
      split at ho
      · split at ho
        · exact okCons_ne_nil _ _ _ ho
        · split at ho
          · exact Except.noConfusion ho
          · rename_i hn
            exact ih _ out (Or.inr hn) ho
      · split at ho
        · exact Except.noConfusion ho
        · split at ho
          · exact okCons_ne_nil _ _ _ ho
          · rename_i h0 _ h1
            exact ih _ out (Or.inr (by simp only; omega)) ho

/-- A decoded non-empty component is not empty: a capture of the marker always
yields a truthy manifest URL. -/
theorem decodeURIComponent_ne_nil (s out : Str) (h : s ≠ [])
    (ho : decodeURIComponent s = .ok out) : out ≠ [] := by
  unfold decodeURIComponent at ho
  cases hi : uriItems s with
  | error e => simp [hi] at ho
  | ok items =>
    simp only [hi] at ho
    exact decodeItemsFrom_ne_nil items _ out (Or.inl (uriItems_ne_nil s items h hi)) ho

theorem extract_no_marker (net : Net) (u : Str) (log : List FetchCall) (page : Response)
    (hpage : net log (pageCall u) = .ok page) (hno : ¬ HasMarker page.body) :
    extractHlsManifestFromYouTube net u log = (.ok none, log ++ [pageCall u]) := by
  have hf : findMarker page.body = none := (findMarker_none_iff _).mpr hno
  have hp : net log { url := u, headers := uaHeaders [] } = .ok page := hpage
  simp only [extractHlsManifestFromYouTube, fetchWithUA, hp, hf, pageCall]

theorem extract_marker (net : Net) (u : Str) (log : List FetchCall) (page : Response) (m : Str)
    (hpage : net log (pageCall u) = .ok page) (hm : findMarker page.body = some m) :
    (∀ x, decodeURIComponent (unescapeAmp 0 m) = .ok x →
      extractHlsManifestFromYouTube net u log = (.ok (some x), log ++ [pageCall u]) ∧ x ≠ []) ∧
    (∀ e, decodeURIComponent (unescapeAmp 0 m) = .error e →
      extractHlsManifestFromYouTube net u log = (.error e, log ++ [pageCall u])) := by
  have hp : net log { url := u, headers := uaHeaders [] } = .ok page := hpage
  constructor
  · intro x hx
    refine ⟨?_, decodeURIComponent_ne_nil _ x
      (unescapeAmp_ne_nil m (findMarker_ne_nil _ m hm)) hx⟩
    simp only [extractHlsManifestFromYouTube, fetchWithUA, hp, hm, hx, pageCall]
  · intro e he
    simp only [extractHlsManifestFromYouTube, fetchWithUA, hp, hm, he, pageCall]

theorem truthy_some (x : Str) (h : x ≠ []) : truthy (some x) = true := by
  cases x with
  | nil => exact absurd rfl h
  | cons _ _ => rfl

/-- Candidates whose pages lack the marker are fetched in order and passed. -/
theorem findManifest_skip (net : Net) (pre rest : List Str) :
    ∀ (last : Option Str) (log : List FetchCall), NoMarkerRun net log pre →
      findManifest net (pre ++ rest) last log =
        findManifest net rest (if pre = [] then last else none) (log ++ pre.map pageCall) := by
  induction pre with
  | nil => intro last log _; simp
  | cons u us ih =>
    intro last log hrun
    obtain ⟨⟨page, hpage, hno⟩, hrest⟩ := hrun
    rw [List.cons_append, findManifest, extract_no_marker net u log page hpage hno]
    simp only [truthy, Bool.false_eq_true, if_false]
    rw [ih none (log ++ [pageCall u]) hrest]
    simp

theorem findManifest_hit (net : Net) (u : Str) (post : List Str) (last : Option Str)
    (log log2 : List FetchCall) (x : Str) (hx : x ≠ [])
    (h : extractHlsManifestFromYouTube net u log = (.ok (some x), log2)) :
    findManifest net (u :: post) last log = (.ok (some x), log2) := by
  rw [findManifest, h]
  simp only [truthy_some x hx, if_true]

theorem findManifest_throw (net : Net) (u : Str) (post : List Str) (last : Option Str)
    (log log2 : List FetchCall) (e : Str)
    (h : extractHlsManifestFromYouTube net u log = (.error e, log2)) :
    findManifest net (u :: post) last log = (.error e, log2) := by
  rw [findManifest, h]

/-! ## The cache-aside layer -/

theorem Cache.lookup_put (c : Cache) (url : Str) (r : Response) :
    (c.put url r).lookup url = some r := by
  simp [Cache.put, Cache.lookup, List.lookup]

theorem cacheResponse_hit (fn : Producer) (key : Str) (ttl : Nat) (request : Request)
    (w : World) (r : Response) (h : w.cache.lookup request.url = some r) :
    cacheResponse fn key ttl request w = (.ok (some r), w) := by
  simp only [cacheResponse, h]

theorem cacheResponse_store (fn : Producer) (key : Str) (ttl : Nat) (request : Request)
    (w : World) (r : Response) (hmiss : w.cache.lookup request.url = none)
    (hfn : (fn key request w.log).1 = .ok (some r)) (hok : r.ok = true) :
    cacheResponse fn key ttl request w =
      (.ok (some (withCacheControl r ttl)),
       { cache := w.cache.put request.url (withCacheControl r ttl),
         log := (fn key request w.log).2,
         invocations := w.invocations + 1 }) := by
  cases hf : fn key request w.log with
  | mk res log2 =>
    rw [hf] at hfn
    simp only at hfn
    subst hfn
    simp only [cacheResponse, hmiss, hf, hok, if_true]

theorem cacheResponse_pass (fn : Producer) (key : Str) (ttl : Nat) (request : Request)
    (w : World) (hmiss : w.cache.lookup request.url = none)
    (hfn : (∃ e, (fn key request w.log).1 = .error e) ∨ (fn key request w.log).1 = .ok none ∨
      ∃ r, (fn key request w.log).1 = .ok (some r) ∧ r.ok = false) :
    cacheResponse fn key ttl request w =
      ((fn key request w.log).1,
       { w with log := (fn key request w.log).2, invocations := w.invocations + 1 }) := by
  cases hf : fn key request w.log with
  | mk res log2 =>
    rw [hf] at hfn
    simp only at hfn
    rcases hfn with ⟨e, he⟩ | he | ⟨r, he, hr⟩
    · subst he
      simp only [cacheResponse, hmiss, hf]
    · subst he
      simp only [cacheResponse, hmiss, hf]
    · subst he
      simp only [cacheResponse, hmiss, hf, hr, Bool.false_eq_true, if_false]

theorem cacheResponse_invocations (fn : Producer) (key : Str) (ttl : Nat) (request : Request)
    (w : World) (hmiss : w.cache.lookup request.url = none) :
    (cacheResponse fn key ttl request w).2.invocations = w.invocations + 1 ∧
    (cacheResponse fn key ttl request w).2.log = (fn key request w.log).2 := by
  cases hf : fn key request w.log with
  | mk res log2 =>
    cases res with
    | error e => simp only [cacheResponse, hmiss, hf, and_self]
    | ok o =>
      cases o with
      | none => simp only [cacheResponse, hmiss, hf, and_self]
      | some r =>
        cases hr : r.ok with
        | true => simp only [cacheResponse, hmiss, hf, hr, if_true, and_self]
        | false => simp only [cacheResponse, hmiss, hf, hr, Bool.false_eq_true, if_false, and_self]

theorem named_self (name value : Str) : named name (name, value) = true := by
  simp [named]

theorem Headers.get_set (h : Headers) (name value : Str) :
    Headers.get (Headers.set h name value) name = some value := by
  have hf : (Headers.set h name value).filter (named name) = [(name, value)] := by
    unfold Headers.set
    rw [List.filter_append, List.filter_filter]
    have h1 : h.filter (fun p => named name p && !named name p) = [] := by
      rw [List.filter_eq_nil_iff]
      intro p _
      cases named name p <;> simp
    rw [h1]
    simp [List.filter_cons, named_self]
  unfold Headers.get
  rw [hf]
  rfl

theorem Headers.filter_set_of_ne (h : Headers) (name value other : Str)
    (hne : lower other ≠ lower name) :
    (Headers.set h name value).filter (named other) = h.filter (named other) := by
  unfold Headers.set
  rw [List.filter_append, List.filter_filter]
  have h1 : ∀ p : Str × Str, (named other p && !named name p) = named other p := by
    intro p
    cases ho : named other p with
    | false => rfl
    | true =>
      have : lower p.1 = lower other := by simpa [named] using ho
      have : named name p = false := by
        simp only [named, decide_eq_false_iff_not]
        intro e
        exact hne (this.symm.trans e)
      simp [this]
  have h2 : named other (name, value) = false := by
    simp only [named, decide_eq_false_iff_not]
    exact fun e => hne e.symm
  simp [h1, List.filter_cons, h2]

/-! ## UTF-8: decoding undoes encoding -/

theorem utf8DecodeFrom_start (b : Nat) (bs : List Nat) :
    utf8DecodeFrom Utf8State.init (b :: bs) =
      (utf8Lead b).1.toList ++ utf8DecodeFrom (utf8Lead b).2 bs := by
  rw [utf8DecodeFrom]
  simp [Utf8State.init]

theorem utf8DecodeFrom_last (cp lo hi b : Nat) (bs : List Nat) (h1 : lo ≤ b) (h2 : b ≤ hi) :
    utf8DecodeFrom { cp := cp, needed := 1, lo := lo, hi := hi } (b :: bs) =
      Char.ofNat (cp * 64 + b % 64) :: utf8DecodeFrom Utf8State.init bs := by
  rw [utf8DecodeFrom]
  have : ¬ (b < lo ∨ hi < b) := by omega
  simp [this]

theorem utf8DecodeFrom_more (cp needed lo hi b : Nat) (bs : List Nat) (hn : 2 ≤ needed)
    (h1 : lo ≤ b) (h2 : b ≤ hi) :
    utf8DecodeFrom { cp := cp, needed := needed, lo := lo, hi := hi } (b :: bs) =
      utf8DecodeFrom { cp := cp * 64 + b % 64, needed := needed - 1, lo := 0x80, hi := 0xBF }
        bs := by
  rw [utf8DecodeFrom]
  have h3 : ¬ (b < lo ∨ hi < b) := by omega
  have h4 : needed ≠ 0 := by omega
  have h5 : needed ≠ 1 := by omega
  simp [h3, h4, h5]

/-- Decoding the octets of a character gives the character back. -/
theorem utf8DecodeFrom_utf8Bytes (c : Char) (rest : List Nat) :
    utf8DecodeFrom Utf8State.init (utf8Bytes c.toNat ++ rest) =
      c :: utf8DecodeFrom Utf8State.init rest := by
  have hv := char_toNat_valid c
  have hc : Char.ofNat c.toNat = c := Char.ofNat_toNat c
  generalize c.toNat = n at hv hc
  unfold utf8Bytes
  by_cases h1 : n < 0x80
  · rw [if_pos h1, List.singleton_append, utf8DecodeFrom_start]
    have : utf8Lead n = (some (Char.ofNat n), Utf8State.init) := by
      unfold utf8Lead
      rw [if_pos (by omega)]
    rw [this, hc]
    rfl
  · rw [if_neg h1]
    by_cases h2 : n < 0x800
    · rw [if_pos h2]
      have hl : utf8Lead (0xC0 + n / 64) =
          (none, { cp := n / 64, needed := 1, lo := 0x80, hi := 0xBF }) := by
        unfold utf8Lead
        rw [if_neg (by omega), if_pos (by omega)]
        simp
      simp only [List.cons_append, List.nil_append]
      rw [utf8DecodeFrom_start, hl]
      simp only [Option.toList, List.nil_append]
      rw [utf8DecodeFrom_last _ _ _ _ _ (by omega) (by omega)]
      have : n / 64 * 64 + (0x80 + n % 64) % 64 = n := by omega
      rw [this, hc]
    · rw [if_neg h2]
      by_cases h3 : n < 0x10000
      · rw [if_pos h3]
        have hl : utf8Lead (0xE0 + n / 4096) =
            (none, { cp := n / 4096, needed := 2,
                     lo := if 0xE0 + n / 4096 = 0xE0 then 0xA0 else 0x80,
                     hi := if 0xE0 + n / 4096 = 0xED then 0x9F else 0xBF }) := by
          unfold utf8Lead
          rw [if_neg (by omega), if_neg (by omega), if_pos (by omega)]
          simp
        simp only [List.cons_append, List.nil_append]
        rw [utf8DecodeFrom_start, hl]
        simp only [Option.toList, List.nil_append]
        rw [utf8DecodeFrom_more _ _ _ _ _ _ (by omega) (by split <;> omega)
          (by split <;> omega)]
        rw [utf8DecodeFrom_last _ _ _ _ _ (by omega) (by omega)]
        have : (n / 4096 * 64 + (0x80 + n / 64 % 64) % 64) * 64 + (0x80 + n % 64) % 64 = n := by
          omega
        rw [this, hc]
      · rw [if_neg h3]
        have hl : utf8Lead (0xF0 + n / 262144) =
            (none, { cp := n / 262144, needed := 3,
                     lo := if 0xF0 + n / 262144 = 0xF0 then 0x90 else 0x80,
                     hi := if 0xF0 + n / 262144 = 0xF4 then 0x8F else 0xBF }) := by
          unfold utf8Lead
          rw [if_neg (by omega), if_neg (by omega), if_neg (by omega), if_pos (by omega)]
          simp
        simp only [List.cons_append, List.nil_append]
        rw [utf8DecodeFrom_start, hl]
        simp only [Option.toList, List.nil_append]
        rw [utf8DecodeFrom_more _ _ _ _ _ _ (by omega) (by split <;> omega)
          (by split <;> omega)]
        rw [utf8DecodeFrom_more _ _ _ _ _ _ (by omega) (by omega) (by omega)]
        rw [utf8DecodeFrom_last _ _ _ _ _ (by omega) (by omega)]
        have : ((n / 262144 * 64 + (0x80 + n / 4096 % 64) % 64) * 64 +
            (0x80 + n / 64 % 64) % 64) * 64 + (0x80 + n % 64) % 64 = n := by
          omega
        rw [this, hc]

/-- The UTF-8 octets of a string. -/
theorem utf8Decode_encode (t : Str) : utf8Decode (utf8Encode t) = t := by
  unfold utf8Decode utf8Encode
  induction t with
  | nil => simp [utf8DecodeFrom, Utf8State.init]
  | cons c cs ih =>
    rw [List.flatMap_cons, utf8DecodeFrom_utf8Bytes, ih]

/-! ## The query of a rewritten URL read back -/

theorem queryEncode_append (a b : Str) : queryEncode (a ++ b) = queryEncode a ++ queryEncode b := by
  induction a with
  | nil => rfl
  | cons c cs ih => simp [queryEncode, ih]

theorem utf8Encode_append (a b : Str) : utf8Encode (a ++ b) = utf8Encode a ++ utf8Encode b := by
  simp [utf8Encode]

/-- The octets the form decoder sees for a piece of a query. -/
theorem formBytes_append (a b : Str) :
    (utf8Encode (queryEncode (a ++ b))).map plusToSpace =
      (utf8Encode (queryEncode a)).map plusToSpace ++
        (utf8Encode (queryEncode b)).map plusToSpace := by
  rw [queryEncode_append, utf8Encode_append, List.map_append]

theorem hex_facts : ∀ d : Fin 16,
    (utf8Encode (queryEncode [hexDigit d.val])).map plusToSpace = [(hexDigit d.val).toNat] ∧
    hexVal (Char.ofNat (hexDigit d.val).toNat) = some d.val := by
  decide

theorem ascii_facts : ∀ n : Fin 128, isUnreserved (Char.ofNat n.val) = true →
    (((utf8Encode (queryEncode [Char.ofNat n.val])).map plusToSpace = [n.val] ∧ n.val ≠ 37) ∨
     ((utf8Encode (queryEncode [Char.ofNat n.val])).map plusToSpace = [37, 50, 55] ∧
       n.val = 39)) ∧
    ∀ b ∈ utf8Encode (queryEncode [Char.ofNat n.val]), b ≠ 38 ∧ b ≠ 61 := by
  decide

theorem unreserved_lt (c : Char) (h : isUnreserved c = true) : c.toNat < 128 := by
  simp only [isUnreserved, Bool.or_eq_true, Bool.and_eq_true, decide_eq_true_eq] at h
  omega

theorem percentDecode_plain (b : Nat) (rest : List Nat) (h : b ≠ 37) :
    percentDecode 0 (b :: rest) = b :: percentDecode 0 rest := by
  rw [percentDecode]
  have : escapeAt (b :: rest) = none := by
    unfold escapeAt
    split
    · rename_i heq
      simp only [List.cons.injEq] at heq
      exact absurd heq.1 h
    · rfl
  rw [this]

theorem percentDecode_escape (h1 h2 x y : Nat) (rest : List Nat)
    (hx : hexVal (Char.ofNat h1) = some x) (hy : hexVal (Char.ofNat h2) = some y) :
    percentDecode 0 (37 :: h1 :: h2 :: rest) = (16 * x + y) :: percentDecode 0 rest := by
  rw [percentDecode]
  have : escapeAt (37 :: h1 :: h2 :: rest) = some (16 * x + y) := by
    simp only [escapeAt, hx, hy]
  rw [this]
  simp only [percentDecode]

/-- The escape of an octet, as the form decoder sees it, decodes to the octet. -/
theorem percentDecode_pctByte (b : Nat) (hb : b < 256) (s : Str) (rest : List Nat) :
    percentDecode 0 ((utf8Encode (queryEncode (pctByte b ++ s))).map plusToSpace ++ rest) =
      b :: percentDecode 0 ((utf8Encode (queryEncode s)).map plusToSpace ++ rest) := by
  have hd1 := hex_facts ⟨b / 16, by omega⟩
  have hd2 := hex_facts ⟨b % 16, by omega⟩
  have hp : (utf8Encode (queryEncode ['%'])).map plusToSpace = [37] := by decide
  have e : pctByte b ++ s = ['%'] ++ ([hexDigit (b / 16)] ++ ([hexDigit (b % 16)] ++ s)) := rfl
  rw [e, formBytes_append, formBytes_append, formBytes_append, hp, hd1.1, hd2.1]
  simp only [List.cons_append, List.nil_append]
  rw [percentDecode_escape _ _ _ _ _ hd1.2 hd2.2]
  have : 16 * (b / 16) + b % 16 = b := by omega
  simp only [this]

theorem percentDecode_pctBytes (bs : List Nat) (hbs : ∀ b ∈ bs, b < 256) (s : Str)
    (rest : List Nat) :
    percentDecode 0 ((utf8Encode (queryEncode (pctBytes bs ++ s))).map plusToSpace ++ rest) =
      bs ++ percentDecode 0 ((utf8Encode (queryEncode s)).map plusToSpace ++ rest) := by
  induction bs with
  | nil => rfl
  | cons b bs ih =>
    have e : pctBytes (b :: bs) ++ s = pctByte b ++ (pctBytes bs ++ s) := by
      simp [pctBytes]
    rw [e, percentDecode_pctByte b (hbs b (by simp)), ih (fun x hx => hbs x (by simp [hx]))]
    rfl

theorem percentDecode_encodeChar (c : Char) (s : Str) (rest : List Nat) :
    percentDecode 0 ((utf8Encode (queryEncode (encodeChar c ++ s))).map plusToSpace ++ rest) =
      utf8Bytes c.toNat ++
        percentDecode 0 ((utf8Encode (queryEncode s)).map plusToSpace ++ rest) := by
  unfold encodeChar
  by_cases hu : isUnreserved c = true
  · rw [if_pos hu]
    have hlt := unreserved_lt c hu
    have hfacts := (ascii_facts ⟨c.toNat, hlt⟩ (by simpa using hu)).1
    simp only [Char.ofNat_toNat] at hfacts
    have hbytes : utf8Bytes c.toNat = [c.toNat] := by
      unfold utf8Bytes
      rw [if_pos (by omega)]
    rw [formBytes_append, hbytes]
    rcases hfacts with ⟨h1, h2⟩ | ⟨h1, h2⟩
    · rw [h1]
      simp only [List.cons_append, List.nil_append]
      rw [percentDecode_plain _ _ h2]
    · rw [h1, h2]
      simp only [List.cons_append, List.nil_append]
      rw [percentDecode_escape 50 55 2 7 _ (by decide) (by decide)]
  · rw [if_neg hu]
    exact percentDecode_pctBytes _ (utf8Bytes_lt _ (char_toNat_lt c)) s rest

/-- Percent-decoding the query form of an encoded component gives the UTF-8
octets of the component. -/
theorem percentDecode_encodeURIComponent (t : Str) :
    percentDecode 0 ((utf8Encode (queryEncode (encodeURIComponent t))).map plusToSpace) =
      utf8Encode t := by
  induction t with
  | nil => rfl
  | cons c cs ih =>
    have h := percentDecode_encodeChar c (encodeURIComponent cs) []
    simp only [List.append_nil] at h
    rw [encodeURIComponent, h, ih]
    simp [utf8Encode]

/-- The form decoder undoes `encodeURIComponent` behind the URL parser. -/
theorem decodeFormComponent_encodeURIComponent (t : Str) :
    decodeFormComponent (utf8Encode (queryEncode (encodeURIComponent t))) = t := by
  unfold decodeFormComponent
  rw [percentDecode_encodeURIComponent, utf8Decode_encode]

/-- No octet of the query form of an encoded component is `&` or `=`. -/
theorem queryBytes_encodeURIComponent (t : Str) :
    ∀ b ∈ utf8Encode (queryEncode (encodeURIComponent t)), b ≠ 38 ∧ b ≠ 61 := by
  have key : ∀ s : Str, (∀ x ∈ s, isUnreserved x = true ∨ x = '%') →
      ∀ b ∈ utf8Encode (queryEncode s), b ≠ 38 ∧ b ≠ 61 := by
    intro s
    induction s with
    | nil => intro _ b hb; simp [queryEncode, utf8Encode] at hb
    | cons x xs ih =>
      intro hs b hb
      have e : x :: xs = [x] ++ xs := rfl
      rw [e, queryEncode_append, utf8Encode_append, List.mem_append] at hb
      rcases hb with hb | hb
      · rcases hs x (by simp) with hx | hx
        · have hlt := unreserved_lt x hx
          have hfacts := (ascii_facts ⟨x.toNat, hlt⟩ (by simpa using hx)).2
          simp only [Char.ofNat_toNat] at hfacts
          exact hfacts b hb
        · subst hx
          have : ∀ b ∈ utf8Encode (queryEncode ['%']), b ≠ 38 ∧ b ≠ 61 := by decide
          exact this b hb
      · exact ih (fun y hy => hs y (by simp [hy])) b hb
  exact key _ (encodeURIComponent_chars t)

/-! ## The router on a rewritten URL -/

/-- A separator the test rejects ends `takeWhile` no later than the text before it. -/
theorem takeWhile_append_sep {α : Type} (p : α → Bool) (l : List α) (sep : α) (q : List α)
    (h : p sep = false) :
    (l ++ sep :: q).takeWhile p = l.takeWhile p ∧
      (l ++ sep :: q).dropWhile p = l.dropWhile p ++ sep :: q := by
  induction l with
  | nil => simp [List.takeWhile_cons, List.dropWhile_cons, h]
  | cons x xs ih =>
    cases hx : p x with
    | true => simp [List.takeWhile_cons, List.dropWhile_cons, hx, ih.1, ih.2]
    | false => simp [List.takeWhile_cons, List.dropWhile_cons, hx]

theorem takeWhile_all {α : Type} (p : α → Bool) (l : List α) (h : ∀ c ∈ l, p c = true) :
    l.takeWhile p = l ∧ l.dropWhile p = [] := by
  have := takeWhile_append_of_maximal p l [] h (by simp)
  simpa using this

theorem schemeRest_append (base rest x : Str) (h : schemeRest base = some rest) :
    schemeRest (base ++ x) = some (rest ++ x) ∧ ∀ c ∈ rest, c ∈ base := by
  unfold schemeRest at h ⊢
  by_cases h1 : startsWith base "https://".toList = true
  · rw [if_pos h1] at h
    simp only [Option.some.injEq] at h
    have e := startsWith_eq_append base _ h1
    have e2 : base = "https://".toList ++ rest := by rw [← h]; exact e
    have hs : startsWith (base ++ x) "https://".toList = true := by
      rw [e2, List.append_assoc]; exact startsWith_append _ _
    rw [if_pos hs]
    refine ⟨?_, ?_⟩
    · rw [e2]; rfl
    · intro c hc
      rw [e2]; exact List.mem_append_right _ hc
  · rw [if_neg h1] at h
    by_cases h2 : startsWith base "http://".toList = true
    · rw [if_pos h2] at h
      simp only [Option.some.injEq] at h
      have e := startsWith_eq_append base _ h2
      have e2 : base = "http://".toList ++ rest := by rw [← h]; exact e
      have hs1 : startsWith (base ++ x) "https://".toList = false := by
        rw [e2]; rfl
      have hs2 : startsWith (base ++ x) "http://".toList = true := by
        rw [e2, List.append_assoc]; exact startsWith_append _ _
      rw [if_neg (by rw [hs1]; exact Bool.false_ne_true), if_pos hs2]
      refine ⟨?_, ?_⟩
      · rw [e2]; rfl
      · intro c hc
        rw [e2]; exact List.mem_append_right _ hc
    · rw [if_neg h2] at h
      exact Option.noConfusion h

theorem parseAfterScheme_query (rest q : Str) (u : URLRecord)
    (h : parseAfterScheme rest = .ok u) (h1 : '?' ∉ rest) (h2 : '#' ∉ rest) (h3 : '#' ∉ q) :
    parseAfterScheme (rest ++ '?' :: q) = .ok { pathname := u.pathname, query := queryEncode q } ∧
      u.query = [] := by
  obtain ⟨ta, da⟩ := takeWhile_append_sep inAuthority rest '?' q rfl
  have hafter : ∀ c ∈ rest.dropWhile inAuthority, inPath c = true := by
    intro c hc
    have hmem : c ∈ rest := (List.dropWhile_sublist inAuthority).subset hc
    have c1 : c ≠ '?' := fun e => h1 (e ▸ hmem)
    have c2 : c ≠ '#' := fun e => h2 (e ▸ hmem)
    simp [inPath, c1, c2]
  obtain ⟨tp, dp⟩ := takeWhile_append_of_maximal inPath (rest.dropWhile inAuthority) ('?' :: q)
    hafter (by
      intro c hc
      simp only [List.head?_cons, Option.some.injEq] at hc
      subst hc
      rfl)
  obtain ⟨tp0, dp0⟩ := takeWhile_all inPath (rest.dropWhile inAuthority) hafter
  obtain ⟨tq, _⟩ := takeWhile_all (fun c => !decide (c = '#')) q (by
    intro c hc
    have : c ≠ '#' := fun e => h3 (e ▸ hc)
    simp [this])
  unfold parseAfterScheme at h ⊢
  rw [ta, da, tp, dp]
  rw [tp0, dp0] at h
  by_cases he : (rest.takeWhile inAuthority).isEmpty = true
  · rw [if_pos he] at h
    exact Except.noConfusion h
  · rw [if_neg he] at h ⊢
    simp only [Except.ok.injEq] at h
    rw [← h]
    simp only [tq, queryEncode, and_self]

/-- The URL parser on a proxy base followed by a query. -/
theorem parseURL_query (base q : Str) (u : URLRecord) (h : parseURL base = .ok u)
    (h1 : '?' ∉ base) (h2 : '#' ∉ base) (h3 : '#' ∉ q) :
    parseURL (base ++ '?' :: q) = .ok { pathname := u.pathname, query := queryEncode q } ∧
      u.query = [] := by
  unfold parseURL at h ⊢
  cases hs : schemeRest base with
  | none =>
    rw [hs] at h
    exact Except.noConfusion h
  | some rest =>
    rw [hs] at h
    simp only at h
    obtain ⟨hs2, hsub⟩ := schemeRest_append base rest ('?' :: q) hs
    rw [hs2]
    simp only
    exact parseAfterScheme_query rest q u h (fun hm => h1 (hsub _ hm))
      (fun hm => h2 (hsub _ hm)) h3

/-- The query pairs of `name=` followed by an encoded component: the one pair of
that name and the component. -/
theorem searchParams_single (pathname name t : Str)
    (hname : ∀ b ∈ utf8Encode (queryEncode name), b ≠ 38 ∧ b ≠ 61)
    (hdec : decodeFormComponent (utf8Encode (queryEncode name)) = name) :
    searchParams { pathname := pathname,
                   query := queryEncode (name ++ '=' :: encodeURIComponent t) } =
      [(name, t)] := by
  have heq : utf8Encode (queryEncode ['=']) = [61] := by decide
  have hbytes : utf8Encode (queryEncode (name ++ '=' :: encodeURIComponent t)) =
      utf8Encode (queryEncode name) ++
        61 :: utf8Encode (queryEncode (encodeURIComponent t)) := by
    have e : name ++ '=' :: encodeURIComponent t = name ++ (['='] ++ encodeURIComponent t) := rfl
    rw [e, queryEncode_append, queryEncode_append, utf8Encode_append, utf8Encode_append, heq]
    rfl
  have hval := queryBytes_encodeURIComponent t
  have hno : (38 : Nat) ∉ utf8Encode (queryEncode name) ++
      61 :: utf8Encode (queryEncode (encodeURIComponent t)) := by
    intro hm
    rcases List.mem_append.mp hm with hm | hm
    · exact (hname 38 hm).1 rfl
    · rcases List.mem_cons.mp hm with hm | hm
      · exact absurd hm (by decide)
      · exact (hval 38 hm).1 rfl
  obtain ⟨tk, dk⟩ := takeWhile_append_of_maximal (fun b : Nat => !decide (b = 61))
    (utf8Encode (queryEncode name)) (61 :: utf8Encode (queryEncode (encodeURIComponent t)))
    (by
      intro b hb
      have := (hname b hb).2
      simp [this])
    (by
      intro b hb
      simp only [List.head?_cons, Option.some.injEq] at hb
      subst hb
      rfl)
  unfold searchParams parseUrlencoded
  simp only
  rw [hbytes, splitOn_of_not_mem 38 _ hno]
  simp only [List.filterMap_cons, List.filterMap_nil, tk, dk, List.drop_succ_cons, List.drop_zero,
    hdec, decodeFormComponent_encodeURIComponent]
  have hne : (utf8Encode (queryEncode name) ++
      61 :: utf8Encode (queryEncode (encodeURIComponent t))).isEmpty = false := by
    cases utf8Encode (queryEncode name) <;> rfl
  simp [hne]

theorem proxyBaseOf_append (base x : Str) (h : '?' ∉ base) :
    proxyBaseOf (base ++ '?' :: x) = base := by
  unfold proxyBaseOf
  rw [splitOn_append_sep '?' base x h]
  rfl

theorem proxyBaseOf_self (base : Str) (h : '?' ∉ base) : proxyBaseOf base = base := by
  unfold proxyBaseOf
  rw [splitOn_of_not_mem '?' base h]
  rfl

/-! ## The URL parser on serialised input -/

theorem dropWhile_none {α : Type} (p : α → Bool) (s : List α) (h : ∀ c ∈ s, p c = false) :
    s.dropWhile p = s ∧ s.takeWhile p = [] := by
  cases s with
  | nil => simp
  | cons x xs =>
    have hx : p x = false := h x (by simp)
    simp [List.dropWhile_cons, List.takeWhile_cons, hx]

theorem trimC0Space_id (s : Str) (h : ∀ c ∈ s, isC0OrSpace c = false) : trimC0Space s = s := by
  unfold trimC0Space
  rw [(dropWhile_none isC0OrSpace s h).1,
    (dropWhile_none isC0OrSpace s.reverse (fun c hc => h c (List.mem_reverse.mp hc))).1,
    List.reverse_reverse]

theorem removeTabNewline_id (s : Str) (h : ∀ c ∈ s, isTabOrNewline c = false) :
    removeTabNewline s = s := by
  unfold removeTabNewline
  rw [List.filter_eq_self]
  intro c hc
  simp [h c hc]

theorem splitScheme_none (s : Str) (h : ':' ∉ s) : splitScheme s = none := by
  unfold splitScheme
  cases s with
  | nil => rfl
  | cons c cs =>
    simp only
    split
    · cases hd : List.dropWhile isSchemeChar (c :: cs) with
      | nil => rfl
      | cons d rest =>
        simp only
        have hmem : d ∈ c :: cs := by
          have : d ∈ List.dropWhile isSchemeChar (c :: cs) := by rw [hd]; simp
          exact (List.dropWhile_sublist _).subset this
        have hne : d ≠ ':' := fun e => h (e ▸ hmem)
        rw [if_neg hne]
    · rfl

theorem beforeChar_absent (sep : Char) (s : Str) (h : sep ∉ s) :
    beforeChar sep s = s ∧ afterChar sep s = none := by
  have hall : ∀ c ∈ s, (fun c => !decide (c = sep)) c = true := by
    intro c hc
    have : c ≠ sep := fun e => h (e ▸ hc)
    simp [this]
  obtain ⟨h1, h2⟩ := takeWhile_all _ s hall
  unfold beforeChar afterChar
  rw [h1, h2]
  exact ⟨rfl, rfl⟩

theorem splitTail_plain (s : Str) (h1 : '?' ∉ s) (h2 : '#' ∉ s) :
    splitTail s = { main := s, query := none, fragment := none } := by
  unfold splitTail
  rw [(beforeChar_absent '#' s h2).1, (beforeChar_absent '#' s h2).2,
    (beforeChar_absent '?' s h1).1, (beforeChar_absent '?' s h1).2]
  rfl

theorem percentEncodeWith_id (inSet : Char → Bool) (s : Str) (h : ∀ c ∈ s, inSet c = false) :
    percentEncodeWith inSet s = s := by
  induction s with
  | nil => rfl
  | cons c cs ih =>
    have hc : inSet c = false := h c (by simp)
    rw [percentEncodeWith, ih (fun d hd => h d (by simp [hd]))]
    simp [hc]

theorem splitBy_plain (p : Char → Bool) (seg : Str) (h : ∀ c ∈ seg, p c = false) :
    splitBy p seg = [seg] := by
  induction seg with
  | nil => rfl
  | cons c cs ih =>
    have hc : p c = false := h c (by simp)
    rw [splitBy, ih (fun d hd => h d (by simp [hd]))]
    simp [hc]

theorem splitBy_ne_nil (p : Char → Bool) (s : Str) : splitBy p s ≠ [] := by
  induction s with
  | nil => simp [splitBy]
  | cons c cs ih =>
    rw [splitBy]
    split
    · simp
    · cases h : splitBy p cs with
      | nil => simp
      | cons l ls => simp

theorem splitBy_append_sep (p : Char → Bool) (seg : Str) (sep : Char) (tail : Str)
    (h : ∀ c ∈ seg, p c = false) (hsep : p sep = true) :
    splitBy p (seg ++ sep :: tail) = seg :: splitBy p tail := by
  induction seg with
  | nil => simp [splitBy, hsep]
  | cons c cs ih =>
    have hc : p c = false := h c (by simp)
    rw [List.cons_append, splitBy, ih (fun d hd => h d (by simp [hd]))]
    simp [hc]

/-- The segments of a path text are read back by `splitBy`. -/
theorem splitBy_segments (p : Char → Bool) (sep : Char) (hsep : p sep = true) (seg : Str)
    (more : List Str) (h : ∀ s ∈ seg :: more, ∀ c ∈ s, p c = false) :
    splitBy p (seg ++ more.flatMap (fun s => sep :: s)) = seg :: more := by
  induction more generalizing seg with
  | nil =>
    simp only [List.flatMap_nil, List.append_nil]
    exact splitBy_plain p seg (h seg (by simp))
  | cons m ms ih =>
    rw [List.flatMap_cons, List.cons_append,
      splitBy_append_sep p seg sep _ (h seg (by simp)) hsep,
      ih m (fun s hs => h s (by simp [List.mem_cons] at hs ⊢; tauto))]

theorem addSegments_plain (segs : List Str)
    (h : ∀ seg ∈ segs, isSingleDot seg = false ∧ isDoubleDot seg = false) :
    ∀ path : List Str, addSegments path segs = path ++ segs := by
  induction segs with
  | nil => intro path; simp [addSegments]
  | cons seg rest ih =>
    intro path
    obtain ⟨h1, h2⟩ := h seg (by simp)
    cases rest with
    | nil => simp [addSegments, h1, h2]
    | cons next more =>
      rw [addSegments]
      simp only [h1, h2, Bool.false_eq_true, if_false]
      rw [ih (fun s hs => h s (by simp [hs]))]
      simp

/-! ## Serialised segments and hosts -/

theorem segmentChar_facts (c : Char) (h : isSegmentChar c = true) :
    inPathSet c = false ∧ isSlash c = false ∧ isC0OrSpace c = false ∧
      isTabOrNewline c = false ∧ c ≠ '?' ∧ c ≠ '#' ∧ c ≠ '/' := by
  have hq : isSegmentChar '?' = false := by decide
  have hh : isSegmentChar '#' = false := by decide
  have hs : isSegmentChar '/' = false := by decide
  refine ⟨?_, ?_, ?_, ?_, ?_, ?_, ?_⟩
  · simp [isSegmentChar] at h; exact h.1
  · simp [isSegmentChar] at h; exact h.2
  · simp only [isSegmentChar, inPathSet, isSlash, isC0OrSpace, Bool.and_eq_true,
      Bool.not_eq_true', Bool.or_eq_false_iff, decide_eq_false_iff_not] at h ⊢
    omega
  · simp only [isSegmentChar, inPathSet, isSlash, isTabOrNewline, Bool.and_eq_true,
      Bool.not_eq_true', Bool.or_eq_false_iff, decide_eq_false_iff_not] at h ⊢
    omega
  · intro e; subst e; rw [hq] at h; exact Bool.noConfusion h
  · intro e; subst e; rw [hh] at h; exact Bool.noConfusion h
  · intro e; subst e; rw [hs] at h; exact Bool.noConfusion h

theorem plainSegment_facts (seg : Str) (h : isPlainSegment seg = true) :
    (∀ c ∈ seg, isSegmentChar c = true) ∧ isSingleDot seg = false ∧ isDoubleDot seg = false := by
  simp only [isPlainSegment, Bool.and_eq_true, List.all_eq_true, Bool.not_eq_true'] at h
  exact ⟨h.1.1, h.1.2, h.2⟩

/-- The path state on the text of plain segments appends them. -/
theorem parsePathText_plain (start : List Str) (seg : Str) (more : List Str)
    (h : ∀ s ∈ seg :: more, isPlainSegment s = true) :
    parsePathText start (seg ++ more.flatMap (fun s => '/' :: s)) = start ++ seg :: more := by
  unfold parsePathText
  rw [splitBy_segments isSlash '/' (by decide) seg more
    (fun s hs c hc => (segmentChar_facts c ((plainSegment_facts s (h s hs)).1 c hc)).2.1)]
  have hmap : (seg :: more).map (percentEncodeWith inPathSet) = seg :: more := by
    rw [List.map_congr_left (g := id)]
    · simp
    · intro s hs
      exact percentEncodeWith_id _ s
        (fun c hc => (segmentChar_facts c ((plainSegment_facts s (h s hs)).1 c hc)).1)
  rw [hmap]
  exact addSegments_plain _
    (fun s hs => ⟨(plainSegment_facts s (h s hs)).2.1, (plainSegment_facts s (h s hs)).2.2⟩) start

theorem hostChar_lt (c : Char) (h : isHostChar c = true) : c.toNat < 128 := by
  simp only [isHostChar, isAsciiDigit, Bool.or_eq_true, Bool.and_eq_true,
    decide_eq_true_eq] at h
  omega

theorem host_ascii_facts : ∀ n : Fin 128, isHostChar (Char.ofNat n.val) = true →
    n.val ≠ 37 ∧ (Char.ofNat n.val).toLower = Char.ofNat n.val ∧
      isForbiddenDomainChar (Char.ofNat n.val) = false ∧ isSlash (Char.ofNat n.val) = false ∧
      isC0OrSpace (Char.ofNat n.val) = false ∧ isTabOrNewline (Char.ofNat n.val) = false ∧
      Char.ofNat n.val ≠ '?' ∧ Char.ofNat n.val ≠ '#' ∧ Char.ofNat n.val ≠ '@' ∧
      Char.ofNat n.val ≠ ':' ∧ Char.ofNat n.val ≠ '[' := by
  decide

theorem ofNat_toNat (c : Char) : Char.ofNat c.toNat = c := by
  cases c with
  | mk v hv =>
    apply Char.ext
    simp [Char.ofNat, Char.toNat, Char.ofNatAux]
    split
    · rfl
    · rename_i hn
      exact absurd hv hn

theorem hostChar_facts (c : Char) (h : isHostChar c = true) :
    c.toNat < 128 ∧ c.toNat ≠ 37 ∧ c.toLower = c ∧ isForbiddenDomainChar c = false ∧
      isSlash c = false ∧ isC0OrSpace c = false ∧ isTabOrNewline c = false ∧
      c ≠ '?' ∧ c ≠ '#' ∧ c ≠ '@' ∧ c ≠ ':' ∧ c ≠ '[' := by
  have hlt := hostChar_lt c h
  have hf := host_ascii_facts ⟨c.toNat, hlt⟩
  simp only [ofNat_toNat] at hf
  exact ⟨hlt, hf h⟩

/-! ## The host parser and the authority on serialised input -/

theorem plainHost_facts (host : Str) (h : isPlainHost host = true) :
    host ≠ [] ∧ (∀ c ∈ host, isHostChar c = true) ∧ endsInNumber host = false ∧
      (splitOn '.' host).any (fun label => startsWith label "xn--".toList) = false := by
  simp only [isPlainHost, Bool.and_eq_true, Bool.not_eq_true', List.all_eq_true] at h
  refine ⟨?_, h.1.1.2, h.1.2, h.2⟩
  intro e
  subst e
  simp at h

theorem percentDecode_host (host : Str) (h : ∀ c ∈ host, isHostChar c = true) :
    percentDecode 0 (utf8Encode host) = host.map Char.toNat := by
  induction host with
  | nil => rfl
  | cons c cs ih =>
    obtain ⟨hlt, hne, _⟩ := hostChar_facts c (h c (by simp))
    have hb : utf8Bytes c.toNat = [c.toNat] := by
      unfold utf8Bytes
      rw [if_pos hlt]
    have he : utf8Encode (c :: cs) = c.toNat :: utf8Encode cs := by
      unfold utf8Encode
      rw [List.flatMap_cons, hb]
      rfl
    rw [he, percentDecode_plain _ _ hne, ih (fun d hd => h d (by simp [hd]))]
    rfl

theorem lower_host (host : Str) (h : ∀ c ∈ host, isHostChar c = true) :
    lower ((host.map Char.toNat).map Char.ofNat) = host := by
  unfold lower
  rw [List.map_map, List.map_map]
  conv => rhs; rw [← List.map_id host]
  apply List.map_congr_left
  intro c hc
  simp only [Function.comp_apply, ofNat_toNat, id]
  exact (hostChar_facts c (h c hc)).2.2.1

theorem parseHost_plain (host : Str) (h : isPlainHost host = true) :
    parseHost host = .ok host := by
  obtain ⟨hne, hall, hnum, hxn⟩ := plainHost_facts host h
  have h1 : startsWith host ['['] = false := by
    cases host with
    | nil => rfl
    | cons c cs =>
      have hc : c ≠ '[' := (hostChar_facts c (hall c (by simp))).2.2.2.2.2.2.2.2.2.2.2
      simp [startsWith, List.isPrefixOf, Ne.symm hc]
  have h2 : (host.map Char.toNat).any (fun b => decide (0x80 ≤ b)) = false := by
    rw [List.any_eq_false]
    intro b hb
    obtain ⟨c, hc, rfl⟩ := List.mem_map.mp hb
    have := (hostChar_facts c (hall c hc)).1
    simp only [decide_eq_true_eq]
    omega
  have h3 : (host.map Char.toNat).isEmpty = false := by
    cases host with
    | nil => exact absurd rfl hne
    | cons c cs => rfl
  have h4 : host.any isForbiddenDomainChar = false := by
    rw [List.any_eq_false]
    intro c hc
    rw [(hostChar_facts c (hall c hc)).2.2.2.1]
    exact Bool.false_ne_true
  unfold parseHost
  rw [percentDecode_host host hall, lower_host host hall, h1, h2, hxn, h3, h4, hnum]
  rfl

theorem hostPortOf_plain (host : Str) (h : '@' ∉ host) :
    hostPortOf host = host ∧ userinfoOf host = [] := by
  have hall : ∀ c ∈ host.reverse, (fun c => !decide (c = '@')) c = true := by
    intro c hc
    have : c ≠ '@' := fun e => h (e ▸ List.mem_reverse.mp hc)
    simp [this]
  obtain ⟨h1, h2⟩ := takeWhile_all _ host.reverse hall
  unfold hostPortOf userinfoOf
  rw [h1, h2]
  simp

/-- The authority and path states on a serialised host followed by serialised
segments. -/
theorem parseAuthority_plain (scheme host : Str) (seg : Str) (more : List Str)
    (hhost : isPlainHost host = true) (hsegs : ∀ s ∈ seg :: more, isPlainSegment s = true) :
    parseAuthority scheme (host ++ (seg :: more).flatMap (fun s => '/' :: s)) =
      .ok { scheme := scheme, username := [], password := [], host := host, port := none
            path := seg :: more, query := none, fragment := none } := by
  obtain ⟨hne, hall, _, _⟩ := plainHost_facts host hhost
  have hpathc : ∀ c ∈ (seg :: more).flatMap (fun s => '/' :: s), c ≠ '?' ∧ c ≠ '#' := by
    intro c hc
    obtain ⟨s, hs, hcs⟩ := List.mem_flatMap.mp hc
    rcases List.mem_cons.mp hcs with e | hcs
    · subst e
      exact ⟨by decide, by decide⟩
    · have := segmentChar_facts c ((plainSegment_facts s (hsegs s hs)).1 c hcs)
      exact ⟨this.2.2.2.2.1, this.2.2.2.2.2.1⟩
  have hq : '?' ∉ host ++ (seg :: more).flatMap (fun s => '/' :: s) := by
    intro hm
    rcases List.mem_append.mp hm with hm | hm
    · exact (hostChar_facts _ (hall _ hm)).2.2.2.2.2.2.2.1 rfl
    · exact (hpathc _ hm).1 rfl
  have hf : '#' ∉ host ++ (seg :: more).flatMap (fun s => '/' :: s) := by
    intro hm
    rcases List.mem_append.mp hm with hm | hm
    · exact (hostChar_facts _ (hall _ hm)).2.2.2.2.2.2.2.2.1 rfl
    · exact (hpathc _ hm).2 rfl
  have hat : '@' ∉ host := fun hm => (hostChar_facts _ (hall _ hm)).2.2.2.2.2.2.2.2.2.1 rfl
  have hcolon : ':' ∉ host := fun hm => (hostChar_facts _ (hall _ hm)).2.2.2.2.2.2.2.2.2.2.1 rfl
  have hsplit := takeWhile_append_of_maximal (fun c => !isSlash c) host
    ((seg :: more).flatMap (fun s => '/' :: s))
    (fun c hc => by simp [(hostChar_facts c (hall c hc)).2.2.2.2.1])
    (fun c hc => by
      rw [List.flatMap_cons] at hc
      simp only [List.cons_append, List.head?_cons, Option.some.injEq] at hc
      subst hc
      decide)
  have hany : host.any (fun c => decide (c = '@')) = false := by
    rw [List.any_eq_false]
    intro c hc
    have : c ≠ '@' := fun e => hat (e ▸ hc)
    simp [this]
  have hdrop : ((seg :: more).flatMap (fun s => '/' :: s)).drop 1 =
      seg ++ more.flatMap (fun s => '/' :: s) := by
    rw [List.flatMap_cons]
    rfl
  have hempty : host.isEmpty = false := by
    cases host with
    | nil => exact absurd rfl hne
    | cons c cs => rfl
  unfold parseAuthority
  simp only [splitTail_plain _ hq hf, hsplit.1, hsplit.2, hany, (hostPortOf_plain host hat).1,
    (hostPortOf_plain host hat).2, (beforeChar_absent ':' host hcolon).1,
    (beforeChar_absent ':' host hcolon).2, hempty, parseHost_plain host hhost, hdrop,
    parsePathText_plain [] seg more hsegs]
  rfl

/-! ## Resolution of file names and of serialised absolute URLs -/

theorem fileName_facts (line : Str) (h : isFileName line = true) :
    line ≠ [] ∧ isPlainSegment line = true ∧ ':' ∉ line := by
  simp only [isFileName, Bool.and_eq_true, Bool.not_eq_true', List.all_eq_true,
    decide_eq_false_iff_not] at h
  refine ⟨?_, h.1.2, fun hm => h.2 ':' hm rfl⟩
  intro e
  subst e
  simp at h

theorem head_dropWhile_scheme (pre rest : Str) (h : ':' ∉ pre)
    (hstop : ∀ c, rest.head? = some c → isSchemeChar c = false ∧ c ≠ ':') :
    ∀ d, (List.dropWhile isSchemeChar (pre ++ rest)).head? = some d → d ≠ ':' := by
  induction pre with
  | nil =>
    intro d hd
    cases rest with
    | nil => simp at hd
    | cons c cs =>
      obtain ⟨h1, h2⟩ := hstop c rfl
      rw [List.nil_append, List.dropWhile_cons_of_neg (by simp [h1])] at hd
      simp only [List.head?_cons, Option.some.injEq] at hd
      exact hd ▸ h2
  | cons x xs ih =>
    intro d hd
    by_cases hx : isSchemeChar x = true
    · rw [List.cons_append, List.dropWhile_cons_of_pos hx] at hd
      exact ih (fun hm => h (by simp [hm])) d hd
    · rw [List.cons_append, List.dropWhile_cons_of_neg hx] at hd
      simp only [List.head?_cons, Option.some.injEq] at hd
      intro e
      exact h (by rw [← e, ← hd]; simp)

/-- A text whose first run of scheme characters is not closed by a colon has no
scheme. -/
theorem splitScheme_none_of_prefix (pre rest : Str) (h : ':' ∉ pre)
    (hstop : ∀ c, rest.head? = some c → isSchemeChar c = false ∧ c ≠ ':') :
    splitScheme (pre ++ rest) = none := by
  have hhead := head_dropWhile_scheme pre rest h hstop
  unfold splitScheme
  cases hs : pre ++ rest with
  | nil => rfl
  | cons c cs =>
    rw [hs] at hhead
    simp only
    split
    · cases hd : List.dropWhile isSchemeChar (c :: cs) with
      | nil => rfl
      | cons d tl =>
        simp only
        have hne : d ≠ ':' := hhead d (by rw [hd]; rfl)
        rw [if_neg hne]
    · rfl

theorem serializeUrl_replaceLastSegment (b : Url) (seg : Str) (more : List Str) :
    serializeUrl { b with path := b.path.dropLast ++ seg :: more, query := none
                          fragment := none } =
      serializeUrl (replaceLastSegment b (pathText seg more)) := by
  unfold serializeUrl replaceLastSegment pathText
  simp [List.flatMap_append]

/-- A relative line of plain segments is read in the relative state and then the
path state: it takes the place of the last path segment of the base. -/
theorem resolveURL_pathText (seg base : Str) (more : List Str) (b : Url)
    (hb : parseUrl base none = .ok b) (h : isFileName seg = true)
    (hmore : ∀ s ∈ more, isPlainSegment s = true) :
    resolveURL (pathText seg more) base =
      .ok (serializeUrl (replaceLastSegment b (pathText seg more))) := by
  obtain ⟨hne, hplain, hcolon⟩ := fileName_facts seg h
  have hsegs : ∀ s ∈ seg :: more, isPlainSegment s = true := by
    intro s hs
    rcases List.mem_cons.mp hs with e | hs
    · exact e ▸ hplain
    · exact hmore s hs
  have hchars : ∀ c ∈ pathText seg more, isC0OrSpace c = false ∧ isTabOrNewline c = false ∧
      c ≠ '?' ∧ c ≠ '#' := by
    intro c hc
    unfold pathText at hc
    simp only [List.mem_append, List.mem_flatMap, List.mem_cons] at hc
    rcases hc with hc | ⟨s, hs, hc | hc⟩
    · have := segmentChar_facts c ((plainSegment_facts seg hplain).1 c hc)
      exact ⟨this.2.2.1, this.2.2.2.1, this.2.2.2.2.1, this.2.2.2.2.2.1⟩
    · subst hc
      exact ⟨by decide, by decide, by decide, by decide⟩
    · have := segmentChar_facts c ((plainSegment_facts s (hmore s hs)).1 c hc)
      exact ⟨this.2.2.1, this.2.2.2.1, this.2.2.2.2.1, this.2.2.2.2.2.1⟩
  have htrim : removeTabNewline (trimC0Space (pathText seg more)) = pathText seg more := by
    rw [trimC0Space_id _ (fun c hc => (hchars c hc).1),
      removeTabNewline_id _ (fun c hc => (hchars c hc).2.1)]
  have hq : '?' ∉ pathText seg more := fun hm => (hchars _ hm).2.2.1 rfl
  have hf : '#' ∉ pathText seg more := fun hm => (hchars _ hm).2.2.2 rfl
  have hscheme : splitScheme (pathText seg more) = none := by
    unfold pathText
    apply splitScheme_none_of_prefix seg _ hcolon
    intro c hc
    cases more with
    | nil => simp at hc
    | cons m ms =>
      rw [List.flatMap_cons] at hc
      simp only [List.cons_append, List.head?_cons, Option.some.injEq] at hc
      subst hc
      exact ⟨by decide, by decide⟩
  have hpath := parsePathText_plain b.path.dropLast seg more hsegs
  have hrel : parseRelative b (pathText seg more) =
      .ok { b with path := b.path.dropLast ++ seg :: more, query := none, fragment := none } := by
    have hline : pathText seg more = seg ++ more.flatMap (fun s => '/' :: s) := rfl
    cases seg with
    | nil => exact absurd rfl hne
    | cons c rest =>
      have hc := segmentChar_facts c ((plainSegment_facts _ hplain).1 c (by simp))
      rw [hline] at hq hf ⊢
      rw [List.cons_append] at hq hf hpath ⊢
      unfold parseRelative
      simp only [hc.2.1, Bool.false_eq_true, if_false, if_neg hc.2.2.2.2.1,
        if_neg hc.2.2.2.2.2.1, splitTail_plain _ hq hf, hpath]
  unfold resolveURL
  rw [hb]
  simp only
  unfold parseUrl
  rw [htrim, hscheme]
  simp only [hrel, serializeUrl_replaceLastSegment]

theorem absoluteLine_chars (scheme host : Str) (segs : List Str)
    (hs : scheme = "http".toList ∨ scheme = "https".toList) (hhost : isPlainHost host = true)
    (hsegs : ∀ s ∈ segs, isPlainSegment s = true) :
    ∀ c ∈ absoluteLine scheme host segs, isC0OrSpace c = false ∧ isTabOrNewline c = false := by
  intro c hc
  unfold absoluteLine at hc
  simp only [List.mem_append, List.mem_flatMap, List.mem_cons] at hc
  rcases hc with ((hc | hc) | hc) | ⟨s, hs2, hc | hc⟩
  · have : ∀ d ∈ "https".toList, isC0OrSpace d = false ∧ isTabOrNewline d = false := by decide
    rcases hs with e | e
    · subst e
      exact this c (by revert hc; simp; tauto)
    · subst e
      exact this c hc
  · have : ∀ d ∈ "://".toList, isC0OrSpace d = false ∧ isTabOrNewline d = false := by decide
    exact this c hc
  · have := hostChar_facts c ((plainHost_facts host hhost).2.1 c hc)
    exact ⟨this.2.2.2.2.2.1, this.2.2.2.2.2.2.1⟩
  · subst hc
    exact ⟨by decide, by decide⟩
  · have := segmentChar_facts c ((plainSegment_facts s (hsegs s hs2)).1 c hc)
    exact ⟨this.2.2.1, this.2.2.2.1⟩

theorem splitScheme_absoluteLine (scheme rest : Str)
    (hs : scheme = "http".toList ∨ scheme = "https".toList) :
    splitScheme (scheme ++ "://".toList ++ rest) = some (scheme, '/' :: '/' :: rest) ∧
      (defaultPort scheme).isSome = true := by
  rcases hs with e | e
  · subst e
    exact ⟨rfl, by decide⟩
  · subst e
    exact ⟨rfl, by decide⟩

/-- An absolute `http` or `https` line in serialised form resolves to itself,
whatever the base. -/
theorem resolveURL_absoluteLine (scheme host base : Str) (segs : List Str) (b : Url)
    (hb : parseUrl base none = .ok b)
    (hs : scheme = "http".toList ∨ scheme = "https".toList) (hhost : isPlainHost host = true)
    (hne : segs ≠ []) (hsegs : ∀ s ∈ segs, isPlainSegment s = true) :
    resolveURL (absoluteLine scheme host segs) base = .ok (absoluteLine scheme host segs) := by
  have hchars := absoluteLine_chars scheme host segs hs hhost hsegs
  have htrim : removeTabNewline (trimC0Space (absoluteLine scheme host segs)) =
      absoluteLine scheme host segs := by
    rw [trimC0Space_id _ (fun c hc => (hchars c hc).1),
      removeTabNewline_id _ (fun c hc => (hchars c hc).2)]
  cases segs with
  | nil => exact absurd rfl hne
  | cons seg more =>
    have hauth := parseAuthority_plain scheme host seg more hhost hsegs
    obtain ⟨hhne, hall, _, _⟩ := plainHost_facts host hhost
    have hdrop : List.dropWhile isSlash
        ('/' :: '/' :: (host ++ (seg :: more).flatMap (fun s => '/' :: s))) =
        host ++ (seg :: more).flatMap (fun s => '/' :: s) := by
      have h1 : isSlash '/' = true := by decide
      rw [List.dropWhile_cons_of_pos h1, List.dropWhile_cons_of_pos h1]
      cases host with
      | nil => exact absurd rfl hhne
      | cons c cs =>
        have hc : isSlash c = false := (hostChar_facts c (hall c (by simp))).2.2.2.2.1
        rw [List.cons_append, List.dropWhile_cons_of_neg (by simp [hc])]
    have hser : serializeUrl
        { scheme := scheme, username := [], password := [], host := host, port := none
          path := seg :: more, query := none, fragment := none } =
        absoluteLine scheme host (seg :: more) := by
      unfold serializeUrl absoluteLine
      simp
    have hparse : parseUrl (absoluteLine scheme host (seg :: more)) (some b) =
        .ok { scheme := scheme, username := [], password := [], host := host, port := none
              path := seg :: more, query := none, fragment := none } := by
      unfold parseUrl
      rw [htrim]
      have hsp := splitScheme_absoluteLine scheme
        (host ++ (seg :: more).flatMap (fun s => '/' :: s)) hs
      have hline : absoluteLine scheme host (seg :: more) =
          scheme ++ "://".toList ++ (host ++ (seg :: more).flatMap (fun s => '/' :: s)) := by
        unfold absoluteLine
        simp
      rw [hline, hsp.1]
      simp only [hsp.2, if_true]
      by_cases hsame : b.scheme = scheme
      · rw [if_pos hsame]
        unfold parseRelative
        have h1 : isSlash '/' = true := by decide
        simp only [h1, if_true, List.head?_cons, Option.map_some', Option.getD_some, hdrop,
          hsame, hauth]
      · rw [if_neg hsame, hdrop, hauth]
    unfold resolveURL
    rw [hb]
    simp only [hparse, hser]

theorem mkTextResponse_playlist (body : Str) :
    mkTextResponse body 200 playlistHeaders =
      { status := 200, headers := playlistHeaders, body := body } := by
  have h : Headers.get playlistHeaders "content-type".toList =
      some "application/vnd.apple.mpegurl".toList := by decide
  unfold mkTextResponse
  rw [h]

theorem handleVariant_ok (resolve : Str → Str → Except Str Str) (net : Net)
    (variantUrl : Str) (request : Request) (log : List FetchCall) (upstream : Response)
    (out : Str) (hfetch : (fetchWithUA net variantUrl [] log).1 = .ok upstream)
    (h : rewriteVariant resolve variantUrl (proxyBaseOf request.url) upstream.body = .ok out) :
    (handleVariantPlaylistProxy resolve net variantUrl request log).1 =
      .ok { status := 200, headers := playlistHeaders, body := out } := by
  unfold handleVariantPlaylistProxy
  cases hf : fetchWithUA net variantUrl [] log with
  | mk r log2 =>
    rw [hf] at hfetch
    simp only at hfetch
    subst hfetch
    simp [h, mkTextResponse_playlist]

theorem handleVariant_error (resolve : Str → Str → Except Str Str) (net : Net)
    (variantUrl : Str) (request : Request) (log : List FetchCall) (upstream : Response)
    (e : Str) (hfetch : (fetchWithUA net variantUrl [] log).1 = .ok upstream)
    (h : rewriteVariant resolve variantUrl (proxyBaseOf request.url) upstream.body = .error e) :
    (handleVariantPlaylistProxy resolve net variantUrl request log).1 = .error e := by
  unfold handleVariantPlaylistProxy
  cases hf : fetchWithUA net variantUrl [] log with
  | mk r log2 =>
    rw [hf] at hfetch
    simp only at hfetch
    subst hfetch
    simp [h]

theorem rewriteVariant_ok_iff (resolve : Str → Str → Except Str Str)
    (variantUrl proxyBase text : Str) :
    (∃ out, rewriteVariant resolve variantUrl proxyBase text = .ok out) ↔
      ∀ line ∈ splitOn '\n' text, line ≠ [] → startsWith line ['#'] = false →
        ∃ abs, resolve line variantUrl = .ok abs := by
  have hm := mapLines_ok_iff (rewriteLine resolve variantUrl proxyBase) (splitOn '\n' text)
  have h1 : (∃ out, rewriteVariant resolve variantUrl proxyBase text = .ok out) ↔
      ∃ ls, mapLines (rewriteLine resolve variantUrl proxyBase) (splitOn '\n' text) = .ok ls := by
    unfold rewriteVariant
    cases mapLines (rewriteLine resolve variantUrl proxyBase) (splitOn '\n' text) with
    | error e => simp
    | ok ls => simp
  rw [h1, hm]
  constructor
  · intro h line hl hne hs
    obtain ⟨l2, hl2⟩ := h line hl
    cases hr : resolve line variantUrl with
    | error e =>
      rw [rewriteLine_segment_error _ _ _ _ _ hne hs hr] at hl2
      exact Except.noConfusion hl2
    | ok abs => exact ⟨abs, rfl⟩
  · intro h line hl
    by_cases hk : line = [] ∨ startsWith line ['#'] = true
    · exact ⟨line, rewriteLine_kept _ _ _ _ hk⟩
    · have h1 : line ≠ [] := fun e => hk (Or.inl e)
      have h2 : startsWith line ['#'] = false := by
        cases hs : startsWith line ['#'] with
        | true => exact absurd (Or.inr hs) hk
        | false => rfl
      obtain ⟨abs, hr⟩ := h line hl h1 h2
      exact ⟨_, rewriteLine_segment_ok _ _ _ _ _ h1 h2 hr⟩

/-- C1. Variant rewriter, comment preservation in place: when the variant
manifest was fetched and the proxy base holds no line break, the handler returns
a response exactly when every segment line resolves, and then its body, split on
the line break, has as many lines as the manifest, and every line of the
manifest that is empty or starts with `#` stands unchanged at the same index. -/
theorem variant_comment_lines_in_place (resolve : Str → Str → Except Str Str) (net : Net)
    (variantUrl : Str) (request : Request) (log : List FetchCall) (upstream : Response)
    (hbase : '\n' ∉ proxyBaseOf request.url)
    (hfetch : (fetchWithUA net variantUrl [] log).1 = .ok upstream) :
    ((∃ resp, (handleVariantPlaylistProxy resolve net variantUrl request log).1 = .ok resp) ↔
      ∀ line ∈ splitOn '\n' upstream.body, line ≠ [] → startsWith line ['#'] = false →
        ∃ abs, resolve line variantUrl = .ok abs) ∧
    ∀ resp, (handleVariantPlaylistProxy resolve net variantUrl request log).1 = .ok resp →
      (splitOn '\n' resp.body).length = (splitOn '\n' upstream.body).length ∧
      ∀ (i : Nat) (line : Str), (splitOn '\n' upstream.body)[i]? = some line →
        (line = [] ∨ startsWith line ['#'] = true) →
        (splitOn '\n' resp.body)[i]? = some line := by
  constructor
  · rw [← rewriteVariant_ok_iff resolve variantUrl (proxyBaseOf request.url) upstream.body]
    constructor
    · rintro ⟨resp, hresp⟩
      cases hr : rewriteVariant resolve variantUrl (proxyBaseOf request.url) upstream.body with
      | error e =>
        rw [handleVariant_error _ _ _ _ _ _ _ hfetch hr] at hresp
        exact Except.noConfusion hresp
      | ok out => exact ⟨out, rfl⟩
    · rintro ⟨out, hout⟩
      exact ⟨_, handleVariant_ok _ _ _ _ _ _ _ hfetch hout⟩
  · intro resp hresp
    cases hr : rewriteVariant resolve variantUrl (proxyBaseOf request.url) upstream.body with
    | error e =>
      rw [handleVariant_error _ _ _ _ _ _ _ hfetch hr] at hresp
      exact Except.noConfusion hresp
    | ok out =>
      rw [handleVariant_ok _ _ _ _ _ _ _ hfetch hr] at hresp
      simp only [Except.ok.injEq] at hresp
      subst hresp
      have hm := rewriteVariant_lines _ _ _ _ _ hbase hr
      obtain ⟨hlen, hall⟩ := mapLines_spec _ _ _ hm
      refine ⟨hlen, ?_⟩
      intro i line hline hk
      obtain ⟨l2, hf, ho⟩ := hall i line hline
      rw [rewriteLine_kept _ _ _ _ hk] at hf
      simp only [Except.ok.injEq] at hf
      subst hf
      exact ho

theorem sample_handle :
    (handleVariantPlaylistProxy resolveURL sampleNet sampleVariantUrl sampleRequest []).1 =
      .ok sampleRewritten := by decide

theorem variant_comment_lines_witness :
    (splitOn '\n' sampleRewritten.body).length = (splitOn '\n' sampleUpstream.body).length ∧
    (splitOn '\n' sampleRewritten.body)[1]? = some "#EXT-X-VERSION:3".toList :=
  have h := (variant_comment_lines_in_place resolveURL sampleNet sampleVariantUrl sampleRequest []
    sampleUpstream (by decide) (by rfl)).2 sampleRewritten sample_handle
  ⟨h.1, h.2 1 "#EXT-X-VERSION:3".toList (by decide) (by decide)⟩

/-- The lines the variant rewriter emits for a fetched manifest. -/
theorem handleVariant_lines (resolve : Str → Str → Except Str Str) (net : Net)
    (variantUrl : Str) (request : Request) (log : List FetchCall) (upstream resp : Response)
    (hfetch : (fetchWithUA net variantUrl [] log).1 = .ok upstream)
    (hresp : (handleVariantPlaylistProxy resolve net variantUrl request log).1 = .ok resp) :
    resp.status = 200 ∧ ∃ outLines : List Str,
      resp.body = joinWith ['\n'] outLines ∧
      outLines.length = (splitOn '\n' upstream.body).length ∧
      ∀ (i : Nat) (line : Str), (splitOn '\n' upstream.body)[i]? = some line →
        ((line = [] ∨ startsWith line ['#'] = true) → outLines[i]? = some line) ∧
        ∀ abs : Str, line ≠ [] → startsWith line ['#'] = false →
          resolve line variantUrl = .ok abs →
          outLines[i]? =
            some (proxyBaseOf request.url ++ "?url=".toList ++ encodeURIComponent abs) := by
  cases hr : rewriteVariant resolve variantUrl (proxyBaseOf request.url) upstream.body with
  | error e =>
    rw [handleVariant_error _ _ _ _ _ _ _ hfetch hr] at hresp
    exact Except.noConfusion hresp
  | ok out =>
    rw [handleVariant_ok _ _ _ _ _ _ _ hfetch hr] at hresp
    simp only [Except.ok.injEq] at hresp
    subst hresp
    unfold rewriteVariant at hr
    cases hm : mapLines (rewriteLine resolve variantUrl (proxyBaseOf request.url))
        (splitOn '\n' upstream.body) with
    | error e => simp [hm] at hr
    | ok ls =>
      simp only [hm, Except.ok.injEq] at hr
      obtain ⟨hlen, hall⟩ := mapLines_spec _ _ _ hm
      refine ⟨rfl, ls, hr.symm, hlen, ?_⟩
      intro i line hline
      obtain ⟨l2, hf, ho⟩ := hall i line hline
      constructor
      · intro hk
        rw [rewriteLine_kept _ _ _ _ hk] at hf
        simp only [Except.ok.injEq] at hf
        rw [ho, hf]
      · intro abs hne hs habs
        rw [rewriteLine_segment_ok _ _ _ _ _ hne hs habs] at hf
        simp only [Except.ok.injEq] at hf
        rw [ho, hf]

/-- The variant rewriter returns exactly when every segment line resolves. -/
theorem handleVariant_returns_iff (resolve : Str → Str → Except Str Str) (net : Net)
    (variantUrl : Str) (request : Request) (log : List FetchCall) (upstream : Response)
    (hfetch : (fetchWithUA net variantUrl [] log).1 = .ok upstream) :
    (∃ resp, (handleVariantPlaylistProxy resolve net variantUrl request log).1 = .ok resp) ↔
      ∀ line ∈ splitOn '\n' upstream.body, line ≠ [] → startsWith line ['#'] = false →
        ∃ abs, resolve line variantUrl = .ok abs := by
  rw [← rewriteVariant_ok_iff resolve variantUrl (proxyBaseOf request.url) upstream.body]
  constructor
  · rintro ⟨resp, hresp⟩
    cases hr : rewriteVariant resolve variantUrl (proxyBaseOf request.url) upstream.body with
    | error e =>
      rw [handleVariant_error _ _ _ _ _ _ _ hfetch hr] at hresp
      exact Except.noConfusion hresp
    | ok out => exact ⟨out, rfl⟩
  · rintro ⟨out, hout⟩
    exact ⟨_, handleVariant_ok _ _ _ _ _ _ _ hfetch hout⟩

/-- The variant rewriter on the one-line manifest `seg1.ts` under
`https://cdn.example/a/b/playlist.m3u8`. -/
theorem handleVariant_seg1 (net : Net) (request : Request) (log : List FetchCall)
    (upstream : Response)
    (hfetch : (fetchWithUA net deepVariantUrl [] log).1 = .ok upstream)
    (hbody : upstream.body = "seg1.ts".toList) :
    (handleVariantPlaylistProxy resolveURL net deepVariantUrl request log).1 =
      .ok { status := 200, headers := playlistHeaders
            body := proxyBaseOf request.url ++
              "?url=https%3A%2F%2Fcdn.example%2Fa%2Fb%2Fseg1.ts".toList } := by
  apply handleVariant_ok _ _ _ _ _ _ _ hfetch
  rw [hbody]
  have hs : splitOn '\n' "seg1.ts".toList = ["seg1.ts".toList] := by decide
  have h1 := rewriteLine_segment_ok resolveURL deepVariantUrl (proxyBaseOf request.url)
    "seg1.ts".toList "https://cdn.example/a/b/seg1.ts".toList (by decide) (by decide) (by decide)
  have henc : encodeURIComponent "https://cdn.example/a/b/seg1.ts".toList =
      "https%3A%2F%2Fcdn.example%2Fa%2Fb%2Fseg1.ts".toList := by decide
  unfold rewriteVariant
  rw [hs]
  simp only [mapLines, h1, henc, joinWith]
  simp

/-- The variant rewriter on the manifest of the end-to-end scenario. -/
theorem handleVariant_scenario (net : Net) (request : Request) (log : List FetchCall)
    (upstream : Response)
    (hfetch : (fetchWithUA net sampleVariantUrl [] log).1 = .ok upstream)
    (hbody : upstream.body = samplePlaylist) :
    (handleVariantPlaylistProxy resolveURL net sampleVariantUrl request log).1 =
      .ok { status := 200, headers := playlistHeaders
            body := "#EXTM3U\n#EXT-X-VERSION:3\n".toList ++ proxyBaseOf request.url ++
              "?url=https%3A%2F%2Fcdn%2Fx%2Fseg0.ts\n".toList } := by
  apply handleVariant_ok _ _ _ _ _ _ _ hfetch
  rw [hbody]
  have hs : splitOn '\n' samplePlaylist =
      ["#EXTM3U".toList, "#EXT-X-VERSION:3".toList, "seg0.ts".toList, []] := by decide
  have h1 := rewriteLine_kept resolveURL sampleVariantUrl (proxyBaseOf request.url)
    "#EXTM3U".toList (Or.inr (by decide))
  have h2 := rewriteLine_kept resolveURL sampleVariantUrl (proxyBaseOf request.url)
    "#EXT-X-VERSION:3".toList (Or.inr (by decide))
  have h3 := rewriteLine_segment_ok resolveURL sampleVariantUrl (proxyBaseOf request.url)
    "seg0.ts".toList "https://cdn/x/seg0.ts".toList (by decide) (by decide) (by decide)
  have h4 := rewriteLine_kept resolveURL sampleVariantUrl (proxyBaseOf request.url)
    [] (Or.inl rfl)
  have henc : encodeURIComponent "https://cdn/x/seg0.ts".toList =
      "https%3A%2F%2Fcdn%2Fx%2Fseg0.ts".toList := by decide
  unfold rewriteVariant
  rw [hs]
  simp only [mapLines, h1, h2, h3, h4, henc, joinWith]
  simp

/-- C2, as stated, fails on the resolution it describes.  Under
`https://cdn.example/a/b/playlist.m3u8` the handler sends the relative line
`/root/seg.ts` to `https://cdn.example/root/seg.ts` and `../seg.ts` to
`https://cdn.example/a/seg.ts`, where replacing the last path segment of the
variant URL gives `https://cdn.example/a/b//root/seg.ts` and
`https://cdn.example/a/b/../seg.ts`; and it sends the absolute line
`https://cdn.example/a/../seg.ts` to `https://cdn.example/seg.ts`, not to
itself.  The response of the handler is not the one the described resolution
would give. -/
theorem variant_resolution_rule_counterexample :
    (handleVariantPlaylistProxy resolveURL climbingNet deepVariantUrl deepRequest []).1 =
      .ok { status := 200, headers := playlistHeaders
            body := ("#EXTM3U\n" ++
              "https://proxy.example/@example/stream.m3u8" ++
              "?url=https%3A%2F%2Fcdn.example%2Froot%2Fseg.ts\n" ++
              "https://proxy.example/@example/stream.m3u8" ++
              "?url=https%3A%2F%2Fcdn.example%2Fa%2Fseg.ts\n" ++
              "https://proxy.example/@example/stream.m3u8" ++
              "?url=https%3A%2F%2Fcdn.example%2Fseg.ts\n").toList } ∧
    (handleVariantPlaylistProxy claimedResolve climbingNet deepVariantUrl deepRequest []).1 =
      .ok { status := 200, headers := playlistHeaders
            body := ("#EXTM3U\n" ++
              "https://proxy.example/@example/stream.m3u8" ++
              "?url=https%3A%2F%2Fcdn.example%2Fa%2Fb%2F%2Froot%2Fseg.ts\n" ++
              "https://proxy.example/@example/stream.m3u8" ++
              "?url=https%3A%2F%2Fcdn.example%2Fa%2Fb%2F..%2Fseg.ts\n" ++
              "https://proxy.example/@example/stream.m3u8" ++
              "?url=https%3A%2F%2Fcdn.example%2Fa%2F..%2Fseg.ts\n").toList } ∧
    (handleVariantPlaylistProxy resolveURL climbingNet deepVariantUrl deepRequest []).1 ≠
      (handleVariantPlaylistProxy claimedResolve climbingNet deepVariantUrl deepRequest []).1 ∧
    resolveURL "/root/seg.ts".toList deepVariantUrl =
      .ok "https://cdn.example/root/seg.ts".toList ∧
    claimedResolve "/root/seg.ts".toList deepVariantUrl =
      .ok "https://cdn.example/a/b//root/seg.ts".toList ∧
    resolveURL "../seg.ts".toList deepVariantUrl = .ok "https://cdn.example/a/seg.ts".toList ∧
    claimedResolve "../seg.ts".toList deepVariantUrl =
      .ok "https://cdn.example/a/b/../seg.ts".toList ∧
    resolveURL "https://cdn.example/a/../seg.ts".toList deepVariantUrl =
      .ok "https://cdn.example/seg.ts".toList ∧
    claimedResolve "https://cdn.example/a/../seg.ts".toList deepVariantUrl =
      .ok "https://cdn.example/a/../seg.ts".toList := by
  have h1 : (handleVariantPlaylistProxy resolveURL climbingNet deepVariantUrl deepRequest
      []).1 = .ok { status := 200, headers := playlistHeaders
                    body := ("#EXTM3U\n" ++
                      "https://proxy.example/@example/stream.m3u8" ++
                      "?url=https%3A%2F%2Fcdn.example%2Froot%2Fseg.ts\n" ++
                      "https://proxy.example/@example/stream.m3u8" ++
                      "?url=https%3A%2F%2Fcdn.example%2Fa%2Fseg.ts\n" ++
                      "https://proxy.example/@example/stream.m3u8" ++
                      "?url=https%3A%2F%2Fcdn.example%2Fseg.ts\n").toList } := by
    set_option maxRecDepth 8000 in decide
  have h2 : (handleVariantPlaylistProxy claimedResolve climbingNet deepVariantUrl deepRequest
      []).1 = .ok { status := 200, headers := playlistHeaders
                    body := ("#EXTM3U\n" ++
                      "https://proxy.example/@example/stream.m3u8" ++
                      "?url=https%3A%2F%2Fcdn.example%2Fa%2Fb%2F%2Froot%2Fseg.ts\n" ++
                      "https://proxy.example/@example/stream.m3u8" ++
                      "?url=https%3A%2F%2Fcdn.example%2Fa%2Fb%2F..%2Fseg.ts\n" ++
                      "https://proxy.example/@example/stream.m3u8" ++
                      "?url=https%3A%2F%2Fcdn.example%2Fa%2F..%2Fseg.ts\n").toList } := by
    set_option maxRecDepth 8000 in decide
  refine ⟨h1, h2, ?_, by decide, by decide, by decide, by decide, by decide, by decide⟩
  rw [h1, h2]
  set_option maxRecDepth 8000 in decide

/-- C2, amended. Variant rewriter, segment lines: for a fetched manifest the
handler returns a response exactly when every line that is not empty and does
not start with `#` resolves against the variant URL; the response has status
200 and its body is the join, with the line break, of one output line per
manifest line, where an empty or `#` line is its own output line and a line that
resolves to `abs` has the output line `proxyBase?url=` followed by
`encodeURIComponent(abs)`.  Under the URL standard a relative line made of a
file name and further plain segments, each behind a slash, replaces the last
path segment of the variant URL, dropping its query and fragment, and an
absolute `http` or `https` line in serialised form resolves to itself.  The
manifest `seg1.ts` under `https://cdn.example/a/b/playlist.m3u8`
gives the target `https://cdn.example/a/b/seg1.ts`, and the manifest of the
end-to-end scenario is rewritten as the spec writes it, whatever status the
upstream answered with. -/
theorem variant_segment_lines_rewritten :
    (∀ (resolve : Str → Str → Except Str Str) (net : Net) (variantUrl : Str)
        (request : Request) (log : List FetchCall) (upstream : Response),
      (fetchWithUA net variantUrl [] log).1 = .ok upstream →
      ((∃ resp, (handleVariantPlaylistProxy resolve net variantUrl request log).1 = .ok resp) ↔
        ∀ line ∈ splitOn '\n' upstream.body, line ≠ [] → startsWith line ['#'] = false →
          ∃ abs, resolve line variantUrl = .ok abs) ∧
      ∀ resp, (handleVariantPlaylistProxy resolve net variantUrl request log).1 = .ok resp →
        resp.status = 200 ∧ ∃ outLines : List Str,
          resp.body = joinWith ['\n'] outLines ∧
          outLines.length = (splitOn '\n' upstream.body).length ∧
          ∀ (i : Nat) (line : Str), (splitOn '\n' upstream.body)[i]? = some line →
            ((line = [] ∨ startsWith line ['#'] = true) → outLines[i]? = some line) ∧
            ∀ abs : Str, line ≠ [] → startsWith line ['#'] = false →
              resolve line variantUrl = .ok abs →
              outLines[i]? =
                some (proxyBaseOf request.url ++ "?url=".toList ++ encodeURIComponent abs)) ∧
    (∀ (seg variantUrl : Str) (more : List Str) (base : Url),
      parseUrl variantUrl none = .ok base →
      isFileName seg = true → (∀ s ∈ more, isPlainSegment s = true) →
      resolveURL (pathText seg more) variantUrl =
        .ok (serializeUrl (replaceLastSegment base (pathText seg more)))) ∧
    (∀ (scheme host variantUrl : Str) (segments : List Str) (base : Url),
      parseUrl variantUrl none = .ok base →
      (scheme = "http".toList ∨ scheme = "https".toList) → isPlainHost host = true →
      segments ≠ [] → (∀ seg ∈ segments, isPlainSegment seg = true) →
      resolveURL (absoluteLine scheme host segments) variantUrl =
        .ok (absoluteLine scheme host segments)) ∧
    (∀ (net : Net) (request : Request) (log : List FetchCall) (upstream : Response),
      (fetchWithUA net "https://cdn.example/a/b/playlist.m3u8".toList [] log).1 = .ok upstream →
      upstream.body = "seg1.ts".toList →
      (handleVariantPlaylistProxy resolveURL net "https://cdn.example/a/b/playlist.m3u8".toList
          request log).1 =
        .ok { status := 200, headers := playlistHeaders
              body := proxyBaseOf request.url ++
                "?url=https%3A%2F%2Fcdn.example%2Fa%2Fb%2Fseg1.ts".toList }) ∧
    (∀ (net : Net) (request : Request) (log : List FetchCall) (upstream : Response),
      (fetchWithUA net "https://cdn/x/v.m3u8".toList [] log).1 = .ok upstream →
      upstream.body = "#EXTM3U\n#EXT-X-VERSION:3\nseg0.ts\n".toList →
      (handleVariantPlaylistProxy resolveURL net "https://cdn/x/v.m3u8".toList request log).1 =
        .ok { status := 200, headers := playlistHeaders
              body := "#EXTM3U\n#EXT-X-VERSION:3\n".toList ++ proxyBaseOf request.url ++
                "?url=https%3A%2F%2Fcdn%2Fx%2Fseg0.ts\n".toList }) := by
  refine ⟨?_, ?_, ?_, ?_, ?_⟩
  · intro resolve net variantUrl request log upstream hfetch
    exact ⟨handleVariant_returns_iff resolve net variantUrl request log upstream hfetch,
      fun resp hresp =>
        handleVariant_lines resolve net variantUrl request log upstream resp hfetch hresp⟩
  · intro seg variantUrl more base hb h hmore
    exact resolveURL_pathText seg variantUrl more base hb h hmore
  · intro scheme host variantUrl segments base hb hs hhost hne hsegs
    exact resolveURL_absoluteLine scheme host variantUrl segments base hb hs hhost hne hsegs
  · intro net request log upstream hfetch hbody
    exact handleVariant_seg1 net request log upstream hfetch hbody
  · intro net request log upstream hfetch hbody
    exact handleVariant_scenario net request log upstream hfetch hbody

/-- The amended C2 at the manifest of the end-to-end scenario, served with
status 403: the handler returns, with status 200, and the third of its four
output lines is the wrapped target `https://cdn/x/seg0.ts`; and the two rules at
the line `hd/seg0.ts` and at the line `https://cdn/x/seg0.ts`. -/
theorem variant_segment_lines_witness :
    (∃ resp, (handleVariantPlaylistProxy resolveURL sampleNet sampleVariantUrl sampleRequest
          []).1 = .ok resp ∧
      resp.status = 200 ∧ ∃ outLines : List Str,
        resp.body = joinWith ['\n'] outLines ∧ outLines.length = 4 ∧
        outLines[2]? = some ("https://proxy.example/@example/stream.m3u8".toList ++
          "?url=".toList ++ encodeURIComponent "https://cdn/x/seg0.ts".toList)) ∧
    resolveURL "hd/seg0.ts".toList sampleVariantUrl = .ok "https://cdn/x/hd/seg0.ts".toList ∧
    resolveURL "https://cdn/x/seg0.ts".toList sampleVariantUrl =
      .ok "https://cdn/x/seg0.ts".toList :=
  have hgen := variant_segment_lines_rewritten.1 resolveURL sampleNet sampleVariantUrl
    sampleRequest [] sampleUpstream (by rfl)
  have hall : ∀ line ∈ splitOn '\n' sampleUpstream.body, line ≠ [] →
      startsWith line ['#'] = false → ∃ abs, resolveURL line sampleVariantUrl = .ok abs := by
    intro line hl hne hs
    have hsplit : splitOn '\n' sampleUpstream.body =
        ["#EXTM3U".toList, "#EXT-X-VERSION:3".toList, "seg0.ts".toList, []] := by decide
    rw [hsplit] at hl
    simp only [List.mem_cons, List.mem_singleton, List.not_mem_nil, or_false] at hl
    rcases hl with e | e | e | e
    · subst e; exact absurd hs (by decide)
    · subst e; exact absurd hs (by decide)
    · subst e; exact ⟨"https://cdn/x/seg0.ts".toList, by decide⟩
    · exact absurd e hne
  have ⟨resp, hresp⟩ := hgen.1.mpr hall
  have ⟨hstatus, outLines, hbody, hlen, hlines⟩ := hgen.2 resp hresp
  ⟨⟨resp, hresp, hstatus, outLines, hbody, hlen,
      (hlines 2 "seg0.ts".toList (by decide)).2 "https://cdn/x/seg0.ts".toList (by decide)
        (by decide) (by decide)⟩,
    (variant_segment_lines_rewritten.2.1 "hd".toList sampleVariantUrl ["seg0.ts".toList]
      { scheme := "https".toList, username := [], password := [], host := "cdn".toList
        port := none, path := ["x".toList, "v.m3u8".toList], query := none, fragment := none }
      (by decide) (by decide) (by decide)),
    (variant_segment_lines_rewritten.2.2.1 "https".toList "cdn".toList sampleVariantUrl
      ["x".toList, "seg0.ts".toList]
      { scheme := "https".toList, username := [], password := [], host := "cdn".toList
        port := none, path := ["x".toList, "v.m3u8".toList], query := none, fragment := none }
      (by decide) (by decide) (by decide) (by decide) (by decide))⟩

/-- C3. Master rewriter: once the manifest URL is resolved and the manifest
fetched, the handler returns status 200 with a body that is the manifest text in
which, reading from the left, every longest match of the absolute-URL pattern is
replaced by `proxyBase?variant=` and the encoded match, every character outside
the matches being kept in order; that description has no other result. -/
theorem master_rewrites_every_absolute_url (net : Net) (handle : Str) (request : Request)
    (log log2 : List FetchCall) (manifestUrl : Str) (upstream : Response)
    (hfind : findManifest net (candidateUrls handle) none log = (.ok (some manifestUrl), log2))
    (hne : manifestUrl ≠ [])
    (hfetch : (fetchWithUA net manifestUrl [] log2).1 = .ok upstream) :
    ∃ body : Str,
      (handleMasterRequest net handle request log).1 =
        .ok { status := 200, headers := playlistHeaders, body := body } ∧
      MasterRewrite (proxyBaseOf request.url) upstream.body body ∧
      ∀ out, MasterRewrite (proxyBaseOf request.url) upstream.body out → out = body := by
  refine ⟨replaceUrls (proxyBaseOf request.url) 0 upstream.body, ?_, ?_, ?_⟩
  · rw [handleMaster_found net handle request log log2 manifestUrl upstream hfind hne hfetch]
  · exact replaceUrls_sound _ _ _ (Nat.le_refl _)
  · intro out hout
    exact replaceUrls_unique _ _ _ hout

/-- The master rewriter on `sampleMaster`, reached through the page `/@example/live`. -/
theorem master_rewrites_witness :
    ∃ body : Str,
      (handleMasterRequest liveNet "@example".toList masterRequest []).1 =
        .ok { status := 200, headers := playlistHeaders, body := body } ∧
      MasterRewrite (proxyBaseOf masterRequest.url) sampleMaster.body body ∧
      ∀ out, MasterRewrite (proxyBaseOf masterRequest.url) sampleMaster.body out → out = body :=
  master_rewrites_every_absolute_url liveNet "@example".toList masterRequest []
    [{ url := "https://www.youtube.com/@example/live".toList, headers := uaHeaders [] }]
    "https://m.example/master.m3u8".toList sampleMaster (by decide) (by decide) (by decide)

/-- C8. Resolver priority and short-circuit: the candidates are the pages
`/<handle>/live`, `/channel/<handle>/live` and `/watch?v=<handle>` in that
order.  If the pages before a candidate are delivered without the marker and
that candidate's page contains it, the calls made are exactly those candidates
in order, that candidate, and then the manifest URL decoded from its capture
(no later candidate is fetched); the fetched manifest is what is rewritten, and
a capture that does not decode ends the request with no further call.  If all
three pages lack the marker, the result is the 404 `Manifest not found` and the
three page calls are the only calls. -/
theorem resolver_priority_short_circuit (net : Net) (handle : Str) (request : Request)
    (log : List FetchCall) :
    candidateUrls handle =
      ["https://www.youtube.com/".toList ++ handle ++ "/live".toList,
       "https://www.youtube.com/channel/".toList ++ handle ++ "/live".toList,
       "https://www.youtube.com/watch?v=".toList ++ handle] ∧
    (∀ (pre : List Str) (u : Str) (post : List Str) (page : Response),
      candidateUrls handle = pre ++ u :: post →
      NoMarkerRun net log pre →
      net (log ++ pre.map pageCall) (pageCall u) = .ok page →
      HasMarker page.body →
      ∃ m, findMarker page.body = some m ∧
        (∀ manifestUrl, decodeURIComponent (unescapeAmp 0 m) = .ok manifestUrl →
          (handleMasterRequest net handle request log).2 =
            log ++ (pre ++ [u]).map pageCall ++ [pageCall manifestUrl] ∧
          ∀ upstream,
            net (log ++ (pre ++ [u]).map pageCall) (pageCall manifestUrl) = .ok upstream →
            (handleMasterRequest net handle request log).1 =
              .ok { status := 200, headers := playlistHeaders,
                    body := replaceUrls (proxyBaseOf request.url) 0 upstream.body }) ∧
        (∀ e, decodeURIComponent (unescapeAmp 0 m) = .error e →
          handleMasterRequest net handle request log =
            (.error e, log ++ (pre ++ [u]).map pageCall))) ∧
    (NoMarkerRun net log (candidateUrls handle) →
      handleMasterRequest net handle request log =
        (.ok (mkTextResponse "Manifest not found".toList 404 []),
         log ++ (candidateUrls handle).map pageCall)) := by
  refine ⟨rfl, ?_, ?_⟩
  · intro pre u post page hc hrun hpage hmark
    obtain ⟨m, hm⟩ := (findMarker_some_iff page.body).mpr hmark
    obtain ⟨hok, herr⟩ := extract_marker net u (log ++ pre.map pageCall) page m hpage hm
    have hskip : findManifest net (candidateUrls handle) none log =
        findManifest net (u :: post) none (log ++ pre.map pageCall) := by
      rw [hc, findManifest_skip net pre (u :: post) none log hrun]
      have : (if pre = [] then (none : Option Str) else none) = none := by split <;> rfl
      rw [this]
    have hlog : log ++ pre.map pageCall ++ [pageCall u] = log ++ (pre ++ [u]).map pageCall := by
      simp
    refine ⟨m, hm, ?_, ?_⟩
    · intro manifestUrl hdec
      obtain ⟨hex, hne⟩ := hok manifestUrl hdec
      have hfind := hskip.trans (findManifest_hit net u post none _ _ manifestUrl hne hex)
      rw [hlog] at hfind
      constructor
      · unfold handleMasterRequest
        rw [hfind]
        simp only [truthy_some manifestUrl hne, Bool.not_true, Bool.false_eq_true, if_false,
          Option.getD_some, fetchWithUA, pageCall]
        cases net (log ++ (pre ++ [u]).map pageCall)
            { url := manifestUrl, headers := uaHeaders [] } <;> rfl
      · intro upstream hup
        rw [handleMaster_found net handle request log _ manifestUrl upstream hfind hne
          (by simpa [fetchWithUA, pageCall] using hup)]
    · intro e hdec
      have hfind := hskip.trans (findManifest_throw net u post none _ _ e (herr e hdec))
      rw [hlog] at hfind
      unfold handleMasterRequest
      rw [hfind]
  · intro hrun
    have hfind := findManifest_skip net (candidateUrls handle) [] none log hrun
    rw [List.append_nil] at hfind
    have : (if candidateUrls handle = [] then (none : Option Str) else none) = none := by
      split <;> rfl
    rw [this, findManifest] at hfind
    unfold handleMasterRequest
    rw [hfind]
    simp [truthy]

/-- The resolver on an upstream where only the third candidate embeds a
manifest URL, and on one where the first does. -/
theorem resolver_priority_witness :
    (handleMasterRequest watchNet "abc".toList masterRequest []).2 =
      [pageCall "https://www.youtube.com/abc/live".toList,
       pageCall "https://www.youtube.com/channel/abc/live".toList,
       pageCall "https://www.youtube.com/watch?v=abc".toList,
       pageCall "https://m.example/master.m3u8".toList] ∧
    (handleMasterRequest liveNet "@example".toList masterRequest []).2 =
      [pageCall "https://www.youtube.com/@example/live".toList,
       pageCall "https://m.example/master.m3u8".toList] ∧
    handleMasterRequest offlineNet "abc".toList masterRequest [] =
      (.ok (mkTextResponse "Manifest not found".toList 404 []),
       [pageCall "https://www.youtube.com/abc/live".toList,
        pageCall "https://www.youtube.com/channel/abc/live".toList,
        pageCall "https://www.youtube.com/watch?v=abc".toList]) := by
  have hplain : ¬ HasMarker plainPage.body := (findMarker_none_iff _).mp (by decide)
  have hgone : ¬ HasMarker "gone".toList := (findMarker_none_iff _).mp (by decide)
  have hlive : HasMarker (livePage "https://m.example/master.m3u8").body :=
    (findMarker_some_iff _).mp ⟨"https://m.example/master.m3u8".toList, by decide⟩
  refine ⟨?_, ?_, ?_⟩
  · obtain ⟨m, hm, hok, _⟩ := (resolver_priority_short_circuit watchNet "abc".toList
      masterRequest []).2.1
      ["https://www.youtube.com/abc/live".toList,
       "https://www.youtube.com/channel/abc/live".toList]
      "https://www.youtube.com/watch?v=abc".toList [] (livePage "https://m.example/master.m3u8")
      rfl ⟨⟨plainPage, by decide, hplain⟩, ⟨plainPage, by decide, hplain⟩, trivial⟩
      (by decide) hlive
    have hm2 : findMarker (livePage "https://m.example/master.m3u8").body =
        some "https://m.example/master.m3u8".toList := by decide
    rw [hm2] at hm
    simp only [Option.some.injEq] at hm
    subst hm
    exact (hok "https://m.example/master.m3u8".toList (by decide)).1
  · obtain ⟨m, hm, hok, _⟩ := (resolver_priority_short_circuit liveNet "@example".toList
      masterRequest []).2.1 [] "https://www.youtube.com/@example/live".toList
      ["https://www.youtube.com/channel/@example/live".toList,
       "https://www.youtube.com/watch?v=@example".toList]
      (livePage "https://m.example/master.m3u8") rfl trivial (by decide) hlive
    have hm2 : findMarker (livePage "https://m.example/master.m3u8").body =
        some "https://m.example/master.m3u8".toList := by decide
    rw [hm2] at hm
    simp only [Option.some.injEq] at hm
    subst hm
    exact (hok "https://m.example/master.m3u8".toList (by decide)).1
  · exact (resolver_priority_short_circuit offlineNet "abc".toList masterRequest []).2.2
      ⟨⟨_, rfl, hgone⟩, ⟨_, rfl, hgone⟩, ⟨_, rfl, hgone⟩, trivial⟩

/-- C6. Cache miss then hit: with the store a map keyed by the full request URL
and the URL absent from it, `cacheResponse` invokes the producer exactly once
(the invocation count grows by one and the upstream log is the producer's);
if the producer returns a response with a 2xx status, the caller gets, and the
store holds under the request URL, that response with `Cache-Control` set to
`public, max-age=<ttl>` and nothing else changed; any `cacheResponse` call that
follows with the same request URL returns the stored response and leaves the
world as it is, so no producer is invoked. -/
theorem cache_miss_then_hit (fn : Producer) (key : Str) (ttl : Nat) (request : Request)
    (w : World) (hmiss : w.cache.lookup request.url = none) :
    (cacheResponse fn key ttl request w).2.invocations = w.invocations + 1 ∧
    (cacheResponse fn key ttl request w).2.log = (fn key request w.log).2 ∧
    ∀ r, (fn key request w.log).1 = .ok (some r) → 200 ≤ r.status → r.status ≤ 299 →
      (cacheResponse fn key ttl request w).1 = .ok (some (withCacheControl r ttl)) ∧
      (cacheResponse fn key ttl request w).2.cache.lookup request.url =
        some (withCacheControl r ttl) ∧
      (withCacheControl r ttl).status = r.status ∧
      (withCacheControl r ttl).body = r.body ∧
      Headers.get (withCacheControl r ttl).headers "Cache-Control".toList =
        some ("public, max-age=".toList ++ (Nat.repr ttl).toList) ∧
      (∀ other, lower other ≠ lower "Cache-Control".toList →
        (withCacheControl r ttl).headers.filter (named other) =
          r.headers.filter (named other)) ∧
      ∀ (fn2 : Producer) (key2 : Str) (ttl2 : Nat) (request2 : Request),
        request2.url = request.url →
        cacheResponse fn2 key2 ttl2 request2 (cacheResponse fn key ttl request w).2 =
          (.ok (some (withCacheControl r ttl)), (cacheResponse fn key ttl request w).2) := by
  obtain ⟨h1, h2⟩ := cacheResponse_invocations fn key ttl request w hmiss
  refine ⟨h1, h2, ?_⟩
  intro r hfn hlo hhi
  have hok : r.ok = true := by
    simp only [Response.ok, Bool.and_eq_true, decide_eq_true_eq]
    exact ⟨hlo, hhi⟩
  have hstore := cacheResponse_store fn key ttl request w r hmiss hfn hok
  have hlook : (cacheResponse fn key ttl request w).2.cache.lookup request.url =
      some (withCacheControl r ttl) := by
    rw [hstore]
    exact Cache.lookup_put _ _ _
  refine ⟨by rw [hstore], hlook, rfl, rfl, ?_, ?_, ?_⟩
  · exact Headers.get_set _ _ _
  · intro other hne
    exact Headers.filter_set_of_ne _ _ _ _ hne
  · intro fn2 key2 ttl2 request2 hurl
    exact cacheResponse_hit fn2 key2 ttl2 request2 _ _ (by rw [hurl]; exact hlook)

/-- The first request for the sample variant playlist against an empty store,
and the same request again. -/
theorem cache_miss_then_hit_witness :
    emptyWorld.cache.lookup sampleRequest.url = none ∧
    (cacheResponse (asProducer (handleVariantPlaylistProxy resolveURL sampleNet))
      sampleVariantUrl CACHE_TTL_VARIANT sampleRequest emptyWorld).2.invocations = 1 ∧
    cacheResponse (asProducer (handleVariantPlaylistProxy resolveURL sampleNet))
        sampleVariantUrl CACHE_TTL_VARIANT sampleRequest
        (cacheResponse (asProducer (handleVariantPlaylistProxy resolveURL sampleNet))
          sampleVariantUrl CACHE_TTL_VARIANT sampleRequest emptyWorld).2 =
      (.ok (some (withCacheControl sampleRewritten CACHE_TTL_VARIANT)),
       (cacheResponse (asProducer (handleVariantPlaylistProxy resolveURL sampleNet))
          sampleVariantUrl CACHE_TTL_VARIANT sampleRequest emptyWorld).2) :=
  have h := cache_miss_then_hit (asProducer (handleVariantPlaylistProxy resolveURL sampleNet))
    sampleVariantUrl CACHE_TTL_VARIANT sampleRequest emptyWorld (by decide)
  ⟨by decide, h.1,
    (h.2.2 sampleRewritten (by decide) (by decide) (by decide)).2.2.2.2.2.2 _ _ _
      sampleRequest rfl⟩

/-- C7. No negative caching: with the request URL absent from the store, if the
producer throws or returns a response whose status is outside 200..299,
`cacheResponse` hands the producer's outcome on as it is (no `Cache-Control` is
added), leaves the store unchanged, so the URL is still absent, and every
`cacheResponse` call that follows for the same URL invokes its producer again;
the error thrown becomes the 500 response of `handleRequest`, which is not
stored either. -/
theorem no_negative_caching (fn : Producer) (key : Str) (ttl : Nat) (request : Request)
    (w : World) (hmiss : w.cache.lookup request.url = none)
    (hfail : (∃ e, (fn key request w.log).1 = .error e) ∨
      ∃ r, (fn key request w.log).1 = .ok (some r) ∧ (r.status < 200 ∨ 299 < r.status)) :
    (cacheResponse fn key ttl request w).1 = (fn key request w.log).1 ∧
    (cacheResponse fn key ttl request w).2.cache = w.cache ∧
    (cacheResponse fn key ttl request w).2.cache.lookup request.url = none ∧
    (catch500 (cacheResponse fn key ttl request w)).2.cache = w.cache ∧
    (∀ e, (fn key request w.log).1 = .error e →
      (catch500 (cacheResponse fn key ttl request w)).1 =
        some (mkTextResponse ("Error: ".toList ++ e) 500 [])) ∧
    ∀ (fn2 : Producer) (key2 : Str) (ttl2 : Nat) (request2 : Request),
      request2.url = request.url →
      (cacheResponse fn2 key2 ttl2 request2 (cacheResponse fn key ttl request w).2).2.invocations =
        (cacheResponse fn key ttl request w).2.invocations + 1 ∧
      (cacheResponse fn2 key2 ttl2 request2 (cacheResponse fn key ttl request w).2).2.log =
        (fn2 key2 request2 (cacheResponse fn key ttl request w).2.log).2 := by
  have hpass := cacheResponse_pass fn key ttl request w hmiss (by
    rcases hfail with ⟨e, he⟩ | ⟨r, hr, hs⟩
    · exact Or.inl ⟨e, he⟩
    · refine Or.inr (Or.inr ⟨r, hr, ?_⟩)
      simp only [Response.ok, Bool.and_eq_false_imp, decide_eq_true_eq, decide_eq_false_iff_not]
      omega)
  have hcache : (cacheResponse fn key ttl request w).2.cache = w.cache := by rw [hpass]
  have hlook : (cacheResponse fn key ttl request w).2.cache.lookup request.url = none := by
    rw [hcache]; exact hmiss
  refine ⟨by rw [hpass], hcache, hlook, ?_, ?_, ?_⟩
  · rw [hpass]
    cases (fn key request w.log).1 <;> rfl
  · intro e he
    rw [hpass, he]
    rfl
  · intro fn2 key2 ttl2 request2 hurl
    exact cacheResponse_invocations fn2 key2 ttl2 request2 _ (by rw [hurl]; exact hlook)

/-- A master request while no candidate page embeds a manifest URL: the 404 is
handed on and not stored. -/
theorem no_negative_caching_witness :
    emptyWorld.cache.lookup masterRequest.url = none ∧
    (cacheResponse (asProducer (handleMasterRequest offlineNet)) "abc".toList CACHE_TTL_MASTER
      masterRequest emptyWorld).1 =
      .ok (some (mkTextResponse "Manifest not found".toList 404 [])) ∧
    (cacheResponse (asProducer (handleMasterRequest offlineNet)) "abc".toList CACHE_TTL_MASTER
      masterRequest emptyWorld).2.cache = [] :=
  have h := no_negative_caching (asProducer (handleMasterRequest offlineNet)) "abc".toList
    CACHE_TTL_MASTER masterRequest emptyWorld (by decide)
    (Or.inr ⟨mkTextResponse "Manifest not found".toList 404 [], by decide, by decide⟩)
  ⟨by decide, h.1.trans (by decide), h.2.1⟩

theorem uaHeaders_range (v : Str) :
    uaHeaders [("Range".toList, v)] = uaHeaders [] ++ [("Range".toList, v)] := by
  rfl

/-- C9, the claim as stated fails: a `Range` header that is present with the
empty value is not sent upstream. -/
theorem segment_range_empty_counterexample :
    Headers.get emptyRangeRequest.headers "range".toList = some [] ∧
    (handleSegmentProxy sampleNet segmentUrl emptyRangeRequest []).2 = [pageCall segmentUrl] ∧
    List.lookup "Range".toList (pageCall segmentUrl).headers = none := by
  decide

/-- C9, amended. Segment passthrough: a `Range` header of the client that is
present and not empty is sent upstream verbatim, after the browser identity; an
absent or empty one sends no `Range` header.  For every upstream response to
that call, whatever its status, the handler returns a response with the same
status and body whose `Access-Control-Allow-Origin` is `*` and whose entries of
every other header name are the upstream ones. -/
theorem segment_passthrough (net : Net) (targetUrl : Str) (request : Request)
    (log : List FetchCall) :
    (∀ v, Headers.get request.headers "range".toList = some v → v ≠ [] →
      (handleSegmentProxy net targetUrl request log).2 =
        log ++ [{ url := targetUrl, headers := uaHeaders [] ++ [("Range".toList, v)] }]) ∧
    ((Headers.get request.headers "range".toList = none ∨
        Headers.get request.headers "range".toList = some []) →
      (handleSegmentProxy net targetUrl request log).2 =
        log ++ [{ url := targetUrl, headers := uaHeaders [] }]) ∧
    ∀ (call : FetchCall) (upstream : Response),
      (handleSegmentProxy net targetUrl request log).2 = log ++ [call] →
      net log call = .ok upstream →
      ∃ resp, (handleSegmentProxy net targetUrl request log).1 = .ok resp ∧
        resp.status = upstream.status ∧ resp.body = upstream.body ∧
        Headers.get resp.headers "Access-Control-Allow-Origin".toList = some "*".toList ∧
        ∀ other, lower other ≠ lower "Access-Control-Allow-Origin".toList →
          resp.headers.filter (named other) = upstream.headers.filter (named other) := by
  have hlog : (handleSegmentProxy net targetUrl request log).2 =
      log ++ [{ url := targetUrl, headers := uaHeaders (forwardedHeaders request) }] := by
    unfold handleSegmentProxy fetchWithUA
    cases net log { url := targetUrl, headers := uaHeaders (forwardedHeaders request) } <;> rfl
  refine ⟨?_, ?_, ?_⟩
  · intro v hv hne
    have ht : truthy (some v) = true := by
      cases v with
      | nil => exact absurd rfl hne
      | cons _ _ => rfl
    have hf : forwardedHeaders request = [("Range".toList, v)] := by
      unfold forwardedHeaders
      rw [hv, if_pos ht]
      rfl
    rw [hlog, hf, uaHeaders_range]
  · intro hv
    have ht : truthy (Headers.get request.headers "range".toList) = false := by
      rcases hv with hv | hv <;> (rw [hv]; rfl)
    have hf : forwardedHeaders request = [] := by
      unfold forwardedHeaders
      rw [ht]
      rfl
    rw [hlog, hf]
  · intro call upstream hcall hup
    rw [hlog] at hcall
    have hc := List.append_cancel_left hcall
    simp only [List.cons.injEq, and_true] at hc
    rw [← hc] at hup
    refine ⟨{ status := upstream.status
              headers := Headers.set upstream.headers
                "Access-Control-Allow-Origin".toList "*".toList
              body := upstream.body }, ?_, rfl, rfl, Headers.get_set _ _ _,
      fun other hne => Headers.filter_set_of_ne _ _ _ _ hne⟩
    unfold handleSegmentProxy fetchWithUA
    simp only [hup]

/-- The segment proxy on a request for the first hundred octets, answered with
status 403. -/
theorem segment_passthrough_witness :
    (handleSegmentProxy sampleNet segmentUrl rangeRequest []).2 =
      [] ++ [{ url := segmentUrl,
               headers := uaHeaders [] ++ [("Range".toList, "bytes=0-99".toList)] }] ∧
    ∃ resp, (handleSegmentProxy sampleNet segmentUrl rangeRequest []).1 = .ok resp ∧
      resp.status = 403 :=
  have h := segment_passthrough sampleNet segmentUrl rangeRequest []
  have h1 := h.1 "bytes=0-99".toList (by decide) (by decide)
  have ⟨resp, hr, hs, _⟩ := h.2.2 _ sampleUpstream h1 rfl
  ⟨h1, resp, hr, hs⟩

theorem asProducer_ok (h : Str → Request → List FetchCall → Except Str Response × List FetchCall)
    (key : Str) (request : Request) (log : List FetchCall) (r : Response)
    (hr : (h key request log).1 = .ok r) :
    (asProducer h key request log).1 = .ok (some r) := by
  unfold asProducer
  cases hh : h key request log with
  | mk res log2 =>
    rw [hh] at hr
    simp only at hr
    subst hr
    rfl

theorem handleVariant_status (resolve : Str → Str → Except Str Str) (net : Net)
    (variantUrl : Str) (request : Request) (log : List FetchCall) (resp : Response)
    (h : (handleVariantPlaylistProxy resolve net variantUrl request log).1 = .ok resp) :
    resp.status = 200 := by
  unfold handleVariantPlaylistProxy at h
  cases hf : fetchWithUA net variantUrl [] log with
  | mk res log2 =>
    rw [hf] at h
    cases res with
    | error e => exact Except.noConfusion h
    | ok up =>
      simp only at h
      cases hr : rewriteVariant resolve variantUrl (proxyBaseOf request.url) up.body with
      | error e =>
        rw [hr] at h
        exact Except.noConfusion h
      | ok out =>
        rw [hr] at h
        simp only [Except.ok.injEq] at h
        rw [← h]
        rfl

theorem handleMaster_status (net : Net) (handle : Str) (request : Request)
    (log : List FetchCall) (resp : Response)
    (h : (handleMasterRequest net handle request log).1 = .ok resp) :
    resp.status = 200 ∨ (resp.status = 404 ∧ resp.body = "Manifest not found".toList) := by
  unfold handleMasterRequest at h
  cases hf : findManifest net (candidateUrls handle) none log with
  | mk res log2 =>
    rw [hf] at h
    cases res with
    | error e => exact Except.noConfusion h
    | ok m =>
      simp only at h
      cases ht : truthy m with
      | false =>
        simp only [ht, Bool.not_false, if_true, Except.ok.injEq] at h
        rw [← h]
        exact Or.inr ⟨rfl, rfl⟩
      | true =>
        simp only [ht, Bool.not_true, Bool.false_eq_true, if_false] at h
        cases hu : fetchWithUA net (m.getD []) [] log2 with
        | mk res2 log3 =>
          rw [hu] at h
          cases res2 with
          | error e => exact Except.noConfusion h
          | ok up =>
            simp only [Except.ok.injEq] at h
            rw [← h]
            exact Or.inl rfl

/-- C10, the claim as stated fails: an upstream answer to the variant playlist
fetch whose body holds the line `https://` makes the variant rewriter throw
instead of returning status 200; `handleRequest` answers 500 and stores nothing. -/
theorem variant_unresolvable_line_counterexample :
    (fetchWithUA brokenNet sampleVariantUrl [] []).1 =
      .ok { status := 500, headers := [], body := "#EXTM3U\nhttps://\n".toList } ∧
    (handleVariantPlaylistProxy resolveURL brokenNet sampleVariantUrl sampleRequest []).1 =
      .error "Invalid URL".toList ∧
    (handleRequest resolveURL brokenNet sampleRequest emptyWorld).1 =
      some (mkTextResponse "Error: Invalid URL".toList 500 []) ∧
    (handleRequest resolveURL brokenNet sampleRequest emptyWorld).2.cache = [] := by
  decide

/-- C10, amended. Playlist producers mask the upstream status: whatever status
and headers the upstream answer to the playlist fetch has, the variant rewriter
returns status 200 with the rewritten body when every segment line of the body
resolves, and throws the resolver's error otherwise; the master rewriter, once a
manifest URL is resolved, returns status 200 with the rewritten body; in both
cases `cacheResponse` stores the returned response under the request URL.  A
response the variant rewriter returns always has status 200, and one the master
rewriter returns has status 200 or is the 404 `Manifest not found`. -/
theorem playlist_producers_mask_upstream_status :
    (∀ (resolve : Str → Str → Except Str Str) (net : Net) (variantUrl : Str)
        (request : Request) (log : List FetchCall) (status : Nat) (hdrs : Headers)
        (text : Str),
      (fetchWithUA net variantUrl [] log).1 =
        .ok { status := status, headers := hdrs, body := text } →
      ((∃ out, rewriteVariant resolve variantUrl (proxyBaseOf request.url) text = .ok out) ↔
        ∀ line ∈ splitOn '\n' text, line ≠ [] → startsWith line ['#'] = false →
          ∃ abs, resolve line variantUrl = .ok abs) ∧
      (∀ out, rewriteVariant resolve variantUrl (proxyBaseOf request.url) text = .ok out →
        (handleVariantPlaylistProxy resolve net variantUrl request log).1 =
          .ok { status := 200, headers := playlistHeaders, body := out } ∧
        ∀ (w : World) (ttl : Nat), w.log = log → w.cache.lookup request.url = none →
          (cacheResponse (asProducer (handleVariantPlaylistProxy resolve net)) variantUrl ttl
            request w).2.cache.lookup request.url =
            some (withCacheControl
              { status := 200, headers := playlistHeaders, body := out } ttl)) ∧
      (∀ e, rewriteVariant resolve variantUrl (proxyBaseOf request.url) text = .error e →
        (handleVariantPlaylistProxy resolve net variantUrl request log).1 = .error e)) ∧
    (∀ (net : Net) (handle : Str) (request : Request) (log log2 : List FetchCall)
        (manifestUrl : Str) (status : Nat) (hdrs : Headers) (text : Str),
      findManifest net (candidateUrls handle) none log = (.ok (some manifestUrl), log2) →
      manifestUrl ≠ [] →
      (fetchWithUA net manifestUrl [] log2).1 =
        .ok { status := status, headers := hdrs, body := text } →
      (handleMasterRequest net handle request log).1 =
        .ok { status := 200, headers := playlistHeaders,
              body := replaceUrls (proxyBaseOf request.url) 0 text } ∧
      ∀ (w : World) (ttl : Nat), w.log = log → w.cache.lookup request.url = none →
        (cacheResponse (asProducer (handleMasterRequest net)) handle ttl
          request w).2.cache.lookup request.url =
          some (withCacheControl
            { status := 200, headers := playlistHeaders,
              body := replaceUrls (proxyBaseOf request.url) 0 text } ttl)) ∧
    (∀ (resolve : Str → Str → Except Str Str) (net : Net) (variantUrl : Str)
        (request : Request) (log : List FetchCall) (resp : Response),
      (handleVariantPlaylistProxy resolve net variantUrl request log).1 = .ok resp →
      resp.status = 200) ∧
    (∀ (net : Net) (handle : Str) (request : Request) (log : List FetchCall)
        (resp : Response),
      (handleMasterRequest net handle request log).1 = .ok resp →
      resp.status = 200 ∨ (resp.status = 404 ∧ resp.body = "Manifest not found".toList)) := by
  refine ⟨?_, ?_, handleVariant_status, handleMaster_status⟩
  · intro resolve net variantUrl request log status hdrs text hfetch
    refine ⟨rewriteVariant_ok_iff resolve variantUrl _ text, ?_, ?_⟩
    · intro out hrw
      have hv := handleVariant_ok resolve net variantUrl request log _ out hfetch hrw
      refine ⟨hv, ?_⟩
      intro w ttl hw hmiss
      subst hw
      rw [cacheResponse_store _ variantUrl ttl request w _ hmiss (asProducer_ok _ _ _ _ _ hv)
        rfl]
      exact Cache.lookup_put _ _ _
    · intro e hrw
      exact handleVariant_error resolve net variantUrl request log _ e hfetch hrw
  · intro net handle request log log2 manifestUrl status hdrs text hfind hne hfetch
    have hm : (handleMasterRequest net handle request log).1 =
        .ok { status := 200, headers := playlistHeaders,
              body := replaceUrls (proxyBaseOf request.url) 0 text } := by
      rw [handleMaster_found net handle request log log2 manifestUrl _ hfind hne hfetch]
    refine ⟨hm, ?_⟩
    intro w ttl hw hmiss
    subst hw
    rw [cacheResponse_store _ handle ttl request w _ hmiss (asProducer_ok _ _ _ _ _ hm) rfl]
    exact Cache.lookup_put _ _ _

/-- The variant rewriter on the sample manifest served with status 403: the
rewritten playlist is returned with status 200 and stored. -/
theorem playlist_masking_witness :
    (handleVariantPlaylistProxy resolveURL sampleNet sampleVariantUrl sampleRequest []).1 =
      .ok { status := 200, headers := playlistHeaders, body := sampleRewritten.body } ∧
    (cacheResponse (asProducer (handleVariantPlaylistProxy resolveURL sampleNet))
      sampleVariantUrl CACHE_TTL_VARIANT sampleRequest emptyWorld).2.cache.lookup
        sampleRequest.url =
      some (withCacheControl
        { status := 200, headers := playlistHeaders, body := sampleRewritten.body }
        CACHE_TTL_VARIANT) :=
  have h := (playlist_producers_mask_upstream_status.1 resolveURL sampleNet sampleVariantUrl
    sampleRequest [] 403 [] samplePlaylist (by rfl)).2.1 sampleRewritten.body (by decide)
  ⟨h.1, h.2 emptyWorld CACHE_TTL_VARIANT rfl (by decide)⟩

theorem handleRequest_dispatch (resolve : Str → Str → Except Str Str) (net : Net)
    (request : Request) (w : World) (u : URLRecord) (handle filename : Str) (more : List Str)
    (hparse : parseURL request.url = .ok u)
    (hparts : (splitOn '/' u.pathname).filter (fun p => !p.isEmpty) = handle :: filename :: more)
    (hext : endsWith filename ".m3u8".toList = true) :
    handleRequest resolve net request w =
      match paramGet (searchParams u) "url".toList with
      | some target =>
        catch500 (cacheResponse (asProducer (handleSegmentProxy net)) target
          CACHE_TTL_SEGMENT request w)
      | none =>
        match paramGet (searchParams u) "variant".toList with
        | some variant =>
          catch500 (cacheResponse (asProducer (handleVariantPlaylistProxy resolve net)) variant
            CACHE_TTL_VARIANT request w)
        | none =>
          catch500 (cacheResponse (asProducer (handleMasterRequest net)) handle
            CACHE_TTL_MASTER request w) := by
  unfold handleRequest
  simp only [hparse, hparts, hext, Bool.not_true, Bool.false_eq_true, if_false]
  try rfl

/-- C5. Router dispatch undoes the rewriters' encoding: let `proxyBase` parse as
a URL, hold neither `?` nor `#`, and have a path whose first two non-empty
segments are `handle` and a file name ending in `.m3u8`.  Then, for every
string `t`, `handleRequest` on `proxyBase?variant=` + `encodeURIComponent(t)` is
the cached call of the variant rewriter with argument `t` and TTL 5, on
`proxyBase?url=` + `encodeURIComponent(t)` the cached call of the segment proxy
with argument `t` and TTL 30, and on `proxyBase` alone the cached call of the
master rewriter with `handle` and TTL 10; and the proxy base recomputed from
each of these request URLs is `proxyBase` again. -/
theorem router_undoes_rewriter_encoding (resolve : Str → Str → Except Str Str) (net : Net)
    (proxyBase t : Str) (headers : Headers) (w : World) (u : URLRecord)
    (handle filename : Str) (more : List Str)
    (hparse : parseURL proxyBase = .ok u) (hq : '?' ∉ proxyBase) (hf : '#' ∉ proxyBase)
    (hparts : (splitOn '/' u.pathname).filter (fun p => !p.isEmpty) = handle :: filename :: more)
    (hext : endsWith filename ".m3u8".toList = true) :
    handleRequest resolve net
        { url := proxyBase ++ "?variant=".toList ++ encodeURIComponent t, headers := headers } w =
      catch500 (cacheResponse (asProducer (handleVariantPlaylistProxy resolve net)) t 5
        { url := proxyBase ++ "?variant=".toList ++ encodeURIComponent t, headers := headers }
        w) ∧
    handleRequest resolve net
        { url := proxyBase ++ "?url=".toList ++ encodeURIComponent t, headers := headers } w =
      catch500 (cacheResponse (asProducer (handleSegmentProxy net)) t 30
        { url := proxyBase ++ "?url=".toList ++ encodeURIComponent t, headers := headers } w) ∧
    handleRequest resolve net { url := proxyBase, headers := headers } w =
      catch500 (cacheResponse (asProducer (handleMasterRequest net)) handle 10
        { url := proxyBase, headers := headers } w) ∧
    proxyBaseOf (proxyBase ++ "?variant=".toList ++ encodeURIComponent t) = proxyBase ∧
    proxyBaseOf (proxyBase ++ "?url=".toList ++ encodeURIComponent t) = proxyBase ∧
    proxyBaseOf proxyBase = proxyBase := by
  have hhash : ∀ name : Str, '#' ∉ name → '#' ∉ name ++ '=' :: encodeURIComponent t := by
    intro name hn hm
    rcases List.mem_append.mp hm with hm | hm
    · exact hn hm
    · rcases List.mem_cons.mp hm with hm | hm
      · exact absurd hm (by decide)
      · exact not_mem_encodeURIComponent t '#' (by decide) (by decide) hm
  have e1 : proxyBase ++ "?variant=".toList ++ encodeURIComponent t =
      proxyBase ++ '?' :: ("variant".toList ++ '=' :: encodeURIComponent t) := by
    simp
  have e2 : proxyBase ++ "?url=".toList ++ encodeURIComponent t =
      proxyBase ++ '?' :: ("url".toList ++ '=' :: encodeURIComponent t) := by
    simp
  have p1 := (parseURL_query proxyBase _ u hparse hq hf (hhash "variant".toList (by decide))).1
  have p2 := (parseURL_query proxyBase _ u hparse hq hf (hhash "url".toList (by decide))).1
  have p0 := (parseURL_query proxyBase [] u hparse hq hf (by simp)).2
  have s1 := searchParams_single u.pathname "variant".toList t (by decide) (by decide)
  have s2 := searchParams_single u.pathname "url".toList t (by decide) (by decide)
  have s0 : searchParams u = [] := by
    unfold searchParams
    rw [p0]
    rfl
  refine ⟨?_, ?_, ?_, ?_, ?_, ?_⟩
  · rw [handleRequest_dispatch resolve net _ w
      { pathname := u.pathname,
        query := queryEncode ("variant".toList ++ '=' :: encodeURIComponent t) }
      handle filename more (by rw [e1]; exact p1) hparts hext, s1]
    rfl
  · rw [handleRequest_dispatch resolve net _ w
      { pathname := u.pathname,
        query := queryEncode ("url".toList ++ '=' :: encodeURIComponent t) }
      handle filename more (by rw [e2]; exact p2) hparts hext, s2]
    rfl
  · rw [handleRequest_dispatch resolve net _ w u handle filename more hparse hparts hext, s0]
    rfl
  · rw [e1]; exact proxyBaseOf_append _ _ hq
  · rw [e2]; exact proxyBaseOf_append _ _ hq
  · exact proxyBaseOf_self _ hq

/-- The router on the rewritten URLs of the sample playlist. -/
theorem router_undoes_rewriter_encoding_witness :
    handleRequest resolveURL sampleNet
        { url := masterRequest.url ++ "?variant=".toList ++ encodeURIComponent sampleVariantUrl,
          headers := [] } emptyWorld =
      catch500 (cacheResponse (asProducer (handleVariantPlaylistProxy resolveURL sampleNet))
        sampleVariantUrl 5
        { url := masterRequest.url ++ "?variant=".toList ++ encodeURIComponent sampleVariantUrl,
          headers := [] } emptyWorld) ∧
    proxyBaseOf (masterRequest.url ++ "?variant=".toList ++ encodeURIComponent sampleVariantUrl) =
      masterRequest.url :=
  have h := router_undoes_rewriter_encoding resolveURL sampleNet masterRequest.url
    sampleVariantUrl [] emptyWorld
    { pathname := "/@example/stream.m3u8".toList, query := [] }
    "@example".toList "stream.m3u8".toList [] (by decide) (by decide) (by decide) (by decide)
    (by decide)
  ⟨h.1, h.2.2.2.1⟩

/-- C4, the code at a URL inside a quoted tag attribute: for the master manifest
line `#EXT-X-MEDIA:TYPE=AUDIO,URI="https://cdn/a.m3u8",NAME="en"` the match of
the pattern runs on over the closing quote, so the emitted proxy URL carries
`%22` and the closing quote is gone from the line; the router reads back
`https://cdn/a.m3u8"`, which is not the embedded URL `https://cdn/a.m3u8`. -/
theorem attribute_url_reads_back_with_quote :
    (handleMasterRequest watchNet "abc".toList masterRequest []).1 =
      .ok { status := 200, headers := playlistHeaders,
            body := ("#EXT-X-MEDIA:TYPE=AUDIO,URI=\"https://proxy.example/@example/stream.m3u8" ++
              "?variant=https%3A%2F%2Fcdn%2Fa.m3u8%22,NAME=\"en\"\n").toList } ∧
    (parseURL ("https://proxy.example/@example/stream.m3u8" ++
        "?variant=https%3A%2F%2Fcdn%2Fa.m3u8%22").toList).map
        (fun u => paramGet (searchParams u) "variant".toList) =
      .ok (some "https://cdn/a.m3u8\"".toList) ∧
    "https://cdn/a.m3u8\"".toList ≠ "https://cdn/a.m3u8".toList := by
  decide

end Workers
